import Mathlib

/-!
Shallow embedding of `src/sparse/linalg/trisolve.rs` (sparse triangular
solves) and verification of its specification.

The numeric element type `N : Copy + Num` is instantiated at `ℚ`, an exact
field, matching the "exact arithmetic" reading of the specification.

The storage containers (`CsMatView`, `CsVecView`, `DStack`) and the error
enum `SprsError` live outside the embedded file; they are modelled from the
specification (sections 3, 4.1 and 6), constrained by the tests that are
part of the embedded file.
-/

namespace Sprs

/-- Storage orientation tag of a compressed sparse matrix (CSR row-major /
CSC column-major). Modelled from the spec: data model, orientation tag. -/
inductive StorageType where
  | CSR : StorageType
  | CSC : StorageType
deriving DecidableEq, Repr

/-- Error kinds surfaced by the solvers. Modelled from the spec: error kinds
`SingularMatrix` and `BadStorageType` (section 6). -/
inductive SprsError where
  | SingularMatrix : SprsError
  | BadStorageType : SprsError
deriving DecidableEq, Repr

/-- Result of a Rust function that can abort the process (`fatal` models a
panic or assertion failure), return a recoverable error, or succeed. -/
inductive Outcome (α : Type) where
  | fatal : Outcome α
  | err : SprsError → Outcome α
  | ok : α → Outcome α
deriving DecidableEq, Repr

/-- Modelled from the spec: the immutable matrix view `CsMatView`.
`outer` holds, for each outer index (row for CSR, column for CSC), the
ordered sequence of `(inner_index, value)` pairs; the order is not
guaranteed ascending. -/
structure CsMatView where
  rows : Nat
  cols : Nat
  storage : StorageType
  outer : List (List (Nat × ℚ))
deriving DecidableEq, Repr

/-- Orientation test `is_csr`. -/
def CsMatView.is_csr (m : CsMatView) : Bool :=
  match m.storage with
  | StorageType.CSR => true
  | StorageType.CSC => false

/-- Orientation test `is_csc`. -/
def CsMatView.is_csc (m : CsMatView) : Bool :=
  match m.storage with
  | StorageType.CSR => false
  | StorageType.CSC => true

/-- Modelled from the spec: `outer_view` returns the sequence of stored
entries of one outer dimension, if the index is in bounds. -/
def CsMatView.outer_view (m : CsMatView) (i : Nat) : Option (List (Nat × ℚ)) :=
  m.outer.get? i

/-- Shape check shared by the four dense solvers (`check_solver_dimensions`):
panics on a non-square matrix or on a dimension mismatch with the vector. -/
def check_solver_dimensions (m : CsMatView) (rhsLen : Nat) : Bool :=
  m.cols == m.rows && m.cols == rhsLen

/-- Scan of one row of `lsolve_csr_dense_rhs`: fold over the stored entries,
remembering the last entry on the diagonal and accumulating
`x - val * rhs[col]` over entries strictly below the diagonal; entries above
the diagonal are skipped. Returns `(diag_val, x)`. -/
def lsolve_csr_row_scan (row_ind : Nat) (rhs : List ℚ) (row : List (Nat × ℚ)) : ℚ × ℚ :=
  row.foldl
    (fun acc e =>
      if e.1 = row_ind then (e.2, acc.2)
      else if row_ind < e.1 then acc
      else (acc.1, acc.2 - e.2 * rhs.getD e.1 0))
    (0, rhs.getD row_ind 0)

/-- Row loop of `lsolve_csr_dense_rhs`: rows ascending, solving each row
against the already-written prefix of the in/out vector. -/
def lsolve_csr_loop : Nat → List (List (Nat × ℚ)) → List ℚ → Outcome (List ℚ)
  | _, [], rhs => Outcome.ok rhs
  | i, row :: rest, rhs =>
    let dv := lsolve_csr_row_scan i rhs row
    if dv.1 = 0 then Outcome.err SprsError.SingularMatrix
    else lsolve_csr_loop (i + 1) rest (rhs.set i (dv.2 / dv.1))

/-- Embedding of `lsolve_csr_dense_rhs`: forward substitution for a
lower-triangular CSR matrix with a dense right-hand side, in place. -/
def lsolve_csr_dense_rhs (lower_tri_mat : CsMatView) (rhs : List ℚ) : Outcome (List ℚ) :=
  if check_solver_dimensions lower_tri_mat rhs.length = false then Outcome.fatal
  else if lower_tri_mat.is_csr = false then Outcome.fatal
  else lsolve_csr_loop 0 lower_tri_mat.outer rhs

/-- Propagation loop of `lspsolve_csc_process_col`: for every stored entry of
the column strictly below the pivot, subtract the scaled pivot value from the
corresponding position of the in/out vector; entries at or above the pivot
are skipped. -/
def updCol (col_ind : Nat) (x : ℚ) : List (Nat × ℚ) → List ℚ → List ℚ
  | [], r => r
  | e :: t, r =>
    if e.1 ≤ col_ind then updCol col_ind x t r
    else updCol col_ind x t (r.set e.1 (r.getD e.1 0 - e.2 * x))

/-- Embedding of `lspsolve_csc_process_col`: locate the diagonal entry of the
column, fail with `SingularMatrix` if it is absent or zero, otherwise divide
the pivot position by it and propagate a scaled subtraction to every stored
entry strictly below the diagonal. -/
def lspsolve_csc_process_col (col : List (Nat × ℚ)) (col_ind : Nat) (rhs : List ℚ) :
    Except SprsError (List ℚ) :=
  match col.find? (fun e => e.1 == col_ind) with
  | none => Except.error SprsError.SingularMatrix
  | some d =>
    if d.2 = 0 then Except.error SprsError.SingularMatrix
    else
      let x := rhs.getD col_ind 0 / d.2
      Except.ok (updCol col_ind x col (rhs.set col_ind x))

/-- Column loop of `lsolve_csc_dense_rhs`: columns ascending, each processed
by `lspsolve_csc_process_col`. -/
def lsolve_csc_loop : Nat → List (List (Nat × ℚ)) → List ℚ → Outcome (List ℚ)
  | _, [], rhs => Outcome.ok rhs
  | i, col :: rest, rhs =>
    match lspsolve_csc_process_col col i rhs with
    | Except.error e => Outcome.err e
    | Except.ok rhs1 => lsolve_csc_loop (i + 1) rest rhs1

/-- Embedding of `lsolve_csc_dense_rhs`: forward substitution for a
lower-triangular CSC matrix with a dense right-hand side, in place. -/
def lsolve_csc_dense_rhs (lower_tri_mat : CsMatView) (rhs : List ℚ) : Outcome (List ℚ) :=
  if check_solver_dimensions lower_tri_mat rhs.length = false then Outcome.fatal
  else if lower_tri_mat.is_csc = false then Outcome.fatal
  else lsolve_csc_loop 0 lower_tri_mat.outer rhs

/-- Propagation loop of the column step of `usolve_csc_dense_rhs`: mirror
image of `updCol`, subtracting at the stored entries strictly above the
pivot. -/
def updColU (col_ind : Nat) (x : ℚ) : List (Nat × ℚ) → List ℚ → List ℚ
  | [], r => r
  | e :: t, r =>
    if col_ind ≤ e.1 then updColU col_ind x t r
    else updColU col_ind x t (r.set e.1 (r.getD e.1 0 - e.2 * x))

/-- Column step of `usolve_csc_dense_rhs` (inlined in the source): like
`lspsolve_csc_process_col` but the scaled subtraction propagates to entries
strictly above the diagonal. -/
def usolve_csc_process_col (col : List (Nat × ℚ)) (col_ind : Nat) (rhs : List ℚ) :
    Except SprsError (List ℚ) :=
  match col.find? (fun e => e.1 == col_ind) with
  | none => Except.error SprsError.SingularMatrix
  | some d =>
    if d.2 = 0 then Except.error SprsError.SingularMatrix
    else
      let x := rhs.getD col_ind 0 / d.2
      Except.ok (updColU col_ind x col (rhs.set col_ind x))

/-- Column loop of `usolve_csc_dense_rhs` over the reverse-enumerated columns
(columns descending). -/
def usolve_csc_loop : List (Nat × List (Nat × ℚ)) → List ℚ → Outcome (List ℚ)
  | [], rhs => Outcome.ok rhs
  | (i, col) :: rest, rhs =>
    match usolve_csc_process_col col i rhs with
    | Except.error e => Outcome.err e
    | Except.ok rhs1 => usolve_csc_loop rest rhs1

/-- Embedding of `usolve_csc_dense_rhs`: backward substitution for an
upper-triangular CSC matrix with a dense right-hand side, in place. -/
def usolve_csc_dense_rhs (upper_tri_mat : CsMatView) (rhs : List ℚ) : Outcome (List ℚ) :=
  if check_solver_dimensions upper_tri_mat rhs.length = false then Outcome.fatal
  else if upper_tri_mat.is_csc = false then Outcome.fatal
  else usolve_csc_loop upper_tri_mat.outer.enum.reverse rhs

/-- Scan of one row of `usolve_csr_dense_rhs`: fold over the stored entries,
remembering the last entry on the diagonal and accumulating
`x - val * rhs[col]` over entries strictly above the diagonal; entries below
the diagonal are skipped. Returns `(diag_val, x)`. -/
def usolve_csr_row_scan (row_ind : Nat) (rhs : List ℚ) (row : List (Nat × ℚ)) : ℚ × ℚ :=
  row.foldl
    (fun acc e =>
      if e.1 = row_ind then (e.2, acc.2)
      else if e.1 < row_ind then acc
      else (acc.1, acc.2 - e.2 * rhs.getD e.1 0))
    (0, rhs.getD row_ind 0)

/-- Row loop of `usolve_csr_dense_rhs` over the reverse-enumerated rows
(rows descending). -/
def usolve_csr_loop : List (Nat × List (Nat × ℚ)) → List ℚ → Outcome (List ℚ)
  | [], rhs => Outcome.ok rhs
  | (i, row) :: rest, rhs =>
    let dv := usolve_csr_row_scan i rhs row
    if dv.1 = 0 then Outcome.err SprsError.SingularMatrix
    else usolve_csr_loop rest (rhs.set i (dv.2 / dv.1))

/-- Embedding of `usolve_csr_dense_rhs`: backward substitution for an
upper-triangular CSR matrix with a dense right-hand side, in place. -/
def usolve_csr_dense_rhs (upper_tri_mat : CsMatView) (rhs : List ℚ) : Outcome (List ℚ) :=
  if check_solver_dimensions upper_tri_mat rhs.length = false then Outcome.fatal
  else if upper_tri_mat.is_csr = false then Outcome.fatal
  else usolve_csr_loop upper_tri_mat.outer.enum.reverse rhs

/-- Modelled from the spec: the tagged union pushed on the dependency stack,
`Discover` and `Finalize` markers over an index (`StackVal::Enter` /
`StackVal::Exit` in the source). -/
inductive StackVal where
  | Enter : Nat → StackVal
  | Exit : Nat → StackVal
deriving DecidableEq, Repr

/-- Untagging helper `extract_stack_val`. -/
def extract_stack_val : StackVal → Nat
  | StackVal.Enter i => i
  | StackVal.Exit i => i

/-- Modelled from the spec: the two-sided dependency stack `DStack` with a
fixed capacity shared by the pending (left) and finished (right) sides.
Both lists hold their most recently pushed entry first; reading the right
side (`iter_right`) therefore starts from the entry pushed last, which is
the replay order required by the tests embedded in the source file. -/
structure DStack where
  cap : Nat
  left : List StackVal
  right : List StackVal
deriving DecidableEq, Repr

/-- State of the iterative depth-first traversal inside
`lsolve_csc_sparse_rhs`: the visited marker array, the two sides of the
dependency stack, and the largest total occupancy (left plus right entry
count) the stack reached so far. -/
structure DfsState where
  visited : List Bool
  left : List StackVal
  right : List StackVal
  maxOcc : Nat
deriving DecidableEq, Repr

/-- Total number of entries currently held by the dependency stack. -/
def DfsState.occ (s : DfsState) : Nat := s.left.length + s.right.length

/-- Inner `while let Some(stack_val) = dstack.pop_left()` loop of
`lsolve_csc_sparse_rhs`, with explicit fuel: popping a `Discover` marker of
an unvisited index marks it visited, pushes its `Finalize` marker and then a
`Discover` marker for every stored entry of its column; popping a `Finalize`
marker moves it to the finished side. `none` models a panic (an out-of-range
index) or fuel exhaustion.

The pushes are not capacity-checked here: the loop records the running peak
occupancy in `maxOcc` (each iteration and the final state see the occupancy
left by the preceding pushes, and within one iteration the occupancy only
climbs towards that value), and `lsolve_csc_sparse_rhs` reports the spec's
capacity-overflow panic exactly when the recorded peak exceeds the
dependency stack's capacity. -/
def dfsLoop (mat : CsMatView) : Nat → DfsState → Option DfsState
  | 0, _ => none
  | fuel + 1, s =>
    match s.left with
    | [] => some { s with maxOcc := max s.maxOcc s.occ }
    | StackVal.Enter ind :: rest =>
      if ind < s.visited.length then
        if s.visited.getD ind false then
          dfsLoop mat fuel { s with left := rest, maxOcc := max s.maxOcc s.occ }
        else
          match mat.outer_view ind with
          | none => none
          | some column =>
            dfsLoop mat fuel
              { visited := s.visited.set ind true,
                left := (column.map (fun e => StackVal.Enter e.1)).reverse ++
                  (StackVal.Exit ind :: rest),
                right := s.right,
                maxOcc := max s.maxOcc s.occ }
      else none
    | StackVal.Exit ind :: rest =>
      dfsLoop mat fuel
        { s with
          left := rest
          right := StackVal.Enter ind :: s.right
          maxOcc := max s.maxOcc s.occ }

/-- Fuel bound sufficient for `dfsLoop` on well-formed inputs (established by
`dfsLoop_run`): one step per pop, bounded through the visit count and the
stored entry count. -/
def dfsFuel (mat : CsMatView) : Nat :=
  2 + mat.rows * (2 + (mat.outer.map List.length).sum)

/-- Outer `for (root_ind, _) in rhs.iter()` loop of `lsolve_csc_sparse_rhs`:
every not-yet-visited nonzero index of the right-hand side is pushed as a
`Discover` root and the traversal loop is drained. -/
def dfsRoots (mat : CsMatView) : List Nat → DfsState → Option DfsState
  | [], s => some s
  | r :: rs, s =>
    if r < s.visited.length then
      if s.visited.getD r false then dfsRoots mat rs s
      else
        match dfsLoop mat (dfsFuel mat) { s with left := StackVal.Enter r :: s.left } with
        | none => none
        | some s1 => dfsRoots mat rs s1
    else none

/-- Modelled from the spec: `CsVecView::scatter` writes the sparse vector's
values into the dense buffer at their indices, leaving other positions
untouched. -/
def scatter (rhs : List (Nat × ℚ)) (ws : List ℚ) : List ℚ :=
  rhs.foldl (fun w e => w.set e.1 e.2) ws

/-- Result of the numeric replay loop: fatal panic, `SingularMatrix` with the
workspace as left at the failure, or success. -/
inductive ReplayRes where
  | fatal : ReplayRes
  | err : List ℚ → ReplayRes
  | ok : List ℚ → ReplayRes
deriving DecidableEq, Repr

/-- Numeric replay loop of `lsolve_csc_sparse_rhs`: the finished side of the
dependency stack is read end-to-end and each index's column is eliminated
into the dense workspace by `lspsolve_csc_process_col`. -/
def replayLoop (mat : CsMatView) : List Nat → List ℚ → ReplayRes
  | [], ws => ReplayRes.ok ws
  | ind :: rest, ws =>
    match mat.outer_view ind with
    | none => ReplayRes.fatal
    | some col =>
      match lspsolve_csc_process_col col ind ws with
      | Except.error _ => ReplayRes.err ws
      | Except.ok ws1 => replayLoop mat rest ws1

/-- Buffer state returned by the sparse solver: the dependency stack (whose
right side holds the nonzero pattern), the dense workspace holding the solve
values at those indices, and the visited marker array. -/
structure SparseOut where
  dstack : DStack
  x_workspace : List ℚ
  visited : List Bool
deriving DecidableEq, Repr

/-- Result of `lsolve_csc_sparse_rhs`: fatal abort, recoverable error (with
the buffers as the call leaves them), or success. -/
inductive SpOutcome where
  | fatal : SpOutcome
  | err : SprsError → SparseOut → SpOutcome
  | ok : SparseOut → SpOutcome
deriving DecidableEq, Repr

/-- Embedding of `lsolve_csc_sparse_rhs`: the sparse-right-hand-side solve.
Checks the orientation (recoverable `BadStorageType`), asserts the scratch
buffer preconditions, discovers the nonzero pattern by iterative depth-first
search over the matrix graph, scatters the right-hand side into the
workspace and replays the finished indices through the column elimination
step.

The spec makes a push beyond the dependency stack's capacity fatal. The
traversal (`dfsRoots`) is modelled as running to completion while recording
its peak occupancy `maxOcc`, and equals the peak occupancy the stack ever
reaches right after a push, because every loop entry and the final state
record the occupancy left by the preceding pushes; some push overflows the
real `DStack` exactly when that peak exceeds `cap`. The solver therefore
reports the capacity-overflow panic (`fatal`) whenever the recorded peak
exceeds the capacity — the program's abort point itself is unobservable in
the returned result, which carries no buffers on a panic. -/
def lsolve_csc_sparse_rhs (lower_tri_mat : CsMatView) (rhs : List (Nat × ℚ))
    (dstack : DStack) (x_workspace : List ℚ) (visited : List Bool) : SpOutcome :=
  if lower_tri_mat.is_csc = false then
    SpOutcome.err SprsError.BadStorageType ⟨dstack, x_workspace, visited⟩
  else
    let n := lower_tri_mat.rows
    if dstack.cap < 2 * n then SpOutcome.fatal
    else if dstack.left ≠ [] then SpOutcome.fatal
    else if dstack.right ≠ [] then SpOutcome.fatal
    else if x_workspace.length ≠ n then SpOutcome.fatal
    else
      match dfsRoots lower_tri_mat (rhs.map Prod.fst)
          ⟨visited, dstack.left, dstack.right, 0⟩ with
      | none => SpOutcome.fatal
      | some s =>
        if dstack.cap < s.maxOcc then SpOutcome.fatal
        else
          let ws0 := scatter rhs x_workspace
          match replayLoop lower_tri_mat (s.right.map extract_stack_val) ws0 with
          | ReplayRes.fatal => SpOutcome.fatal
          | ReplayRes.err ws =>
            SpOutcome.err SprsError.SingularMatrix
              ⟨⟨dstack.cap, s.left, s.right⟩, ws, s.visited⟩
          | ReplayRes.ok ws =>
            SpOutcome.ok ⟨⟨dstack.cap, s.left, s.right⟩, ws, s.visited⟩

/-! Specification-side definitions: dense reads, well-formedness of the
storage containers, triangular matrix-vector products, and the sub-diagonal
dependency graph. -/

/-- Dense read of position `i`, with the convention that an absent position
reads as `0` (all solver theorems assume in-range indices). -/
def dGet (v : List ℚ) (i : Nat) : ℚ := v.getD i 0

/-- An outer sequence is well formed when its inner indices are pairwise
distinct and within the matrix dimension, as the compressed-storage
containers guarantee. -/
abbrev outerWF (n : Nat) (l : List (Nat × ℚ)) : Prop :=
  (l.map Prod.fst).Nodup ∧ ∀ e ∈ l, e.1 < n

/-- Well-formed n-by-n matrix view: square, one outer sequence per outer
index, each outer sequence well formed. -/
abbrev matWF (m : CsMatView) : Prop :=
  m.rows = m.cols ∧ m.outer.length = m.rows ∧ ∀ l ∈ m.outer, outerWF m.rows l

/-- Every diagonal entry is stored and nonzero. -/
abbrev diagAllNonzero (m : CsMatView) : Prop :=
  ∀ i, i < m.rows → ∃ e ∈ m.outer.getD i [], e.1 = i ∧ e.2 ≠ 0

/-- Lower-triangular storage of a CSC matrix (or, transposed, upper-triangular
storage of a CSR matrix): every stored entry of outer sequence `j` has inner
index at least `j`. -/
abbrev lowerTri (m : CsMatView) : Prop :=
  ∀ j, j < m.outer.length → ∀ e ∈ m.outer.getD j [], j ≤ e.1

/-- Every outer sequence stores its inner indices in strictly ascending
order. -/
abbrev sortedOuter (m : CsMatView) : Prop :=
  ∀ l ∈ m.outer, (l.map Prod.fst).Chain' (fun a b => a < b)

/-- Sum of `value * x[inner]` over a list of stored entries. -/
def entrySum (l : List (Nat × ℚ)) (x : List ℚ) : ℚ :=
  (l.map (fun e => e.2 * dGet x e.1)).sum

/-- Row `i` of the lower-triangular part of a CSR matrix applied to `x`:
stored entries of row `i` with column at most `i`. -/
def csrLowerMulAt (m : CsMatView) (x : List ℚ) (i : Nat) : ℚ :=
  entrySum ((m.outer.getD i []).filter (fun e => decide (e.1 ≤ i))) x

/-- Row `i` of the upper-triangular part of a CSR matrix applied to `x`:
stored entries of row `i` with column at least `i`. -/
def csrUpperMulAt (m : CsMatView) (x : List ℚ) (i : Nat) : ℚ :=
  entrySum ((m.outer.getD i []).filter (fun e => decide (i ≤ e.1))) x

/-- Contribution of column `j` (with stored entries `col`) to row `i` of a
lower-triangular CSC product: entries at row `i` on or below the diagonal. -/
def colContribL (i j : Nat) (col : List (Nat × ℚ)) (x : List ℚ) : ℚ :=
  ((col.filter (fun e => e.1 == i && decide (j ≤ e.1))).map (fun e => e.2 * dGet x j)).sum

/-- Contribution of column `j` to row `i` of an upper-triangular CSC product:
entries at row `i` on or above the diagonal. -/
def colContribU (i j : Nat) (col : List (Nat × ℚ)) (x : List ℚ) : ℚ :=
  ((col.filter (fun e => e.1 == i && decide (e.1 ≤ j))).map (fun e => e.2 * dGet x j)).sum

/-- Row `i` of the lower-triangular part of a CSC matrix applied to `x`. -/
def cscLowerMulAt (m : CsMatView) (x : List ℚ) (i : Nat) : ℚ :=
  (m.outer.enum.map (fun jc => colContribL i jc.1 jc.2 x)).sum

/-- Row `i` of the upper-triangular part of a CSC matrix applied to `x`. -/
def cscUpperMulAt (m : CsMatView) (x : List ℚ) (i : Nat) : ℚ :=
  (m.outer.enum.map (fun jc => colContribU i jc.1 jc.2 x)).sum

/-- Partial lower-triangular CSC product: contributions of the columns
`cols`, whose first element is column `j0`, to row `i`. -/
def colsLowerProd (j0 : Nat) (cols : List (List (Nat × ℚ))) (i : Nat) (x : List ℚ) : ℚ :=
  ((cols.enumFrom j0).map (fun jc => colContribL i jc.1 jc.2 x)).sum

/-- Partial upper-triangular CSC product over an explicit list of
(column index, column) pairs, applied to row `i`. -/
def pairsUpperProd (ps : List (Nat × List (Nat × ℚ))) (i : Nat) (x : List ℚ) : ℚ :=
  (ps.map (fun jc => colContribU i jc.1 jc.2 x)).sum

/-- Descending enumeration `n-1, n-2, ..., 0`, the processing order of the
two backward (upper-triangular) solvers and its mirror for induction. -/
def countdown : Nat → List Nat
  | 0 => []
  | n + 1 => n :: countdown n

/-- Visited flag of index `i` in a traversal state (false when out of
range). -/
def getVis (s : DfsState) (i : Nat) : Bool := s.visited.getD i false

/-- Indices of the `Finalize` (Exit) markers still on the pending side. -/
def leftExits (l : List StackVal) : List Nat :=
  l.filterMap (fun sv => match sv with
    | StackVal.Exit u => some u
    | StackVal.Enter _ => none)

/-- Indices held on the finished side, most recently pushed first. -/
def rightInds (l : List StackVal) : List Nat := l.map extract_stack_val

/-- Stack-order relation maintained by the traversal on a lower-triangular
matrix: every `Finalize` marker lies below markers of larger (for `Discover`,
at least as large) indices. -/
def stackR (a b : StackVal) : Prop :=
  ∀ u, b = StackVal.Exit u →
    (match a with
     | StackVal.Enter w => u ≤ w
     | StackVal.Exit v => u < v)

/-- Shape invariant of the pending side when every column is stored in
ascending inner order: reading from the top, `Discover` entries descend
strictly below the bound `he` and `Finalize` entries stay below `hx`,
re-tightening the bounds downward. It forces the pending side to hold at
most `he` entries plus one per `Finalize` marker. -/
def SegInv : List StackVal → Nat → Nat → Prop
  | [], _, _ => True
  | StackVal.Enter w :: rest, he, _ => w < he ∧ SegInv rest w (w + 1)
  | StackVal.Exit u :: rest, _, hx => u < hx ∧ SegInv rest u u

/-- Point lookup in one outer sequence: the value stored at inner index `j`,
or `0` when no entry is stored there. -/
def keyVal (l : List (Nat × ℚ)) (j : Nat) : ℚ :=
  ((l.find? (fun e => e.1 == j)).map Prod.snd).getD 0

/-- Logical entry `(i, j)` of a CSR matrix: looked up in row `i`. -/
def csrEntry (m : CsMatView) (i j : Nat) : ℚ := keyVal (m.outer.getD i []) j

/-- Logical entry `(i, j)` of a CSC matrix: looked up in column `j`. -/
def cscEntry (m : CsMatView) (i j : Nat) : ℚ := keyVal (m.outer.getD j []) i

/-- Edge of the sub-diagonal dependency graph: `j → i` whenever column `j`
has a stored entry at row `i` with `i` greater than `j`. -/
def depEdge (m : CsMatView) (j i : Nat) : Prop :=
  j < i ∧ ∃ v, (i, v) ∈ m.outer.getD j []

/-- Reachability from the right-hand side's nonzero indices through the
sub-diagonal dependency graph (a nonzero index is itself reachable). -/
inductive Reach (m : CsMatView) (roots : List Nat) : Nat → Prop where
  | root : ∀ r, r ∈ roots → Reach m roots r
  | step : ∀ j i, Reach m roots j → depEdge m j i → Reach m roots i

/-- Transitive dependency: `Dep m j i` when `i` transitively depends on `j`
(there is a nonempty edge path from `j` to `i`). -/
def Dep (m : CsMatView) (j i : Nat) : Prop :=
  Relation.TransGen (depEdge m) j i

/-! Basic facts about dense reads, point lookup and the column propagation
loops. -/

lemma dGet_set_self {v : List ℚ} {i : Nat} (h : i < v.length) (a : ℚ) :
    dGet (v.set i a) i = a := by
  simp [dGet, List.getD_eq_getD_get?, List.get?_eq_getElem?,
    List.getElem?_set_eq_of_lt _ h]

lemma dGet_set_ne {v : List ℚ} {i j : Nat} (h : i ≠ j) (a : ℚ) :
    dGet (v.set i a) j = dGet v j := by
  simp [dGet, List.getD_eq_getD_get?, List.get?_eq_getElem?,
    List.getElem?_set_ne h]

lemma find?_key_eq_none {l : List (Nat × ℚ)} {p : Nat}
    (h : ∀ v, (p, v) ∉ l) : l.find? (fun e => e.1 == p) = none := by
  rw [List.find?_eq_none]
  rintro ⟨a, b⟩ he hab
  simp only [beq_iff_eq] at hab
  exact h b (hab ▸ he)

lemma find?_key_mem {l : List (Nat × ℚ)} {p : Nat} {v : ℚ}
    (hnd : (l.map Prod.fst).Nodup) (hm : (p, v) ∈ l) :
    l.find? (fun e => e.1 == p) = some (p, v) := by
  induction l with
  | nil => simp at hm
  | cons e t ih =>
    simp only [List.map_cons, List.nodup_cons] at hnd
    rcases List.mem_cons.mp hm with he | ht
    · subst he
      simp [List.find?]
    · have hep : e.1 ≠ p := by
        intro hcontra
        exact hnd.1 (hcontra ▸ List.mem_map.mpr ⟨(p, v), ht, rfl⟩)
      have : (e.1 == p) = false := beq_eq_false_iff_ne.mpr hep
      simp only [List.find?, this]
      exact ih hnd.2 ht

lemma updCol_length (p : Nat) (x : ℚ) (col : List (Nat × ℚ)) (r : List ℚ) :
    (updCol p x col r).length = r.length := by
  induction col generalizing r with
  | nil => rfl
  | cons e t ih =>
    unfold updCol
    split
    · exact ih r
    · rw [ih]; simp

lemma updCol_dGet_not_mem {p : Nat} {x : ℚ} {col : List (Nat × ℚ)} {r : List ℚ} {i : Nat}
    (h : ∀ e ∈ col, e.1 = i → e.1 ≤ p) :
    dGet (updCol p x col r) i = dGet r i := by
  induction col generalizing r with
  | nil => rfl
  | cons e t ih =>
    unfold updCol
    split
    · exact ih (fun e' he' => h e' (List.mem_cons_of_mem _ he'))
    · rename_i hgt
      have hne : e.1 ≠ i := by
        intro hcontra
        exact hgt (h e (List.mem_cons_self _ _) hcontra)
      rw [ih (fun e' he' => h e' (List.mem_cons_of_mem _ he')), dGet_set_ne hne]

lemma updCol_dGet_mem {p : Nat} {x : ℚ} {col : List (Nat × ℚ)} {r : List ℚ} {i : Nat} {v : ℚ}
    (hnd : (col.map Prod.fst).Nodup) (hm : (i, v) ∈ col) (hpi : p < i)
    (hlen : i < r.length) :
    dGet (updCol p x col r) i = dGet r i - v * x := by
  induction col generalizing r with
  | nil => simp at hm
  | cons e t ih =>
    simp only [List.map_cons, List.nodup_cons] at hnd
    rcases List.mem_cons.mp hm with he | ht
    · subst he
      unfold updCol
      rw [if_neg (not_le.mpr hpi)]
      have hno : ∀ e' ∈ t, e'.1 = i → e'.1 ≤ p := by
        intro e' he' h1
        exact absurd (h1 ▸ List.mem_map.mpr ⟨e', he', rfl⟩) hnd.1
      rw [updCol_dGet_not_mem hno, dGet_set_self (by simpa using hlen)]
      rfl
    · have hne : e.1 ≠ i := by
        intro hcontra
        exact hnd.1 (hcontra ▸ List.mem_map.mpr ⟨(i, v), ht, rfl⟩)
      unfold updCol
      split
      · exact ih hnd.2 ht hlen
      · rw [ih hnd.2 ht (by simpa using hlen), dGet_set_ne hne]

lemma process_col_find_none {col : List (Nat × ℚ)} {p : Nat} {rhs : List ℚ}
    (h : col.find? (fun e => e.1 == p) = none) :
    lspsolve_csc_process_col col p rhs = Except.error SprsError.SingularMatrix := by
  unfold lspsolve_csc_process_col
  rw [h]

lemma process_col_find_zero {col : List (Nat × ℚ)} {p : Nat} {rhs : List ℚ}
    {d : Nat × ℚ} (h : col.find? (fun e => e.1 == p) = some d) (hz : d.2 = 0) :
    lspsolve_csc_process_col col p rhs = Except.error SprsError.SingularMatrix := by
  unfold lspsolve_csc_process_col
  rw [h]
  simp [hz]

lemma process_col_ok_eq {col : List (Nat × ℚ)} {p : Nat} {rhs : List ℚ}
    {d : Nat × ℚ} (h : col.find? (fun e => e.1 == p) = some d) (hz : d.2 ≠ 0) :
    lspsolve_csc_process_col col p rhs =
      Except.ok (updCol p (dGet rhs p / d.2) col (rhs.set p (dGet rhs p / d.2))) := by
  unfold lspsolve_csc_process_col
  rw [h]
  simp [hz, dGet]

/-- C5: for every column (sequence of inner-index/value pairs with distinct,
in-range inner indices), pivot index and workspace, the column-elimination
primitive `lspsolve_csc_process_col` returns `SingularMatrix` when the
diagonal entry is absent or zero; otherwise it returns `Ok`, sets
`workspace[pivot]` to `workspace[pivot] / diag`, subtracts
`v * workspace[pivot]` at every stored entry `(i, v)` with `i` strictly
greater than the pivot, ignores all entries with `i` at most the pivot, and
mutates the workspace at no other index. -/
theorem claim_C5 (col : List (Nat × ℚ)) (p : Nat) (ws : List ℚ)
    (hnd : (col.map Prod.fst).Nodup) (hk : ∀ e ∈ col, e.1 < ws.length)
    (hp : p < ws.length) :
    ((∀ v, (p, v) ∉ col) →
      lspsolve_csc_process_col col p ws = Except.error SprsError.SingularMatrix) ∧
    (∀ v, (p, v) ∈ col → v = 0 →
      lspsolve_csc_process_col col p ws = Except.error SprsError.SingularMatrix) ∧
    (∀ dv, (p, dv) ∈ col → dv ≠ 0 →
      ∃ res, lspsolve_csc_process_col col p ws = Except.ok res ∧
        res.length = ws.length ∧
        dGet res p = dGet ws p / dv ∧
        (∀ i v, (i, v) ∈ col → p < i → dGet res i = dGet ws i - v * (dGet ws p / dv)) ∧
        (∀ i, i ≠ p → (∀ v, (i, v) ∈ col → i ≤ p) → dGet res i = dGet ws i)) := by
  refine ⟨fun h => process_col_find_none (find?_key_eq_none h), ?_, ?_⟩
  · intro v hm hz
    exact process_col_find_zero (find?_key_mem hnd hm) hz
  · intro dv hm hdv
    rw [process_col_ok_eq (find?_key_mem hnd hm) hdv]
    refine ⟨_, rfl, ?_, ?_, ?_, ?_⟩
    · rw [updCol_length]; simp
    · rw [updCol_dGet_not_mem (fun e _ h1 => le_of_eq h1),
        dGet_set_self hp]
    · intro i v hm2 hpi
      have hip : p ≠ i := Nat.ne_of_lt hpi
      rw [updCol_dGet_mem hnd hm2 hpi (by simpa using hk _ hm2),
        dGet_set_ne hip]
    · intro i hip hno
      rw [updCol_dGet_not_mem ?_, dGet_set_ne (Ne.symm hip)]
      intro e he h1
      exact h1 ▸ hno e.2 (by rw [← h1]; exact he)

/-- Witness for C5 at a concrete column, pivot and workspace: the hypotheses
hold there and the nonsingular branch gives the expected divided pivot. -/
theorem claim_C5_witness :
    ((([(1, (2 : ℚ)), (2, 3)] : List (Nat × ℚ)).map Prod.fst).Nodup ∧
      (∀ e ∈ ([(1, (2 : ℚ)), (2, 3)] : List (Nat × ℚ)), e.1 < 3) ∧ 1 < 3) ∧
    (∃ res, lspsolve_csc_process_col [(1, (2 : ℚ)), (2, 3)] 1 [5, 6, 7] = Except.ok res ∧
      dGet res 1 = dGet [5, 6, 7] 1 / 2) := by
  refine ⟨⟨by decide, by decide, by decide⟩, ?_⟩
  obtain ⟨res, h1, _, h3, _, _⟩ :=
    (claim_C5 [(1, (2 : ℚ)), (2, 3)] 1 [5, 6, 7] (by decide) (by decide)
      (by decide)).2.2 2 (by decide) (by decide)
  exact ⟨res, h1, h3⟩

/-- C7: a row-major matrix makes `lsolve_csc_sparse_rhs` return the
recoverable error `BadStorageType` with every buffer untouched, whereas each
of the four dense solvers aborts fatally (panics) when given a matrix whose
orientation does not match the one it expects. -/
theorem claim_C7 :
    (∀ (mat : CsMatView) (rhs : List (Nat × ℚ)) (dstack : DStack) (ws : List ℚ)
      (visited : List Bool), mat.storage = StorageType.CSR →
      lsolve_csc_sparse_rhs mat rhs dstack ws visited =
        SpOutcome.err SprsError.BadStorageType ⟨dstack, ws, visited⟩) ∧
    (∀ (mat : CsMatView) (rhs : List ℚ), mat.storage = StorageType.CSC →
      lsolve_csr_dense_rhs mat rhs = Outcome.fatal) ∧
    (∀ (mat : CsMatView) (rhs : List ℚ), mat.storage = StorageType.CSR →
      lsolve_csc_dense_rhs mat rhs = Outcome.fatal) ∧
    (∀ (mat : CsMatView) (rhs : List ℚ), mat.storage = StorageType.CSR →
      usolve_csc_dense_rhs mat rhs = Outcome.fatal) ∧
    (∀ (mat : CsMatView) (rhs : List ℚ), mat.storage = StorageType.CSC →
      usolve_csr_dense_rhs mat rhs = Outcome.fatal) := by
  refine ⟨?_, ?_, ?_, ?_, ?_⟩
  · intro mat rhs dstack ws visited h
    unfold lsolve_csc_sparse_rhs
    simp [CsMatView.is_csc, h]
  · intro mat rhs h
    unfold lsolve_csr_dense_rhs
    have hcs : mat.is_csr = false := by simp [CsMatView.is_csr, h]
    split
    · rfl
    · simp [hcs]
  · intro mat rhs h
    unfold lsolve_csc_dense_rhs
    have hcs : mat.is_csc = false := by simp [CsMatView.is_csc, h]
    split
    · rfl
    · simp [hcs]
  · intro mat rhs h
    unfold usolve_csc_dense_rhs
    have hcs : mat.is_csc = false := by simp [CsMatView.is_csc, h]
    split
    · rfl
    · simp [hcs]
  · intro mat rhs h
    unfold usolve_csr_dense_rhs
    have hcs : mat.is_csr = false := by simp [CsMatView.is_csr, h]
    split
    · rfl
    · simp [hcs]

/-- Witness for C7 at concrete mismatched inputs. -/
theorem claim_C7_witness :
    lsolve_csc_sparse_rhs ⟨1, 1, StorageType.CSR, [[(0, 1)]]⟩ [(0, 1)] ⟨2, [], []⟩ [0] [false] =
      SpOutcome.err SprsError.BadStorageType ⟨⟨2, [], []⟩, [0], [false]⟩ ∧
    lsolve_csr_dense_rhs ⟨1, 1, StorageType.CSC, [[(0, 1)]]⟩ [1] = Outcome.fatal ∧
    lsolve_csc_dense_rhs ⟨1, 1, StorageType.CSR, [[(0, 1)]]⟩ [1] = Outcome.fatal ∧
    usolve_csc_dense_rhs ⟨1, 1, StorageType.CSR, [[(0, 1)]]⟩ [1] = Outcome.fatal ∧
    usolve_csr_dense_rhs ⟨1, 1, StorageType.CSC, [[(0, 1)]]⟩ [1] = Outcome.fatal :=
  ⟨claim_C7.1 _ [(0, 1)] ⟨2, [], []⟩ [0] [false] rfl,
    claim_C7.2.1 _ [1] rfl, claim_C7.2.2.1 _ [1] rfl,
    claim_C7.2.2.2.1 _ [1] rfl, claim_C7.2.2.2.2 _ [1] rfl⟩

unseal Rat.mul Rat.add Rat.sub Rat.inv in
/-- C9, evaluated at the failing input: on the same lower-triangular CSC
matrix and the same sparse right-hand side, with correctly reset dependency
stack and visited array each time, two runs of `lsolve_csc_sparse_rhs` that
differ only in the initial contents of the dense workspace (documented as
"can be anything") produce different values at the recovered index `1`, so
the recovered (index, value) sets differ. -/
theorem claim_C9 :
    lsolve_csc_sparse_rhs ⟨2, 2, StorageType.CSC, [[(0, 1), (1, 1)], [(1, 1)]]⟩
        [(0, 1)] ⟨4, [], []⟩ [0, 0] [false, false] =
      SpOutcome.ok ⟨⟨4, [], [StackVal.Enter 0, StackVal.Enter 1]⟩, [1, -1], [true, true]⟩ ∧
    lsolve_csc_sparse_rhs ⟨2, 2, StorageType.CSC, [[(0, 1), (1, 1)], [(1, 1)]]⟩
        [(0, 1)] ⟨4, [], []⟩ [5, 5] [false, false] =
      SpOutcome.ok ⟨⟨4, [], [StackVal.Enter 0, StackVal.Enter 1]⟩, [1, 4], [true, true]⟩ ∧
    ((-1 : ℚ) ≠ 4) := by
  refine ⟨by decide, by decide, by decide⟩

/-- Counterexample to C4: a 4-by-4 fully populated lower-triangular
column-major matrix whose columns store their entries in a valid but
unsorted order drives the dependency-stack occupancy of the traversal of
`lsolve_csc_sparse_rhs` (started exactly as that solver starts it) up to 11
entries, exceeding the claimed bound 2n = 8. -/
theorem claim_C4_counterexample :
    (let mat : CsMatView :=
      ⟨4, 4, StorageType.CSC,
        [[(0, 1), (3, 1), (2, 1), (1, 1)], [(1, 1), (3, 1), (2, 1)], [(2, 1), (3, 1)], [(3, 1)]]⟩
    matWF mat ∧ lowerTri mat ∧ mat.is_csc = true ∧
      (dfsRoots mat [0] ⟨[false, false, false, false], [], [], 0⟩).map DfsState.maxOcc =
        some 11 ∧ 2 * mat.rows < 11) := by
  refine ⟨by decide, by decide, rfl, by decide, by decide⟩

/-! Correctness of the dense forward substitution `lsolve_csr_dense_rhs`:
sums of stored entries, characterization of the row scan, and the row-loop
invariant. -/

lemma entrySum_cons (e : Nat × ℚ) (t : List (Nat × ℚ)) (x : List ℚ) :
    entrySum (e :: t) x = e.2 * dGet x e.1 + entrySum t x := by
  simp [entrySum]

lemma entrySum_congr {l : List (Nat × ℚ)} {x y : List ℚ}
    (h : ∀ e ∈ l, dGet x e.1 = dGet y e.1) : entrySum l x = entrySum l y := by
  induction l with
  | nil => rfl
  | cons e t ih =>
    rw [entrySum_cons, entrySum_cons, h e (List.mem_cons_self _ _),
      ih (fun e' he' => h e' (List.mem_cons_of_mem _ he'))]

lemma filter_le_eq_filter_lt {l : List (Nat × ℚ)} {i : Nat}
    (h : ∀ e ∈ l, e.1 ≠ i) :
    l.filter (fun e => decide (e.1 ≤ i)) = l.filter (fun e => decide (e.1 < i)) := by
  apply List.filter_congr
  intro e he
  exact decide_eq_decide.mpr
    ⟨fun h1 => lt_of_le_of_ne h1 (h e he), le_of_lt⟩

lemma entrySum_filter_le_split {row : List (Nat × ℚ)} {i : Nat} {dv : ℚ} {x : List ℚ}
    (hnd : (row.map Prod.fst).Nodup) (hm : (i, dv) ∈ row) :
    entrySum (row.filter (fun e => decide (e.1 ≤ i))) x =
      entrySum (row.filter (fun e => decide (e.1 < i))) x + dv * dGet x i := by
  induction row with
  | nil => simp at hm
  | cons e t ih =>
    simp only [List.map_cons, List.nodup_cons] at hnd
    rcases List.mem_cons.mp hm with he | ht
    · have he' : e = ((i : Nat), dv) := he.symm
      subst he'
      have hnk : ∀ e' ∈ t, e'.1 ≠ i := by
        intro e' he' hcontra
        exact hnd.1 (hcontra ▸ List.mem_map.mpr ⟨e', he', rfl⟩)
      rw [List.filter_cons, List.filter_cons, if_pos (by simp),
        if_neg (by simp), entrySum_cons, filter_le_eq_filter_lt hnk]
      exact add_comm _ _
    · have hne : e.1 ≠ i := by
        intro hcontra
        exact hnd.1 (hcontra ▸ List.mem_map.mpr ⟨(i, dv), ht, rfl⟩)
      by_cases hle : e.1 ≤ i
      · have hlt : e.1 < i := lt_of_le_of_ne hle hne
        rw [List.filter_cons, List.filter_cons, if_pos (by simpa using hle),
          if_pos (by simpa using hlt), entrySum_cons, entrySum_cons,
          ih hnd.2 ht, add_assoc]
      · have hnlt : ¬ e.1 < i := fun hlt => hle (le_of_lt hlt)
        rw [List.filter_cons, List.filter_cons, if_neg (by simpa using hle),
          if_neg (by simpa using hnlt), ih hnd.2 ht]

lemma lsolve_csr_scan_snd_aux (i : Nat) (rhs : List ℚ) (row : List (Nat × ℚ)) :
    ∀ (d0 x0 : ℚ),
      (row.foldl (fun acc e =>
        if e.1 = i then (e.2, acc.2)
        else if i < e.1 then acc
        else (acc.1, acc.2 - e.2 * rhs.getD e.1 0)) (d0, x0)).2 =
      x0 - entrySum (row.filter (fun e => decide (e.1 < i))) rhs := by
  induction row with
  | nil => intro d0 x0; simp [entrySum]
  | cons e t ih =>
    intro d0 x0
    by_cases h1 : e.1 = i
    · simp only [List.foldl_cons, if_pos h1]
      rw [ih, List.filter_cons, if_neg (by simp [h1])]
    · by_cases h2 : i < e.1
      · simp only [List.foldl_cons, if_neg h1, if_pos h2]
        rw [ih, List.filter_cons, if_neg (by simpa using Nat.not_lt.mpr (le_of_lt h2))]
      · simp only [List.foldl_cons, if_neg h1, if_neg h2]
        rw [ih, List.filter_cons,
          if_pos (by simpa using Nat.lt_of_le_of_ne (Nat.not_lt.mp h2) h1),
          entrySum_cons]
        show x0 - e.2 * rhs.getD e.1 0 - _ = _
        rw [dGet]
        ring

lemma lsolve_csr_row_scan_snd (i : Nat) (rhs : List ℚ) (row : List (Nat × ℚ)) :
    (lsolve_csr_row_scan i rhs row).2 =
      dGet rhs i - entrySum (row.filter (fun e => decide (e.1 < i))) rhs :=
  lsolve_csr_scan_snd_aux i rhs row 0 (rhs.getD i 0)

lemma lsolve_csr_scan_fst_nokey (i : Nat) (rhs : List ℚ) (row : List (Nat × ℚ))
    (h : ∀ e ∈ row, e.1 ≠ i) :
    ∀ (d0 x0 : ℚ),
      (row.foldl (fun acc e =>
        if e.1 = i then (e.2, acc.2)
        else if i < e.1 then acc
        else (acc.1, acc.2 - e.2 * rhs.getD e.1 0)) (d0, x0)).1 = d0 := by
  induction row with
  | nil => intro d0 x0; rfl
  | cons e t ih =>
    intro d0 x0
    have hne := h e (List.mem_cons_self _ _)
    have ht := fun e' he' => h e' (List.mem_cons_of_mem _ he')
    by_cases h2 : i < e.1
    · simp only [List.foldl_cons, if_neg hne, if_pos h2]
      exact ih ht d0 x0
    · simp only [List.foldl_cons, if_neg hne, if_neg h2]
      exact ih ht d0 _

lemma lsolve_csr_scan_fst_mem {i : Nat} {rhs : List ℚ} {row : List (Nat × ℚ)} {dv : ℚ}
    (hnd : (row.map Prod.fst).Nodup) (hm : (i, dv) ∈ row) :
    ∀ (d0 x0 : ℚ),
      (row.foldl (fun acc e =>
        if e.1 = i then (e.2, acc.2)
        else if i < e.1 then acc
        else (acc.1, acc.2 - e.2 * rhs.getD e.1 0)) (d0, x0)).1 = dv := by
  induction row with
  | nil => simp at hm
  | cons e t ih =>
    intro d0 x0
    simp only [List.map_cons, List.nodup_cons] at hnd
    rcases List.mem_cons.mp hm with he | ht
    · have he' : e = ((i : Nat), dv) := he.symm
      subst he'
      simp only [List.foldl_cons, if_pos rfl]
      exact lsolve_csr_scan_fst_nokey i rhs t
        (fun e' he' hcontra => hnd.1 (hcontra ▸ List.mem_map.mpr ⟨e', he', rfl⟩)) dv x0
    · have hne : e.1 ≠ i := by
        intro hcontra
        exact hnd.1 (hcontra ▸ List.mem_map.mpr ⟨(i, dv), ht, rfl⟩)
      by_cases h2 : i < e.1
      · simp only [List.foldl_cons, if_neg hne, if_pos h2]
        exact ih hnd.2 ht d0 x0
      · simp only [List.foldl_cons, if_neg hne, if_neg h2]
        exact ih hnd.2 ht d0 _

lemma lsolve_csr_row_scan_fst {i : Nat} {rhs : List ℚ} {row : List (Nat × ℚ)} {dv : ℚ}
    (hnd : (row.map Prod.fst).Nodup) (hm : (i, dv) ∈ row) :
    (lsolve_csr_row_scan i rhs row).1 = dv :=
  lsolve_csr_scan_fst_mem hnd hm 0 (rhs.getD i 0)

lemma lsolve_csr_loop_ok :
    ∀ (rows : List (List (Nat × ℚ))) (i : Nat) (rhs : List ℚ),
      (∀ r ∈ rows, outerWF rhs.length r) →
      (∀ k, k < rows.length → ∃ e ∈ rows.getD k [], e.1 = i + k ∧ e.2 ≠ 0) →
      i + rows.length ≤ rhs.length →
      ∃ res, lsolve_csr_loop i rows rhs = Outcome.ok res ∧
        res.length = rhs.length ∧
        (∀ k, k < i ∨ i + rows.length ≤ k → dGet res k = dGet rhs k) ∧
        (∀ k, k < rows.length →
          entrySum ((rows.getD k []).filter (fun e => decide (e.1 ≤ i + k))) res =
            dGet rhs (i + k)) := by
  intro rows
  induction rows with
  | nil =>
    intro i rhs _ _ _
    exact ⟨rhs, rfl, rfl, fun k _ => rfl, fun k hk => absurd hk (by simp)⟩
  | cons row rest ih =>
    intro i rhs hwf hdg hlen
    obtain ⟨ed, hed, hky, hnz⟩ := hdg 0 (Nat.succ_pos _)
    have hedm : ((i : Nat), ed.2) ∈ row := by
      have : ed = ((i : Nat), ed.2) := by
        cases ed; simp_all
      simpa [← this] using hed
    have hwr := hwf row (List.mem_cons_self _ _)
    have hfst : (lsolve_csr_row_scan i rhs row).1 = ed.2 :=
      lsolve_csr_row_scan_fst hwr.1 hedm
    have hilt : i < rhs.length := by
      have := hlen; simp at this; omega
    set x := (lsolve_csr_row_scan i rhs row).2 / (lsolve_csr_row_scan i rhs row).1 with hx
    obtain ⟨res, hres, hrlen, hframe, hprod⟩ :=
      ih (i + 1) (rhs.set i x)
        (by intro r hr; have := hwf r (List.mem_cons_of_mem _ hr)
            exact ⟨this.1, by simpa using this.2⟩)
        (by intro k hk
            have := hdg (k + 1) (by simpa using hk)
            simpa [Nat.add_assoc, Nat.add_comm 1 k, Nat.add_left_comm] using this)
        (by simp at hlen ⊢; omega)
    refine ⟨res, ?_, by simpa using hrlen, ?_, ?_⟩
    · show lsolve_csr_loop i (row :: rest) rhs = Outcome.ok res
      unfold lsolve_csr_loop
      rw [if_neg (by rw [hfst]; exact hnz)]
      exact hres
    · intro k hk
      have hki : k ≠ i := by rcases hk with h | h; omega; simp at h; omega
      have : k < i + 1 ∨ (i + 1) + rest.length ≤ k := by
        rcases hk with h | h
        · exact Or.inl (by omega)
        · exact Or.inr (by simp at h; omega)
      rw [hframe k this, dGet_set_ne (Ne.symm hki)]
    · intro k hk
      match k with
      | 0 =>
        have hset : dGet res i = dGet (rhs.set i x) i := hframe i (Or.inl (by omega))
        have hxi : dGet res i = x := by rw [hset, dGet_set_self hilt]
        have hlow : entrySum (row.filter (fun e => decide (e.1 < i))) res =
            entrySum (row.filter (fun e => decide (e.1 < i))) rhs := by
          apply entrySum_congr
          intro e hef
          have helt : e.1 < i := by
            have := List.of_mem_filter hef
            simpa using this
          rw [hframe e.1 (Or.inl (by omega)), dGet_set_ne (by omega)]
        have hsplit := @entrySum_filter_le_split row i ed.2 res hwr.1 hedm
        have hsnd := lsolve_csr_row_scan_snd i rhs row
        simp only [List.getD_cons_zero, Nat.add_zero]
        rw [hsplit, hxi, hlow, hx, hfst, hsnd]
        field_simp
      | k + 1 =>
        have hk' : k < rest.length := by simpa using hk
        have heq : i + 1 + k = i + (k + 1) := by omega
        have := hprod k hk'
        rw [heq, dGet_set_ne (by omega : i ≠ i + (k + 1))] at this
        simpa using this

/-- Success of `lsolve_csr_dense_rhs` on a well-formed square CSR matrix
with full nonzero diagonal: it returns `Ok` and the lower-triangular part of
the matrix applied to the result reproduces the right-hand side. -/
lemma lsolve_csr_dense_ok (mat : CsMatView) (b : List ℚ)
    (hw : matWF mat) (hd : diagAllNonzero mat) (hcs : mat.storage = StorageType.CSR)
    (hlen : b.length = mat.rows) :
    ∃ x, lsolve_csr_dense_rhs mat b = Outcome.ok x ∧ x.length = b.length ∧
      ∀ i, i < mat.rows → csrLowerMulAt mat x i = dGet b i := by
  obtain ⟨hsq, holen, hrows⟩ := hw
  obtain ⟨res, hres, hrlen, _, hprod⟩ :=
    lsolve_csr_loop_ok mat.outer 0 b
      (fun r hr => by
        have := hrows r hr
        exact ⟨this.1, fun e he => hlen ▸ this.2 e he⟩)
      (fun k hk => by simpa using hd k (holen ▸ hk))
      (by omega)
  refine ⟨res, ?_, hrlen, ?_⟩
  · unfold lsolve_csr_dense_rhs
    rw [if_neg (by simp [check_solver_dimensions, hsq, hlen]),
      if_neg (by simp [CsMatView.is_csr, hcs])]
    exact hres
  · intro i hi
    have := hprod i (by omega)
    simpa [csrLowerMulAt] using this

/-! Correctness of the dense forward substitution `lsolve_csc_dense_rhs`
(column-major): column contributions and the column-loop invariant. -/

lemma colContribL_lt {i j : Nat} (col : List (Nat × ℚ)) (x : List ℚ) (h : i < j) :
    colContribL i j col x = 0 := by
  unfold colContribL
  rw [List.filter_eq_nil.mpr ?_]
  · rfl
  · intro e _ hcond
    simp only [Bool.and_eq_true, beq_iff_eq, decide_eq_true_eq] at hcond
    omega

lemma colContribL_not_mem {i j : Nat} {col : List (Nat × ℚ)} (x : List ℚ)
    (h : ∀ v, (i, v) ∉ col) : colContribL i j col x = 0 := by
  unfold colContribL
  rw [List.filter_eq_nil.mpr ?_]
  · rfl
  · intro e he hcond
    simp only [Bool.and_eq_true, beq_iff_eq, decide_eq_true_eq] at hcond
    exact h e.2 (by rw [← hcond.1]; exact he)

lemma colContribL_diag {i j : Nat} {col : List (Nat × ℚ)} {v : ℚ} (x : List ℚ)
    (hnd : (col.map Prod.fst).Nodup) (hm : (i, v) ∈ col) (hj : j ≤ i) :
    colContribL i j col x = v * dGet x j := by
  induction col with
  | nil => simp at hm
  | cons e t ih =>
    simp only [List.map_cons, List.nodup_cons] at hnd
    rcases List.mem_cons.mp hm with he | ht
    · have he' : e = ((i : Nat), v) := he.symm
      subst he'
      have hno : ∀ w, ((i : Nat), w) ∉ t := by
        intro w hw
        exact hnd.1 (List.mem_map.mpr ⟨(i, w), hw, rfl⟩)
      unfold colContribL
      rw [List.filter_cons, if_pos (by simp [hj])]
      have ht0 : colContribL i j t x = 0 := colContribL_not_mem x hno
      unfold colContribL at ht0
      simp only [List.map_cons, List.sum_cons]
      rw [ht0]
      ring
    · have hne : e.1 ≠ i := by
        intro hcontra
        exact hnd.1 (hcontra ▸ List.mem_map.mpr ⟨(i, v), ht, rfl⟩)
      have := ih hnd.2 ht
      unfold colContribL at this ⊢
      rw [List.filter_cons, if_neg (by simp [hne])]
      exact this

lemma colsLowerProd_cons (j0 : Nat) (c : List (Nat × ℚ)) (t : List (List (Nat × ℚ)))
    (i : Nat) (x : List ℚ) :
    colsLowerProd j0 (c :: t) i x =
      colContribL i j0 c x + colsLowerProd (j0 + 1) t i x := by
  simp [colsLowerProd, List.enumFrom]

lemma colsLowerProd_zero {j0 : Nat} {cols : List (List (Nat × ℚ))} {i : Nat}
    (x : List ℚ) (h : i < j0) : colsLowerProd j0 cols i x = 0 := by
  induction cols generalizing j0 with
  | nil => rfl
  | cons c t ih =>
    rw [colsLowerProd_cons, colContribL_lt _ _ h, ih (by omega), add_zero]

lemma lsolve_csc_loop_ok :
    ∀ (cols : List (List (Nat × ℚ))) (j : Nat) (rhs : List ℚ),
      (∀ c ∈ cols, outerWF rhs.length c) →
      (∀ k, k < cols.length → ∃ e ∈ cols.getD k [], e.1 = j + k ∧ e.2 ≠ 0) →
      j + cols.length = rhs.length →
      ∃ res, lsolve_csc_loop j cols rhs = Outcome.ok res ∧
        res.length = rhs.length ∧
        (∀ i, i < j → dGet res i = dGet rhs i) ∧
        (∀ i, j ≤ i → colsLowerProd j cols i res = dGet rhs i) := by
  intro cols
  induction cols with
  | nil =>
    intro j rhs _ _ hlen
    simp only [List.length_nil, Nat.add_zero] at hlen
    refine ⟨rhs, rfl, rfl, fun i _ => rfl, fun i hi => ?_⟩
    have hle : rhs.length ≤ i := by omega
    rw [show dGet rhs i = 0 from List.getD_eq_default _ _ hle]
    simp [colsLowerProd]
  | cons col t ih =>
    intro j rhs hwf hdg hlen
    obtain ⟨ed, hed, hky, hnz⟩ := hdg 0 (Nat.succ_pos _)
    have hedm : ((j : Nat), ed.2) ∈ col := by
      have : ed = ((j : Nat), ed.2) := by cases ed; simp_all
      simpa [← this] using hed
    have hwc := hwf col (List.mem_cons_self _ _)
    have hfind : col.find? (fun e => e.1 == j) = some ((j : Nat), ed.2) :=
      find?_key_mem hwc.1 hedm
    have hproc := @process_col_ok_eq col j rhs ((j : Nat), ed.2) hfind hnz
    have hjlt : j < rhs.length := by simp at hlen; omega
    have hr2len : (updCol j (dGet rhs j / ed.2) col
        (rhs.set j (dGet rhs j / ed.2))).length = rhs.length := by
      rw [updCol_length]; simp
    have hr2j : dGet (updCol j (dGet rhs j / ed.2) col
        (rhs.set j (dGet rhs j / ed.2))) j = dGet rhs j / ed.2 := by
      rw [updCol_dGet_not_mem (fun e _ h1 => le_of_eq h1), dGet_set_self hjlt]
    obtain ⟨res, hres, hrlen, hframe, hprod⟩ :=
      ih (j + 1) (updCol j (dGet rhs j / ed.2) col (rhs.set j (dGet rhs j / ed.2)))
        (by intro c hc
            have := hwf c (List.mem_cons_of_mem _ hc)
            exact ⟨this.1, fun e he => by rw [hr2len]; exact this.2 e he⟩)
        (by intro k hk
            have := hdg (k + 1) (by simpa using hk)
            have heq : j + (k + 1) = j + 1 + k := by omega
            simpa [heq] using this)
        (by simp at hlen ⊢; omega)
    refine ⟨res, ?_, by rw [hrlen, hr2len], ?_, ?_⟩
    · show lsolve_csc_loop j (col :: t) rhs = Outcome.ok res
      unfold lsolve_csc_loop
      rw [hproc]
      exact hres
    · intro i hij
      rw [hframe i (by omega),
        updCol_dGet_not_mem (fun e _ h1 => by omega),
        dGet_set_ne (by omega : j ≠ i)]
    · intro i hij
      rw [colsLowerProd_cons]
      have hresj : dGet res j = dGet rhs j / ed.2 := by
        rw [hframe j (by omega), hr2j]
      by_cases hij' : i = j
      · subst hij'
        rw [colsLowerProd_zero _ (by omega),
          colContribL_diag _ hwc.1 hedm (le_refl i), hresj]
        field_simp
      · have hgt : j < i := lt_of_le_of_ne hij (Ne.symm hij')
        have hIH := hprod i (by omega)
        by_cases hex : ∃ v, ((i : Nat), v) ∈ col
        · obtain ⟨v, hv⟩ := hex
          have hr2i : dGet (updCol j (dGet rhs j / ed.2) col
              (rhs.set j (dGet rhs j / ed.2))) i =
              dGet rhs i - v * (dGet rhs j / ed.2) := by
            rw [updCol_dGet_mem hwc.1 hv hgt (by simpa using hwc.2 _ hv),
              dGet_set_ne (by omega : j ≠ i)]
          rw [hIH, hr2i, colContribL_diag _ hwc.1 hv (le_of_lt hgt), hresj]
          ring
        · have hno : ∀ v, ((i : Nat), v) ∉ col := by push_neg at hex; exact hex
          have hr2i : dGet (updCol j (dGet rhs j / ed.2) col
              (rhs.set j (dGet rhs j / ed.2))) i = dGet rhs i := by
            rw [updCol_dGet_not_mem ?_, dGet_set_ne (by omega : j ≠ i)]
            intro e he h1
            exact absurd (show ((i : Nat), e.2) ∈ col by rw [← h1]; exact he) (hno e.2)
          rw [hIH, hr2i, colContribL_not_mem _ hno, zero_add]

/-- Success of `lsolve_csc_dense_rhs` on a well-formed square CSC matrix with
full nonzero diagonal: it returns `Ok` and the lower-triangular part of the
matrix applied to the result reproduces the right-hand side. -/
lemma lsolve_csc_dense_ok (mat : CsMatView) (b : List ℚ)
    (hw : matWF mat) (hd : diagAllNonzero mat) (hcs : mat.storage = StorageType.CSC)
    (hlen : b.length = mat.rows) :
    ∃ x, lsolve_csc_dense_rhs mat b = Outcome.ok x ∧ x.length = b.length ∧
      ∀ i, i < mat.rows → cscLowerMulAt mat x i = dGet b i := by
  obtain ⟨hsq, holen, hcolswf⟩ := hw
  obtain ⟨res, hres, hrlen, _, hprod⟩ :=
    lsolve_csc_loop_ok mat.outer 0 b
      (fun c hc => by
        have := hcolswf c hc
        exact ⟨this.1, fun e he => hlen ▸ this.2 e he⟩)
      (fun k hk => by simpa using hd k (holen ▸ hk))
      (by omega)
  refine ⟨res, ?_, hrlen, fun i hi => ?_⟩
  · unfold lsolve_csc_dense_rhs
    rw [if_neg (by simp [check_solver_dimensions, hsq, hlen]),
      if_neg (by simp [CsMatView.is_csc, hcs])]
    exact hres
  · have := hprod i (Nat.zero_le i)
    simpa [cscLowerMulAt, colsLowerProd, List.enum] using this

/-! Correctness of the dense backward substitution `usolve_csr_dense_rhs`:
the reverse-enumerated row order and the mirrored row-loop invariant. -/

lemma mem_countdown {a n : Nat} : a ∈ countdown n ↔ a < n := by
  induction n with
  | zero => simp [countdown]
  | succ n ih =>
    simp only [countdown, List.mem_cons, ih]
    omega

lemma countdown_eq_reverse_range (n : Nat) : countdown n = (List.range n).reverse := by
  induction n with
  | zero => rfl
  | succ n ih =>
    rw [countdown, List.range_succ, List.reverse_append, ih]
    rfl

lemma enum_reverse_map_fst (l : List (List (Nat × ℚ))) :
    (l.enum.reverse.map Prod.fst) = countdown l.length := by
  rw [List.map_reverse, List.enum_map_fst, countdown_eq_reverse_range]

lemma mem_enumFrom_eq {α : Type} (d : α) :
    ∀ (l : List α) (n : Nat) (p : Nat × α), p ∈ l.enumFrom n →
      n ≤ p.1 ∧ p.1 < n + l.length ∧ p.2 = l.getD (p.1 - n) d := by
  intro l
  induction l with
  | nil => intro n p hp; simp [List.enumFrom] at hp
  | cons c t ih =>
    intro n p hp
    rcases List.mem_cons.mp hp with he | ht
    · subst he
      simp
    · obtain ⟨h1, h2, h3⟩ := ih (n + 1) p ht
      refine ⟨by omega, by simp; omega, ?_⟩
      have : p.1 - n = (p.1 - (n + 1)) + 1 := by omega
      rw [this, List.getD_cons_succ, h3]

lemma mem_enum_getD (d : List (Nat × ℚ)) {l : List (List (Nat × ℚ))}
    {p : Nat × List (Nat × ℚ)} (hp : p ∈ l.enum) :
    p.1 < l.length ∧ p.2 = l.getD p.1 d := by
  obtain ⟨h1, h2, h3⟩ := mem_enumFrom_eq d l 0 p hp
  exact ⟨by omega, by simpa using h3⟩

lemma enum_mem_of_lt {l : List (List (Nat × ℚ))} {i : Nat} (h : i < l.length)
    (d : List (Nat × ℚ)) : ((i : Nat), l.getD i d) ∈ l.enum := by
  have hlen : i < l.enum.length := by simpa using h
  have hmem := List.getElem_mem hlen
  rw [List.getElem_enum] at hmem
  rwa [List.getD_eq_getElem _ _ h]

lemma filter_ge_eq_filter_gt {l : List (Nat × ℚ)} {i : Nat}
    (h : ∀ e ∈ l, e.1 ≠ i) :
    l.filter (fun e => decide (i ≤ e.1)) = l.filter (fun e => decide (i < e.1)) := by
  apply List.filter_congr
  intro e he
  exact decide_eq_decide.mpr
    ⟨fun h1 => lt_of_le_of_ne h1 (Ne.symm (h e he)), le_of_lt⟩

lemma entrySum_filter_ge_split {row : List (Nat × ℚ)} {i : Nat} {dv : ℚ} {x : List ℚ}
    (hnd : (row.map Prod.fst).Nodup) (hm : (i, dv) ∈ row) :
    entrySum (row.filter (fun e => decide (i ≤ e.1))) x =
      entrySum (row.filter (fun e => decide (i < e.1))) x + dv * dGet x i := by
  induction row with
  | nil => simp at hm
  | cons e t ih =>
    simp only [List.map_cons, List.nodup_cons] at hnd
    rcases List.mem_cons.mp hm with he | ht
    · have he' : e = ((i : Nat), dv) := he.symm
      subst he'
      have hnk : ∀ e' ∈ t, e'.1 ≠ i := by
        intro e' he' hcontra
        exact hnd.1 (hcontra ▸ List.mem_map.mpr ⟨e', he', rfl⟩)
      rw [List.filter_cons, List.filter_cons, if_pos (by simp),
        if_neg (by simp), entrySum_cons, filter_ge_eq_filter_gt hnk]
      exact add_comm _ _
    · have hne : e.1 ≠ i := by
        intro hcontra
        exact hnd.1 (hcontra ▸ List.mem_map.mpr ⟨(i, dv), ht, rfl⟩)
      by_cases hle : i ≤ e.1
      · have hlt : i < e.1 := lt_of_le_of_ne hle (Ne.symm hne)
        rw [List.filter_cons, List.filter_cons, if_pos (by simpa using hle),
          if_pos (by simpa using hlt), entrySum_cons, entrySum_cons,
          ih hnd.2 ht, add_assoc]
      · have hnlt : ¬ i < e.1 := fun hlt => hle (le_of_lt hlt)
        rw [List.filter_cons, List.filter_cons, if_neg (by simpa using hle),
          if_neg (by simpa using hnlt), ih hnd.2 ht]

lemma usolve_csr_scan_snd_aux (i : Nat) (rhs : List ℚ) (row : List (Nat × ℚ)) :
    ∀ (d0 x0 : ℚ),
      (row.foldl (fun acc e =>
        if e.1 = i then (e.2, acc.2)
        else if e.1 < i then acc
        else (acc.1, acc.2 - e.2 * rhs.getD e.1 0)) (d0, x0)).2 =
      x0 - entrySum (row.filter (fun e => decide (i < e.1))) rhs := by
  induction row with
  | nil => intro d0 x0; simp [entrySum]
  | cons e t ih =>
    intro d0 x0
    by_cases h1 : e.1 = i
    · simp only [List.foldl_cons, if_pos h1]
      rw [ih, List.filter_cons, if_neg (by simp [h1])]
    · by_cases h2 : e.1 < i
      · simp only [List.foldl_cons, if_neg h1, if_pos h2]
        rw [ih, List.filter_cons, if_neg (by simpa using Nat.not_lt.mpr (le_of_lt h2))]
      · simp only [List.foldl_cons, if_neg h1, if_neg h2]
        rw [ih, List.filter_cons,
          if_pos (by simpa using Nat.lt_of_le_of_ne (Nat.not_lt.mp h2) (Ne.symm h1)),
          entrySum_cons]
        show x0 - e.2 * rhs.getD e.1 0 - _ = _
        rw [dGet]
        ring

lemma usolve_csr_row_scan_snd (i : Nat) (rhs : List ℚ) (row : List (Nat × ℚ)) :
    (usolve_csr_row_scan i rhs row).2 =
      dGet rhs i - entrySum (row.filter (fun e => decide (i < e.1))) rhs :=
  usolve_csr_scan_snd_aux i rhs row 0 (rhs.getD i 0)

lemma usolve_csr_scan_fst_nokey (i : Nat) (rhs : List ℚ) (row : List (Nat × ℚ))
    (h : ∀ e ∈ row, e.1 ≠ i) :
    ∀ (d0 x0 : ℚ),
      (row.foldl (fun acc e =>
        if e.1 = i then (e.2, acc.2)
        else if e.1 < i then acc
        else (acc.1, acc.2 - e.2 * rhs.getD e.1 0)) (d0, x0)).1 = d0 := by
  induction row with
  | nil => intro d0 x0; rfl
  | cons e t ih =>
    intro d0 x0
    have hne := h e (List.mem_cons_self _ _)
    have ht := fun e' he' => h e' (List.mem_cons_of_mem _ he')
    by_cases h2 : e.1 < i
    · simp only [List.foldl_cons, if_neg hne, if_pos h2]
      exact ih ht d0 x0
    · simp only [List.foldl_cons, if_neg hne, if_neg h2]
      exact ih ht d0 _

lemma usolve_csr_scan_fst_mem {i : Nat} {rhs : List ℚ} {row : List (Nat × ℚ)} {dv : ℚ}
    (hnd : (row.map Prod.fst).Nodup) (hm : (i, dv) ∈ row) :
    ∀ (d0 x0 : ℚ),
      (row.foldl (fun acc e =>
        if e.1 = i then (e.2, acc.2)
        else if e.1 < i then acc
        else (acc.1, acc.2 - e.2 * rhs.getD e.1 0)) (d0, x0)).1 = dv := by
  induction row with
  | nil => simp at hm
  | cons e t ih =>
    intro d0 x0
    simp only [List.map_cons, List.nodup_cons] at hnd
    rcases List.mem_cons.mp hm with he | ht
    · have he' : e = ((i : Nat), dv) := he.symm
      subst he'
      simp only [List.foldl_cons, if_pos rfl]
      exact usolve_csr_scan_fst_nokey i rhs t
        (fun e' he' hcontra => hnd.1 (hcontra ▸ List.mem_map.mpr ⟨e', he', rfl⟩)) dv x0
    · have hne : e.1 ≠ i := by
        intro hcontra
        exact hnd.1 (hcontra ▸ List.mem_map.mpr ⟨(i, dv), ht, rfl⟩)
      by_cases h2 : e.1 < i
      · simp only [List.foldl_cons, if_neg hne, if_pos h2]
        exact ih hnd.2 ht d0 x0
      · simp only [List.foldl_cons, if_neg hne, if_neg h2]
        exact ih hnd.2 ht d0 _

lemma usolve_csr_row_scan_fst {i : Nat} {rhs : List ℚ} {row : List (Nat × ℚ)} {dv : ℚ}
    (hnd : (row.map Prod.fst).Nodup) (hm : (i, dv) ∈ row) :
    (usolve_csr_row_scan i rhs row).1 = dv :=
  usolve_csr_scan_fst_mem hnd hm 0 (rhs.getD i 0)

lemma usolve_csr_loop_ok :
    ∀ (ps : List (Nat × List (Nat × ℚ))) (rhs : List ℚ),
      (∀ p ∈ ps, outerWF rhs.length p.2) →
      (∀ p ∈ ps, ∃ e ∈ p.2, e.1 = p.1 ∧ e.2 ≠ 0) →
      ps.map Prod.fst = countdown ps.length →
      ps.length ≤ rhs.length →
      ∃ res, usolve_csr_loop ps rhs = Outcome.ok res ∧
        res.length = rhs.length ∧
        (∀ k, ps.length ≤ k → dGet res k = dGet rhs k) ∧
        (∀ p ∈ ps, entrySum (p.2.filter (fun e => decide (p.1 ≤ e.1))) res =
          dGet rhs p.1) := by
  intro ps
  induction ps with
  | nil =>
    intro rhs _ _ _ _
    exact ⟨rhs, rfl, rfl, fun k _ => rfl, fun p hp => absurd hp (by simp)⟩
  | cons q rest ih =>
    intro rhs hwf hdg hmap hlen
    obtain ⟨j, row⟩ := q
    have hmap' : j = rest.length ∧ rest.map Prod.fst = countdown rest.length := by
      simpa [countdown] using hmap
    obtain ⟨hj, hmaprest⟩ := hmap'
    obtain ⟨ed, hed, hky, hnz⟩ := hdg (j, row) (List.mem_cons_self _ _)
    have hedm : ((j : Nat), ed.2) ∈ row := by
      have : ed = ((j : Nat), ed.2) := by cases ed; simp_all
      simpa [← this] using hed
    have hwr := hwf (j, row) (List.mem_cons_self _ _)
    have hfst : (usolve_csr_row_scan j rhs row).1 = ed.2 :=
      usolve_csr_row_scan_fst hwr.1 hedm
    have hjlt : j < rhs.length := by simp at hlen; omega
    set x := (usolve_csr_row_scan j rhs row).2 / (usolve_csr_row_scan j rhs row).1 with hx
    obtain ⟨res, hres, hrlen, hframe, hprod⟩ :=
      ih (rhs.set j x)
        (by intro p hp; have := hwf p (List.mem_cons_of_mem _ hp)
            exact ⟨this.1, by simpa using this.2⟩)
        (fun p hp => hdg p (List.mem_cons_of_mem _ hp))
        hmaprest
        (by simp at hlen ⊢; omega)
    refine ⟨res, ?_, by simpa using hrlen, ?_, ?_⟩
    · show usolve_csr_loop ((j, row) :: rest) rhs = Outcome.ok res
      unfold usolve_csr_loop
      rw [if_neg (by rw [hfst]; exact hnz)]
      exact hres
    · intro k hk
      have hkj : k ≠ j := by simp at hk; omega
      rw [hframe k (by simp at hk; omega), dGet_set_ne (Ne.symm hkj)]
    · intro p hp
      rcases List.mem_cons.mp hp with hph | hpt
      · have hph' : p = ((j : Nat), row) := hph
        subst hph'
        have hresj : dGet res j = x := by
          rw [hframe j (by omega), dGet_set_self hjlt]
        have hhigh : entrySum (row.filter (fun e => decide (j < e.1))) res =
            entrySum (row.filter (fun e => decide (j < e.1))) rhs := by
          apply entrySum_congr
          intro e hef
          have hegt : j < e.1 := by simpa using List.of_mem_filter hef
          rw [hframe e.1 (by omega), dGet_set_ne (by omega)]
        rw [entrySum_filter_ge_split hwr.1 hedm, hresj, hhigh, hx, hfst,
          usolve_csr_row_scan_snd]
        field_simp
      · have hplt : p.1 < j := by
          have : p.1 ∈ rest.map Prod.fst := List.mem_map.mpr ⟨p, hpt, rfl⟩
          rw [hmaprest] at this
          rw [hj]
          exact mem_countdown.mp this
        have := hprod p hpt
        rw [dGet_set_ne (by omega : j ≠ p.1)] at this
        exact this

/-- Success of `usolve_csr_dense_rhs` on a well-formed square CSR matrix with
full nonzero diagonal: it returns `Ok` and the upper-triangular part of the
matrix applied to the result reproduces the right-hand side. -/
lemma usolve_csr_dense_ok (mat : CsMatView) (b : List ℚ)
    (hw : matWF mat) (hd : diagAllNonzero mat) (hcs : mat.storage = StorageType.CSR)
    (hlen : b.length = mat.rows) :
    ∃ x, usolve_csr_dense_rhs mat b = Outcome.ok x ∧ x.length = b.length ∧
      ∀ i, i < mat.rows → csrUpperMulAt mat x i = dGet b i := by
  obtain ⟨hsq, holen, hrows⟩ := hw
  obtain ⟨res, hres, hrlen, _, hprod⟩ :=
    usolve_csr_loop_ok mat.outer.enum.reverse b
      (by intro p hp
          obtain ⟨h1, h2⟩ := mem_enum_getD [] (List.mem_reverse.mp hp)
          have hmem : p.2 ∈ mat.outer := by
            rw [h2, List.getD_eq_getElem _ _ h1]
            exact List.getElem_mem h1
          have := hrows p.2 hmem
          exact ⟨this.1, fun e he => hlen ▸ this.2 e he⟩)
      (by intro p hp
          obtain ⟨h1, h2⟩ := mem_enum_getD [] (List.mem_reverse.mp hp)
          have := hd p.1 (holen ▸ h1)
          rw [← h2] at this
          exact this)
      (by rw [List.length_reverse, List.enum_length, enum_reverse_map_fst])
      (by rw [List.length_reverse, List.enum_length]; omega)
  refine ⟨res, ?_, hrlen, fun i hi => ?_⟩
  · unfold usolve_csr_dense_rhs
    rw [if_neg (by simp [check_solver_dimensions, hsq, hlen]),
      if_neg (by simp [CsMatView.is_csr, hcs])]
    exact hres
  · have hmem : ((i : Nat), mat.outer.getD i []) ∈ mat.outer.enum.reverse :=
      List.mem_reverse.mpr (enum_mem_of_lt (holen ▸ hi) [])
    have := hprod _ hmem
    simpa [csrUpperMulAt] using this

/-! Correctness of the dense backward substitution `usolve_csc_dense_rhs`:
mirrored propagation-loop facts and the descending column-loop invariant. -/

lemma updColU_length (p : Nat) (x : ℚ) (col : List (Nat × ℚ)) (r : List ℚ) :
    (updColU p x col r).length = r.length := by
  induction col generalizing r with
  | nil => rfl
  | cons e t ih =>
    unfold updColU
    split
    · exact ih r
    · rw [ih]; simp

lemma updColU_dGet_not_mem {p : Nat} {x : ℚ} {col : List (Nat × ℚ)} {r : List ℚ} {i : Nat}
    (h : ∀ e ∈ col, e.1 = i → p ≤ e.1) :
    dGet (updColU p x col r) i = dGet r i := by
  induction col generalizing r with
  | nil => rfl
  | cons e t ih =>
    unfold updColU
    split
    · exact ih (fun e' he' => h e' (List.mem_cons_of_mem _ he'))
    · rename_i hgt
      have hne : e.1 ≠ i := by
        intro hcontra
        exact hgt (h e (List.mem_cons_self _ _) hcontra)
      rw [ih (fun e' he' => h e' (List.mem_cons_of_mem _ he')), dGet_set_ne hne]

lemma updColU_dGet_mem {p : Nat} {x : ℚ} {col : List (Nat × ℚ)} {r : List ℚ} {i : Nat} {v : ℚ}
    (hnd : (col.map Prod.fst).Nodup) (hm : (i, v) ∈ col) (hip : i < p)
    (hlen : i < r.length) :
    dGet (updColU p x col r) i = dGet r i - v * x := by
  induction col generalizing r with
  | nil => simp at hm
  | cons e t ih =>
    simp only [List.map_cons, List.nodup_cons] at hnd
    rcases List.mem_cons.mp hm with he | ht
    · have he' : e = ((i : Nat), v) := he.symm
      subst he'
      unfold updColU
      rw [if_neg (by simpa using hip)]
      have hno : ∀ e' ∈ t, e'.1 = i → p ≤ e'.1 := by
        intro e' he' h1
        exact absurd (h1 ▸ List.mem_map.mpr ⟨e', he', rfl⟩) hnd.1
      rw [updColU_dGet_not_mem hno, dGet_set_self (by simpa using hlen)]
      rfl
    · have hne : e.1 ≠ i := by
        intro hcontra
        exact hnd.1 (hcontra ▸ List.mem_map.mpr ⟨(i, v), ht, rfl⟩)
      unfold updColU
      split
      · exact ih hnd.2 ht hlen
      · rw [ih hnd.2 ht (by simpa using hlen), dGet_set_ne hne]

lemma usolve_process_col_ok_eq {col : List (Nat × ℚ)} {p : Nat} {rhs : List ℚ}
    {d : Nat × ℚ} (h : col.find? (fun e => e.1 == p) = some d) (hz : d.2 ≠ 0) :
    usolve_csc_process_col col p rhs =
      Except.ok (updColU p (dGet rhs p / d.2) col (rhs.set p (dGet rhs p / d.2))) := by
  unfold usolve_csc_process_col
  rw [h]
  simp [hz, dGet]

lemma colContribU_gt {i j : Nat} (col : List (Nat × ℚ)) (x : List ℚ) (h : j < i) :
    colContribU i j col x = 0 := by
  unfold colContribU
  rw [List.filter_eq_nil.mpr ?_]
  · rfl
  · intro e _ hcond
    simp only [Bool.and_eq_true, beq_iff_eq, decide_eq_true_eq] at hcond
    omega

lemma colContribU_not_mem {i j : Nat} {col : List (Nat × ℚ)} (x : List ℚ)
    (h : ∀ v, (i, v) ∉ col) : colContribU i j col x = 0 := by
  unfold colContribU
  rw [List.filter_eq_nil.mpr ?_]
  · rfl
  · intro e he hcond
    simp only [Bool.and_eq_true, beq_iff_eq, decide_eq_true_eq] at hcond
    exact h e.2 (by rw [← hcond.1]; exact he)

lemma colContribU_diag {i j : Nat} {col : List (Nat × ℚ)} {v : ℚ} (x : List ℚ)
    (hnd : (col.map Prod.fst).Nodup) (hm : (i, v) ∈ col) (hj : i ≤ j) :
    colContribU i j col x = v * dGet x j := by
  induction col with
  | nil => simp at hm
  | cons e t ih =>
    simp only [List.map_cons, List.nodup_cons] at hnd
    rcases List.mem_cons.mp hm with he | ht
    · have he' : e = ((i : Nat), v) := he.symm
      subst he'
      have hno : ∀ w, ((i : Nat), w) ∉ t := by
        intro w hw
        exact hnd.1 (List.mem_map.mpr ⟨(i, w), hw, rfl⟩)
      unfold colContribU
      rw [List.filter_cons, if_pos (by simp [hj])]
      have ht0 : colContribU i j t x = 0 := colContribU_not_mem x hno
      unfold colContribU at ht0
      simp only [List.map_cons, List.sum_cons]
      rw [ht0]
      ring
    · have hne : e.1 ≠ i := by
        intro hcontra
        exact hnd.1 (hcontra ▸ List.mem_map.mpr ⟨(i, v), ht, rfl⟩)
      have := ih hnd.2 ht
      unfold colContribU at this ⊢
      rw [List.filter_cons, if_neg (by simp [hne])]
      exact this

lemma pairsUpperProd_cons (q : Nat × List (Nat × ℚ)) (t : List (Nat × List (Nat × ℚ)))
    (i : Nat) (x : List ℚ) :
    pairsUpperProd (q :: t) i x = colContribU i q.1 q.2 x + pairsUpperProd t i x := by
  simp [pairsUpperProd]

lemma pairsUpperProd_zero {ps : List (Nat × List (Nat × ℚ))} {i : Nat} (x : List ℚ)
    (h : ∀ p ∈ ps, p.1 < i) : pairsUpperProd ps i x = 0 := by
  induction ps with
  | nil => rfl
  | cons q t ih =>
    rw [pairsUpperProd_cons, colContribU_gt _ _ (h q (List.mem_cons_self _ _)),
      ih (fun p hp => h p (List.mem_cons_of_mem _ hp)), add_zero]

lemma pairsUpperProd_reverse (ps : List (Nat × List (Nat × ℚ))) (i : Nat) (x : List ℚ) :
    pairsUpperProd ps.reverse i x = pairsUpperProd ps i x := by
  unfold pairsUpperProd
  rw [List.map_reverse, List.sum_reverse]

lemma usolve_csc_loop_ok :
    ∀ (ps : List (Nat × List (Nat × ℚ))) (rhs : List ℚ),
      (∀ p ∈ ps, outerWF rhs.length p.2) →
      (∀ p ∈ ps, ∃ e ∈ p.2, e.1 = p.1 ∧ e.2 ≠ 0) →
      ps.map Prod.fst = countdown ps.length →
      ps.length ≤ rhs.length →
      ∃ res, usolve_csc_loop ps rhs = Outcome.ok res ∧
        res.length = rhs.length ∧
        (∀ k, ps.length ≤ k → dGet res k = dGet rhs k) ∧
        (∀ i, i < ps.length → pairsUpperProd ps i res = dGet rhs i) := by
  intro ps
  induction ps with
  | nil =>
    intro rhs _ _ _ _
    exact ⟨rhs, rfl, rfl, fun k _ => rfl, fun i hi => absurd hi (by simp)⟩
  | cons q rest ih =>
    intro rhs hwf hdg hmap hlen
    obtain ⟨j, col⟩ := q
    have hmap' : j = rest.length ∧ rest.map Prod.fst = countdown rest.length := by
      simpa [countdown] using hmap
    obtain ⟨hj, hmaprest⟩ := hmap'
    obtain ⟨ed, hed, hky, hnz⟩ := hdg (j, col) (List.mem_cons_self _ _)
    have hedm : ((j : Nat), ed.2) ∈ col := by
      have : ed = ((j : Nat), ed.2) := by cases ed; simp_all
      simpa [← this] using hed
    have hwc := hwf (j, col) (List.mem_cons_self _ _)
    have hfind : col.find? (fun e => e.1 == j) = some ((j : Nat), ed.2) :=
      find?_key_mem hwc.1 hedm
    have hproc := @usolve_process_col_ok_eq col j rhs ((j : Nat), ed.2) hfind hnz
    have hjlt : j < rhs.length := by simp at hlen; omega
    have hr2len : (updColU j (dGet rhs j / ed.2) col
        (rhs.set j (dGet rhs j / ed.2))).length = rhs.length := by
      rw [updColU_length]; simp
    have hr2j : dGet (updColU j (dGet rhs j / ed.2) col
        (rhs.set j (dGet rhs j / ed.2))) j = dGet rhs j / ed.2 := by
      rw [updColU_dGet_not_mem (fun e _ h1 => ge_of_eq h1), dGet_set_self hjlt]
    obtain ⟨res, hres, hrlen, hframe, hprod⟩ :=
      ih (updColU j (dGet rhs j / ed.2) col (rhs.set j (dGet rhs j / ed.2)))
        (by intro p hp
            have := hwf p (List.mem_cons_of_mem _ hp)
            exact ⟨this.1, fun e he => by rw [hr2len]; exact this.2 e he⟩)
        (fun p hp => hdg p (List.mem_cons_of_mem _ hp))
        hmaprest
        (by rw [hr2len]; simp at hlen; omega)
    refine ⟨res, ?_, by rw [hrlen, hr2len], ?_, ?_⟩
    · show usolve_csc_loop ((j, col) :: rest) rhs = Outcome.ok res
      unfold usolve_csc_loop
      rw [hproc]
      exact hres
    · intro k hk
      have hkgt : j < k := by simp at hk; omega
      rw [hframe k (by simp at hk; omega),
        updColU_dGet_not_mem (fun e _ h1 => by omega),
        dGet_set_ne (by omega : j ≠ k)]
    · intro i hi
      rw [pairsUpperProd_cons]
      have hresj : dGet res j = dGet rhs j / ed.2 := by
        rw [hframe j (by omega), hr2j]
      by_cases hij : i = j
      · subst hij
        rw [pairsUpperProd_zero res ?_, colContribU_diag _ hwc.1 hedm (le_refl i), hresj]
        · field_simp
        · intro p hp
          have : p.1 ∈ rest.map Prod.fst := List.mem_map.mpr ⟨p, hp, rfl⟩
          rw [hmaprest] at this
          have := mem_countdown.mp this
          omega
      · have hlt : i < j := by simp at hi; omega
        have hIH := hprod i (by omega)
        by_cases hex : ∃ v, ((i : Nat), v) ∈ col
        · obtain ⟨v, hv⟩ := hex
          have hr2i : dGet (updColU j (dGet rhs j / ed.2) col
              (rhs.set j (dGet rhs j / ed.2))) i =
              dGet rhs i - v * (dGet rhs j / ed.2) := by
            rw [updColU_dGet_mem hwc.1 hv hlt (by simpa using hwc.2 _ hv),
              dGet_set_ne (by omega : j ≠ i)]
          rw [hIH, hr2i, colContribU_diag _ hwc.1 hv (le_of_lt hlt), hresj]
          ring
        · have hno : ∀ v, ((i : Nat), v) ∉ col := by push_neg at hex; exact hex
          have hr2i : dGet (updColU j (dGet rhs j / ed.2) col
              (rhs.set j (dGet rhs j / ed.2))) i = dGet rhs i := by
            rw [updColU_dGet_not_mem ?_, dGet_set_ne (by omega : j ≠ i)]
            intro e he h1
            exact absurd (show ((i : Nat), e.2) ∈ col by rw [← h1]; exact he) (hno e.2)
          rw [hIH, hr2i, colContribU_not_mem _ hno, zero_add]

/-- Success of `usolve_csc_dense_rhs` on a well-formed square CSC matrix with
full nonzero diagonal: it returns `Ok` and the upper-triangular part of the
matrix applied to the result reproduces the right-hand side. -/
lemma usolve_csc_dense_ok (mat : CsMatView) (b : List ℚ)
    (hw : matWF mat) (hd : diagAllNonzero mat) (hcs : mat.storage = StorageType.CSC)
    (hlen : b.length = mat.rows) :
    ∃ x, usolve_csc_dense_rhs mat b = Outcome.ok x ∧ x.length = b.length ∧
      ∀ i, i < mat.rows → cscUpperMulAt mat x i = dGet b i := by
  obtain ⟨hsq, holen, hcols⟩ := hw
  obtain ⟨res, hres, hrlen, _, hprod⟩ :=
    usolve_csc_loop_ok mat.outer.enum.reverse b
      (by intro p hp
          obtain ⟨h1, h2⟩ := mem_enum_getD [] (List.mem_reverse.mp hp)
          have hmem : p.2 ∈ mat.outer := by
            rw [h2, List.getD_eq_getElem _ _ h1]
            exact List.getElem_mem h1
          have := hcols p.2 hmem
          exact ⟨this.1, fun e he => hlen ▸ this.2 e he⟩)
      (by intro p hp
          obtain ⟨h1, h2⟩ := mem_enum_getD [] (List.mem_reverse.mp hp)
          have := hd p.1 (holen ▸ h1)
          rw [← h2] at this
          exact this)
      (by rw [List.length_reverse, List.enum_length, enum_reverse_map_fst])
      (by rw [List.length_reverse, List.enum_length]; omega)
  refine ⟨res, ?_, hrlen, fun i hi => ?_⟩
  · unfold usolve_csc_dense_rhs
    rw [if_neg (by simp [check_solver_dimensions, hsq, hlen]),
      if_neg (by simp [CsMatView.is_csc, hcs])]
    exact hres
  · have := hprod i (by rw [List.length_reverse, List.enum_length]; omega)
    rw [pairsUpperProd_reverse] at this
    exact this

/-- C1: for every square sparse matrix with well-formed storage whose
diagonal entries are all present and nonzero, and every dense right-hand
side of matching length, each dense solver matching the matrix's orientation
and triangle side (`lsolve_csr_dense_rhs`, `lsolve_csc_dense_rhs`,
`usolve_csc_dense_rhs`, `usolve_csr_dense_rhs`) returns `Ok` and leaves in
the in/out vector a solution `x` such that the matrix's triangular part
applied to `x` reproduces the right-hand side exactly in exact (rational)
arithmetic. -/
theorem claim_C1 :
    (∀ (mat : CsMatView) (b : List ℚ), matWF mat → diagAllNonzero mat →
      mat.storage = StorageType.CSR → b.length = mat.rows →
      ∃ x, lsolve_csr_dense_rhs mat b = Outcome.ok x ∧
        ∀ i, i < mat.rows → csrLowerMulAt mat x i = dGet b i) ∧
    (∀ (mat : CsMatView) (b : List ℚ), matWF mat → diagAllNonzero mat →
      mat.storage = StorageType.CSC → b.length = mat.rows →
      ∃ x, lsolve_csc_dense_rhs mat b = Outcome.ok x ∧
        ∀ i, i < mat.rows → cscLowerMulAt mat x i = dGet b i) ∧
    (∀ (mat : CsMatView) (b : List ℚ), matWF mat → diagAllNonzero mat →
      mat.storage = StorageType.CSC → b.length = mat.rows →
      ∃ x, usolve_csc_dense_rhs mat b = Outcome.ok x ∧
        ∀ i, i < mat.rows → cscUpperMulAt mat x i = dGet b i) ∧
    (∀ (mat : CsMatView) (b : List ℚ), matWF mat → diagAllNonzero mat →
      mat.storage = StorageType.CSR → b.length = mat.rows →
      ∃ x, usolve_csr_dense_rhs mat b = Outcome.ok x ∧
        ∀ i, i < mat.rows → csrUpperMulAt mat x i = dGet b i) := by
  refine ⟨?_, ?_, ?_, ?_⟩
  · intro mat b hw hd hcs hlen
    obtain ⟨x, h1, _, h3⟩ := lsolve_csr_dense_ok mat b hw hd hcs hlen
    exact ⟨x, h1, h3⟩
  · intro mat b hw hd hcs hlen
    obtain ⟨x, h1, _, h3⟩ := lsolve_csc_dense_ok mat b hw hd hcs hlen
    exact ⟨x, h1, h3⟩
  · intro mat b hw hd hcs hlen
    obtain ⟨x, h1, _, h3⟩ := usolve_csc_dense_ok mat b hw hd hcs hlen
    exact ⟨x, h1, h3⟩
  · intro mat b hw hd hcs hlen
    obtain ⟨x, h1, _, h3⟩ := usolve_csr_dense_ok mat b hw hd hcs hlen
    exact ⟨x, h1, h3⟩

/-- Witness for C1 at the four concrete systems used by the repository's own
tests (one per orientation and triangle side). -/
theorem claim_C1_witness :
    (∃ x, lsolve_csr_dense_rhs ⟨3, 3, StorageType.CSR, [[(0, 1)], [(1, 2)], [(0, 1), (2, 1)]]⟩
        [3, 2, 4] = Outcome.ok x ∧
      ∀ i, i < 3 → csrLowerMulAt ⟨3, 3, StorageType.CSR, [[(0, 1)], [(1, 2)], [(0, 1), (2, 1)]]⟩
        x i = dGet [3, 2, 4] i) ∧
    (∃ x, lsolve_csc_dense_rhs ⟨3, 3, StorageType.CSC, [[(0, 1), (1, 1)], [(1, 2)], [(2, 3)]]⟩
        [3, 5, 3] = Outcome.ok x ∧
      ∀ i, i < 3 → cscLowerMulAt ⟨3, 3, StorageType.CSC, [[(0, 1), (1, 1)], [(1, 2)], [(2, 3)]]⟩
        x i = dGet [3, 5, 3] i) ∧
    (∃ x, usolve_csc_dense_rhs ⟨3, 3, StorageType.CSC, [[(0, 1)], [(1, 2)], [(0, 1), (2, 3)]]⟩
        [4, 2, 3] = Outcome.ok x ∧
      ∀ i, i < 3 → cscUpperMulAt ⟨3, 3, StorageType.CSC, [[(0, 1)], [(1, 2)], [(0, 1), (2, 3)]]⟩
        x i = dGet [4, 2, 3] i) ∧
    (∃ x, usolve_csr_dense_rhs ⟨3, 3, StorageType.CSR, [[(0, 1), (1, 1)], [(1, 5), (2, 3)], [(2, 1)]]⟩
        [4, 8, 1] = Outcome.ok x ∧
      ∀ i, i < 3 → csrUpperMulAt ⟨3, 3, StorageType.CSR, [[(0, 1), (1, 1)], [(1, 5), (2, 3)], [(2, 1)]]⟩
        x i = dGet [4, 8, 1] i) :=
  ⟨claim_C1.1 _ _ (by decide) (by decide) rfl (by decide),
    claim_C1.2.1 _ _ (by decide) (by decide) rfl (by decide),
    claim_C1.2.2.1 _ _ (by decide) (by decide) rfl (by decide),
    claim_C1.2.2.2 _ _ (by decide) (by decide) rfl (by decide)⟩

/-! Equivalence of the two lower-triangular dense solvers on the same
logical system (C8): conversion of stored-entry products to sums over
`Finset.range`, and uniqueness of the solution of a lower-triangular system
with nonzero diagonal. -/

lemma keyVal_cons (e : Nat × ℚ) (t : List (Nat × ℚ)) (j : Nat) :
    keyVal (e :: t) j = if e.1 = j then e.2 else keyVal t j := by
  unfold keyVal
  rw [List.find?_cons]
  by_cases h : e.1 = j
  · simp [h]
  · simp [beq_eq_false_iff_ne.mpr h, h]

lemma keyVal_not_mem {l : List (Nat × ℚ)} {j : Nat} (h : ∀ v, (j, v) ∉ l) :
    keyVal l j = 0 := by
  unfold keyVal
  rw [find?_key_eq_none h]
  rfl

lemma keyVal_of_mem {l : List (Nat × ℚ)} {j : Nat} {v : ℚ}
    (hnd : (l.map Prod.fst).Nodup) (hm : (j, v) ∈ l) : keyVal l j = v := by
  unfold keyVal
  rw [find?_key_mem hnd hm]
  rfl

lemma matWF_getD_nodup {m : CsMatView} (hw : matWF m) {i : Nat}
    (hi : i < m.outer.length) : ((m.outer.getD i []).map Prod.fst).Nodup := by
  have hmem : m.outer.getD i [] ∈ m.outer := by
    rw [List.getD_eq_getElem _ _ hi]
    exact List.getElem_mem hi
  exact (hw.2.2 _ hmem).1

lemma entrySum_filter_le_eq_range (l : List (Nat × ℚ)) (x : List ℚ) (i : Nat)
    (hnd : (l.map Prod.fst).Nodup) :
    entrySum (l.filter (fun e => decide (e.1 ≤ i))) x =
      ∑ j in Finset.range (i + 1), keyVal l j * dGet x j := by
  induction l with
  | nil => simp [entrySum, keyVal, List.find?]
  | cons e t ih =>
    simp only [List.map_cons, List.nodup_cons] at hnd
    have hkt : keyVal t e.1 = 0 :=
      keyVal_not_mem (fun v hv => hnd.1 (List.mem_map.mpr ⟨(e.1, v), hv, rfl⟩))
    by_cases hle : e.1 ≤ i
    · rw [List.filter_cons, if_pos (by simpa using hle), entrySum_cons, ih hnd.2]
      have hsum : ∑ j in Finset.range (i + 1), keyVal (e :: t) j * dGet x j =
          ∑ j in Finset.range (i + 1),
            (keyVal t j * dGet x j + if e.1 = j then e.2 * dGet x j else 0) := by
        apply Finset.sum_congr rfl
        intro j _
        rw [keyVal_cons]
        by_cases h : e.1 = j
        · rw [if_pos h, if_pos h, ← h, hkt]
          ring
        · rw [if_neg h, if_neg h]
          ring
      rw [hsum, Finset.sum_add_distrib,
        Finset.sum_ite_eq (Finset.range (i + 1)) e.1 (fun j => e.2 * dGet x j),
        if_pos (Finset.mem_range.mpr (by omega))]
      ring
    · rw [List.filter_cons, if_neg (by simpa using hle), ih hnd.2]
      apply Finset.sum_congr rfl
      intro j hj
      rw [keyVal_cons, if_neg (by have := Finset.mem_range.mp hj; omega)]

lemma csrLowerMulAt_eq_range (m : CsMatView) (x : List ℚ) (i : Nat)
    (hnd : ((m.outer.getD i []).map Prod.fst).Nodup) :
    csrLowerMulAt m x i = ∑ j in Finset.range (i + 1), csrEntry m i j * dGet x j :=
  entrySum_filter_le_eq_range _ x i hnd

lemma enumFrom_map_sum (F : Nat → List (Nat × ℚ) → ℚ) :
    ∀ (l : List (List (Nat × ℚ))) (k : Nat),
      ((l.enumFrom k).map (fun jc => F jc.1 jc.2)).sum =
        ∑ j in Finset.range l.length, F (k + j) (l.getD j []) := by
  intro l
  induction l with
  | nil => intro k; simp
  | cons c t ih =>
    intro k
    show F k c + ((t.enumFrom (k + 1)).map (fun jc => F jc.1 jc.2)).sum = _
    rw [ih (k + 1)]
    simp only [List.length_cons]
    rw [Finset.sum_range_succ' (fun j => F (k + j) ((c :: t).getD j [])) t.length]
    simp only [List.getD_cons_succ, List.getD_cons_zero, Nat.add_zero]
    rw [add_comm]
    congr 1
    apply Finset.sum_congr rfl
    intro j _
    rw [show k + 1 + j = k + (j + 1) from by omega]

lemma cscLowerMulAt_eq_range (m : CsMatView) (x : List ℚ) (i : Nat)
    (hw : matWF m) (hi : i < m.outer.length) :
    cscLowerMulAt m x i = ∑ j in Finset.range (i + 1), cscEntry m i j * dGet x j := by
  have h1 : cscLowerMulAt m x i = ∑ j in Finset.range m.outer.length,
      colContribL i j (m.outer.getD j []) x := by
    show ((m.outer.enumFrom 0).map (fun jc => colContribL i jc.1 jc.2 x)).sum = _
    rw [enumFrom_map_sum (fun j c => colContribL i j c x) m.outer 0]
    simp
  have h2 : ∀ j ∈ Finset.range m.outer.length,
      colContribL i j (m.outer.getD j []) x =
        if j ≤ i then cscEntry m i j * dGet x j else 0 := by
    intro j hj
    by_cases hji : j ≤ i
    · rw [if_pos hji]
      have hndj := matWF_getD_nodup hw (Finset.mem_range.mp hj)
      by_cases hex : ∃ v, ((i : Nat), v) ∈ m.outer.getD j []
      · obtain ⟨v, hv⟩ := hex
        rw [colContribL_diag x hndj hv hji,
          show cscEntry m i j = v from keyVal_of_mem hndj hv]
      · push_neg at hex
        rw [colContribL_not_mem x hex,
          show cscEntry m i j = 0 from keyVal_not_mem hex]
        ring
    · rw [if_neg hji, colContribL_lt _ _ (by omega)]
  rw [h1, Finset.sum_congr rfl h2,
    ← Finset.sum_subset (Finset.range_subset.mpr (by omega : i + 1 ≤ m.outer.length))
      (fun j hjn hjni => by rw [if_neg (by simp at hjni; omega)])]
  apply Finset.sum_congr rfl
  intro j hj
  rw [if_pos (by have := Finset.mem_range.mp hj; omega)]

lemma lower_tri_unique {n : Nat} {c : Nat → Nat → ℚ} {b : Nat → ℚ} {x y : Nat → ℚ}
    (hc : ∀ i, i < n → c i i ≠ 0)
    (hx : ∀ i, i < n → ∑ j in Finset.range (i + 1), c i j * x j = b i)
    (hy : ∀ i, i < n → ∑ j in Finset.range (i + 1), c i j * y j = b i) :
    ∀ i, i < n → x i = y i := by
  intro i
  induction i using Nat.strong_induction_on with
  | _ i ih =>
    intro hi
    have hxi := hx i hi
    have hyi := hy i hi
    rw [Finset.sum_range_succ] at hxi hyi
    have hpre : ∑ j in Finset.range i, c i j * x j =
        ∑ j in Finset.range i, c i j * y j :=
      Finset.sum_congr rfl
        (fun j hj => by
          have hji := Finset.mem_range.mp hj
          rw [ih j hji (by omega)])
    have hcc : c i i * x i = c i i * y i := by
      rw [hpre] at hxi
      linarith
    exact mul_left_cancel₀ (hc i hi) hcc

/-- C8: the forward solve over the row-major and the column-major
representations of the same logical lower-triangular system, starting from
the same dense right-hand side, produce identical solution vectors. -/
theorem claim_C8 (A B : CsMatView) (b : List ℚ)
    (hwA : matWF A) (hwB : matWF B) (hdA : diagAllNonzero A)
    (hsA : A.storage = StorageType.CSR) (hsB : B.storage = StorageType.CSC)
    (hn : B.rows = A.rows) (hlen : b.length = A.rows)
    (hsame : ∀ i, i < A.rows → ∀ j, j ≤ i → csrEntry A i j = cscEntry B i j) :
    ∃ x, lsolve_csr_dense_rhs A b = Outcome.ok x ∧
      lsolve_csc_dense_rhs B b = Outcome.ok x := by
  have hdiagA : ∀ i, i < A.rows → csrEntry A i i ≠ 0 := by
    intro i hi
    obtain ⟨e, he, hek, henz⟩ := hdA i hi
    have hndA := matWF_getD_nodup hwA (show i < A.outer.length by rw [hwA.2.1]; exact hi)
    have hem : ((i : Nat), e.2) ∈ A.outer.getD i [] := by
      have : e = ((i : Nat), e.2) := by cases e; simp_all
      rwa [← this]
    rw [show csrEntry A i i = e.2 from keyVal_of_mem hndA hem]
    exact henz
  have hdB : diagAllNonzero B := by
    intro i hi
    have hiA : i < A.rows := by omega
    have hne : cscEntry B i i ≠ 0 := by
      rw [← hsame i hiA i (le_refl i)]
      exact hdiagA i hiA
    unfold cscEntry keyVal at hne
    cases hf : (B.outer.getD i []).find? (fun e => e.1 == i) with
    | none => rw [hf] at hne; simp at hne
    | some d =>
      have hdmem := List.mem_of_find?_eq_some hf
      have hdkey : d.1 = i := by simpa using List.find?_some hf
      rw [hf] at hne
      simp at hne
      exact ⟨d, hdmem, hdkey, hne⟩
  obtain ⟨x, hx1, hx2, hx3⟩ := lsolve_csr_dense_ok A b hwA hdA hsA hlen
  obtain ⟨y, hy1, hy2, hy3⟩ := lsolve_csc_dense_ok B b hwB hdB hsB (by omega)
  have hXr : ∀ i, i < A.rows →
      ∑ j in Finset.range (i + 1), csrEntry A i j * dGet x j = dGet b i := by
    intro i hi
    rw [← csrLowerMulAt_eq_range A x i (matWF_getD_nodup hwA (by rw [hwA.2.1]; exact hi))]
    exact hx3 i hi
  have hYr : ∀ i, i < A.rows →
      ∑ j in Finset.range (i + 1), csrEntry A i j * dGet y j = dGet b i := by
    intro i hi
    have hiB : i < B.rows := by omega
    have := hy3 i hiB
    rw [cscLowerMulAt_eq_range B y i hwB (by rw [hwB.2.1]; exact hiB)] at this
    rw [← this]
    apply Finset.sum_congr rfl
    intro j hj
    rw [hsame i hi j (by have := Finset.mem_range.mp hj; omega)]
  have huniq := lower_tri_unique hdiagA hXr hYr
  have hxy : x = y := by
    apply List.ext_getElem (by omega)
    intro i h1 h2
    have hiA : i < A.rows := by omega
    have := huniq i hiA
    rwa [dGet, dGet, List.getD_eq_getElem _ _ h1, List.getD_eq_getElem _ _ h2] at this
  exact ⟨x, hx1, hxy ▸ hy1⟩

/-- Witness for C8: row-major and column-major representations of the same
concrete lower-triangular system produce the same solution. -/
theorem claim_C8_witness :
    (matWF ⟨3, 3, StorageType.CSR, [[(0, 1)], [(0, 1), (1, 2)], [(2, 3)]]⟩ ∧
      matWF ⟨3, 3, StorageType.CSC, [[(0, 1), (1, 1)], [(1, 2)], [(2, 3)]]⟩ ∧
      diagAllNonzero ⟨3, 3, StorageType.CSR, [[(0, 1)], [(0, 1), (1, 2)], [(2, 3)]]⟩ ∧
      (∀ i, i < 3 → ∀ j, j ≤ i →
        csrEntry ⟨3, 3, StorageType.CSR, [[(0, 1)], [(0, 1), (1, 2)], [(2, 3)]]⟩ i j =
          cscEntry ⟨3, 3, StorageType.CSC, [[(0, 1), (1, 1)], [(1, 2)], [(2, 3)]]⟩ i j)) ∧
    (∃ x, lsolve_csr_dense_rhs ⟨3, 3, StorageType.CSR, [[(0, 1)], [(0, 1), (1, 2)], [(2, 3)]]⟩
        [3, 5, 3] = Outcome.ok x ∧
      lsolve_csc_dense_rhs ⟨3, 3, StorageType.CSC, [[(0, 1), (1, 1)], [(1, 2)], [(2, 3)]]⟩
        [3, 5, 3] = Outcome.ok x) :=
  ⟨⟨by decide, by decide, by decide, by decide⟩,
    claim_C8 _ _ [3, 5, 3] (by decide) (by decide) (by decide) rfl rfl rfl (by decide)
      (by decide)⟩

/-! Basic facts about the iterative depth-first traversal: the loop drains
the pending side, preserves the visited array's length, only adds visited
marks and finished entries, and visits every index whose `Discover` marker
it pops. -/

lemma bGet_set_self {v : List Bool} {i : Nat} (h : i < v.length) (a : Bool) :
    (v.set i a).getD i false = a := by
  simp [List.getD_eq_getD_get?, List.get?_eq_getElem?,
    List.getElem?_set_eq_of_lt _ h]

lemma bGet_set_ne {v : List Bool} {i j : Nat} (h : i ≠ j) (a : Bool) :
    (v.set i a).getD j false = v.getD j false := by
  simp [List.getD_eq_getD_get?, List.get?_eq_getElem?, List.getElem?_set_ne h]

lemma getVis_lt_length {s : DfsState} {i : Nat} (h : getVis s i = true) :
    i < s.visited.length := by
  by_contra hge
  unfold getVis at h
  rw [List.getD_eq_default _ _ (by omega)] at h
  exact Bool.false_ne_true h

lemma dfsLoop_basic {mat : CsMatView} :
    ∀ {fuel : Nat} {s s' : DfsState}, dfsLoop mat fuel s = some s' →
      s'.left = [] ∧
      s'.visited.length = s.visited.length ∧
      (∀ i, getVis s i = true → getVis s' i = true) ∧
      (∃ pre, s'.right = pre ++ s.right) ∧
      (∀ ind, StackVal.Enter ind ∈ s.left → getVis s' ind = true) := by
  intro fuel
  induction fuel with
  | zero => intro s s' h; simp [dfsLoop] at h
  | succ fuel ih =>
    rintro ⟨vis, left, right, mo⟩ s' h
    cases left with
    | nil =>
      simp only [dfsLoop] at h
      obtain rfl := Option.some.inj h
      exact ⟨rfl, rfl, fun i hv => hv, ⟨[], rfl⟩, fun ind hind => absurd hind (by simp)⟩
    | cons sv rest =>
      cases sv with
      | Enter ind =>
        simp only [dfsLoop] at h
        by_cases hlt : ind < vis.length
        · rw [if_pos hlt] at h
          by_cases hv : vis.getD ind false = true
          · rw [if_pos hv] at h
            obtain ⟨h1, h2, h3, ⟨pre, h4⟩, h5⟩ := ih h
            refine ⟨h1, h2, fun i hvi => h3 i hvi, ⟨pre, h4⟩, ?_⟩
            intro e he
            rcases List.mem_cons.mp he with he1 | he2
            · obtain rfl : e = ind := by injection he1
              exact h3 e hv
            · exact h5 e he2
          · rw [if_neg hv] at h
            cases ho : mat.outer_view ind with
            | none => rw [ho] at h; exact absurd h (by simp)
            | some column =>
              rw [ho] at h
              obtain ⟨h1, h2, h3, ⟨pre, h4⟩, h5⟩ := ih h
              have hset : ∀ i, getVis (⟨vis, StackVal.Enter ind :: rest, right, mo⟩ : DfsState)
                  i = true → (vis.set ind true).getD i false = true := by
                intro i hvi
                by_cases hii : ind = i
                · subst hii; rw [bGet_set_self hlt]
                · rw [bGet_set_ne hii]; exact hvi
              refine ⟨h1, by simpa using h2, fun i hvi => h3 i (hset i hvi), ⟨pre, h4⟩, ?_⟩
              intro e he
              rcases List.mem_cons.mp he with he1 | he2
              · obtain rfl : e = ind := by injection he1
                refine h3 e ?_
                show (vis.set e true).getD e false = true
                rw [bGet_set_self hlt]
              · exact h5 e (by
                  apply List.mem_append_right
                  exact List.mem_cons_of_mem _ he2)
        · rw [if_neg hlt] at h
          exact absurd h (by simp)
      | Exit ind =>
        simp only [dfsLoop] at h
        obtain ⟨h1, h2, h3, ⟨pre, h4⟩, h5⟩ := ih h
        refine ⟨h1, h2, h3, ⟨pre ++ [StackVal.Enter ind], by simpa using h4⟩, ?_⟩
        intro e he
        rcases List.mem_cons.mp he with he1 | he2
        · exact absurd he1 (by simp)
        · exact h5 e he2

lemma dfsRoots_basic {mat : CsMatView} :
    ∀ {roots : List Nat} {s s' : DfsState}, dfsRoots mat roots s = some s' →
      s'.visited.length = s.visited.length ∧
      (∀ i, getVis s i = true → getVis s' i = true) ∧
      (∃ pre, s'.right = pre ++ s.right) ∧
      (∀ r ∈ roots, getVis s' r = true) ∧
      (s.left = [] → s'.left = []) := by
  intro roots
  induction roots with
  | nil =>
    intro s s' h
    obtain rfl := Option.some.inj h
    exact ⟨rfl, fun i hv => hv, ⟨[], rfl⟩, fun r hr => absurd hr (by simp),
      fun hl => hl⟩
  | cons r rs ih =>
    intro s s' h
    unfold dfsRoots at h
    by_cases hlt : r < s.visited.length
    · rw [if_pos hlt] at h
      by_cases hv : s.visited.getD r false = true
      · rw [if_pos hv] at h
        obtain ⟨h1, h2, h3, h4, h5⟩ := ih h
        refine ⟨h1, h2, h3, ?_, h5⟩
        intro q hq
        rcases List.mem_cons.mp hq with hq1 | hq2
        · subst hq1; exact h2 q hv
        · exact h4 q hq2
      · rw [if_neg hv] at h
        cases hloop : dfsLoop mat (dfsFuel mat) { s with left := StackVal.Enter r :: s.left } with
        | none => rw [hloop] at h; exact absurd h (by simp)
        | some s1 =>
          rw [hloop] at h
          obtain ⟨g1, g2, g3, ⟨preg, g4⟩, g5⟩ := dfsLoop_basic hloop
          obtain ⟨h1, h2, ⟨preh, h4⟩, h5, h6⟩ := ih h
          refine ⟨by rw [h1]; simpa using g2, fun i hvi => h2 i (g3 i hvi),
            ⟨preh ++ preg, by rw [h4, g4]; simp⟩, ?_, fun _ => h6 g1⟩
          intro q hq
          rcases List.mem_cons.mp hq with hq1 | hq2
          · subst hq1
            exact h2 q (g5 q (by simp))
          · exact h5 q hq2
    · rw [if_neg hlt] at h
      exact absurd h (by simp)

/-! Closedness: at the end of a traversal every stored entry of a visited
column is itself visited (its `Discover` marker has been consumed). -/

lemma outer_view_getD {m : CsMatView} {ind : Nat} {c : List (Nat × ℚ)}
    (h : m.outer_view ind = some c) : m.outer.getD ind [] = c := by
  unfold CsMatView.outer_view at h
  rw [List.getD_eq_getD_get?, h]
  rfl

lemma outer_view_lt {m : CsMatView} {ind : Nat} {c : List (Nat × ℚ)}
    (h : m.outer_view ind = some c) : ind < m.outer.length := by
  unfold CsMatView.outer_view at h
  by_contra hge
  rw [List.get?_eq_none.mpr (by omega)] at h
  exact absurd h (by simp)

lemma dfsLoop_closed {mat : CsMatView} :
    ∀ {fuel : Nat} {s s' : DfsState}, dfsLoop mat fuel s = some s' →
      (∀ j, getVis s j = true → ∀ e ∈ mat.outer.getD j [],
        getVis s e.1 = true ∨ StackVal.Enter e.1 ∈ s.left) →
      (∀ j, getVis s' j = true → ∀ e ∈ mat.outer.getD j [],
        getVis s' e.1 = true ∨ StackVal.Enter e.1 ∈ s'.left) := by
  intro fuel
  induction fuel with
  | zero => intro s s' h _; simp [dfsLoop] at h
  | succ fuel ih =>
    rintro ⟨vis, left, right, mo⟩ s' h hinv
    cases left with
    | nil =>
      simp only [dfsLoop] at h
      obtain rfl := Option.some.inj h
      exact hinv
    | cons sv rest =>
      cases sv with
      | Enter ind =>
        simp only [dfsLoop] at h
        by_cases hlt : ind < vis.length
        · rw [if_pos hlt] at h
          by_cases hv : vis.getD ind false = true
          · rw [if_pos hv] at h
            refine ih h ?_
            intro j hj e he
            rcases hinv j hj e he with hc | hc
            · exact Or.inl hc
            · rcases List.mem_cons.mp hc with hc1 | hc2
              · obtain rfl : e.1 = ind := by injection hc1
                exact Or.inl hv
              · exact Or.inr hc2
          · rw [if_neg hv] at h
            cases ho : mat.outer_view ind with
            | none => rw [ho] at h; exact absurd h (by simp)
            | some column =>
              rw [ho] at h
              refine ih h ?_
              intro j hj e he
              by_cases hji : j = ind
              · subst hji
                refine Or.inr (List.mem_append_left _ ?_)
                rw [outer_view_getD ho] at he
                exact List.mem_reverse.mpr (List.mem_map.mpr ⟨e, he, rfl⟩)
              · have hj' : vis.getD j false = true := by
                  have : (vis.set ind true).getD j false = true := hj
                  rwa [bGet_set_ne (fun hcontra => hji hcontra.symm)] at this
                rcases hinv j hj' e he with hc | hc
                · refine Or.inl ?_
                  show (vis.set ind true).getD e.1 false = true
                  by_cases hei : ind = e.1
                  · subst hei; rw [bGet_set_self hlt]
                  · rw [bGet_set_ne hei]; exact hc
                · rcases List.mem_cons.mp hc with hc1 | hc2
                  · obtain rfl : e.1 = ind := by injection hc1
                    refine Or.inl ?_
                    show (vis.set e.1 true).getD e.1 false = true
                    rw [bGet_set_self hlt]
                  · exact Or.inr (List.mem_append_right _ (List.mem_cons_of_mem _ hc2))
        · rw [if_neg hlt] at h
          exact absurd h (by simp)
      | Exit ind =>
        simp only [dfsLoop] at h
        refine ih h ?_
        intro j hj e he
        rcases hinv j hj e he with hc | hc
        · exact Or.inl hc
        · rcases List.mem_cons.mp hc with hc1 | hc2
          · exact absurd hc1 (by simp)
          · exact Or.inr hc2

lemma dfsRoots_closed {mat : CsMatView} :
    ∀ {roots : List Nat} {s s' : DfsState}, dfsRoots mat roots s = some s' →
      (∀ j, getVis s j = true → ∀ e ∈ mat.outer.getD j [],
        getVis s e.1 = true ∨ StackVal.Enter e.1 ∈ s.left) →
      (∀ j, getVis s' j = true → ∀ e ∈ mat.outer.getD j [],
        getVis s' e.1 = true ∨ StackVal.Enter e.1 ∈ s'.left) := by
  intro roots
  induction roots with
  | nil =>
    intro s s' h hinv
    obtain rfl := Option.some.inj h
    exact hinv
  | cons r rs ih =>
    intro s s' h hinv
    unfold dfsRoots at h
    by_cases hlt : r < s.visited.length
    · rw [if_pos hlt] at h
      by_cases hv : s.visited.getD r false = true
      · rw [if_pos hv] at h
        exact ih h hinv
      · rw [if_neg hv] at h
        cases hloop : dfsLoop mat (dfsFuel mat) { s with left := StackVal.Enter r :: s.left } with
        | none => rw [hloop] at h; exact absurd h (by simp)
        | some s1 =>
          rw [hloop] at h
          refine ih h (dfsLoop_closed hloop ?_)
          intro j hj e he
          rcases hinv j hj e he with hc | hc
          · exact Or.inl hc
          · exact Or.inr (List.mem_cons_of_mem _ hc)
    · rw [if_neg hlt] at h
      exact absurd h (by simp)

/-! Bookkeeping of the finished side: the indices of `Finalize` markers still
pending together with the finished indices enumerate the visited set without
repetition. -/

lemma leftExits_enter (i : Nat) (t : List StackVal) :
    leftExits (StackVal.Enter i :: t) = leftExits t := rfl

lemma leftExits_exit (u : Nat) (t : List StackVal) :
    leftExits (StackVal.Exit u :: t) = u :: leftExits t := rfl

lemma leftExits_append (a b : List StackVal) :
    leftExits (a ++ b) = leftExits a ++ leftExits b := by
  unfold leftExits
  rw [List.filterMap_append]

lemma leftExits_enters_nil (c : List (Nat × ℚ)) :
    leftExits ((c.map (fun e => StackVal.Enter e.1)).reverse) = [] := by
  unfold leftExits
  rw [List.filterMap_eq_nil]
  intro sv hsv
  rw [List.mem_reverse] at hsv
  obtain ⟨e, _, rfl⟩ := List.mem_map.mp hsv
  rfl

lemma dfsLoop_count {mat : CsMatView} :
    ∀ {fuel : Nat} {s s' : DfsState}, dfsLoop mat fuel s = some s' →
      (leftExits s.left ++ rightInds s.right).Nodup →
      (∀ u, getVis s u = true ↔ u ∈ leftExits s.left ++ rightInds s.right) →
      (leftExits s'.left ++ rightInds s'.right).Nodup ∧
      (∀ u, getVis s' u = true ↔ u ∈ leftExits s'.left ++ rightInds s'.right) := by
  intro fuel
  induction fuel with
  | zero => intro s s' h _ _; simp [dfsLoop] at h
  | succ fuel ih =>
    rintro ⟨vis, left, right, mo⟩ s' h hnd hiff
    cases left with
    | nil =>
      simp only [dfsLoop] at h
      obtain rfl := Option.some.inj h
      exact ⟨hnd, hiff⟩
    | cons sv rest =>
      cases sv with
      | Enter ind =>
        simp only [dfsLoop] at h
        by_cases hlt : ind < vis.length
        · rw [if_pos hlt] at h
          by_cases hv : vis.getD ind false = true
          · rw [if_pos hv] at h
            exact ih h hnd hiff
          · rw [if_neg hv] at h
            cases ho : mat.outer_view ind with
            | none => rw [ho] at h; exact absurd h (by simp)
            | some column =>
              rw [ho] at h
              refine ih h ?_ ?_
              · show (leftExits ((column.map (fun e => StackVal.Enter e.1)).reverse ++
                  (StackVal.Exit ind :: rest)) ++ rightInds right).Nodup
                rw [leftExits_append, leftExits_enters_nil, leftExits_exit,
                  List.nil_append]
                refine List.nodup_cons.mpr ⟨?_, hnd⟩
                intro hmem
                exact hv ((hiff ind).mpr hmem)
              · intro u
                show (vis.set ind true).getD u false = true ↔
                  u ∈ leftExits ((column.map (fun e => StackVal.Enter e.1)).reverse ++
                    (StackVal.Exit ind :: rest)) ++ rightInds right
                rw [leftExits_append, leftExits_enters_nil, leftExits_exit,
                  List.nil_append]
                by_cases hu : ind = u
                · subst hu
                  rw [bGet_set_self hlt]
                  simp
                · rw [bGet_set_ne hu]
                  rw [show ((ind :: leftExits rest) ++ rightInds right : List Nat) =
                    ind :: (leftExits rest ++ rightInds right) from rfl]
                  rw [List.mem_cons]
                  constructor
                  · intro hvu
                    exact Or.inr ((hiff u).mp hvu)
                  · rintro (hc | hc)
                    · exact absurd hc.symm hu
                    · exact (hiff u).mpr hc
        · rw [if_neg hlt] at h
          exact absurd h (by simp)
      | Exit ind =>
        simp only [dfsLoop] at h
        have hperm : (leftExits rest ++ rightInds (StackVal.Enter ind :: right)).Perm
            (leftExits (StackVal.Exit ind :: rest) ++ rightInds right) :=
          List.perm_middle
        refine ih h (hperm.symm.nodup hnd) ?_
        intro u
        show vis.getD u false = true ↔
          u ∈ leftExits rest ++ rightInds (StackVal.Enter ind :: right)
        have hiffu : vis.getD u false = true ↔
            u ∈ leftExits (StackVal.Exit ind :: rest) ++ rightInds right := hiff u
        rw [hiffu]
        exact hperm.mem_iff.symm

lemma dfsRoots_count {mat : CsMatView} :
    ∀ {roots : List Nat} {s s' : DfsState}, dfsRoots mat roots s = some s' →
      (leftExits s.left ++ rightInds s.right).Nodup →
      (∀ u, getVis s u = true ↔ u ∈ leftExits s.left ++ rightInds s.right) →
      (leftExits s'.left ++ rightInds s'.right).Nodup ∧
      (∀ u, getVis s' u = true ↔ u ∈ leftExits s'.left ++ rightInds s'.right) := by
  intro roots
  induction roots with
  | nil =>
    intro s s' h hnd hiff
    obtain rfl := Option.some.inj h
    exact ⟨hnd, hiff⟩
  | cons r rs ih =>
    intro s s' h hnd hiff
    unfold dfsRoots at h
    by_cases hlt : r < s.visited.length
    · rw [if_pos hlt] at h
      by_cases hv : s.visited.getD r false = true
      · rw [if_pos hv] at h
        exact ih h hnd hiff
      · rw [if_neg hv] at h
        cases hloop : dfsLoop mat (dfsFuel mat) { s with left := StackVal.Enter r :: s.left } with
        | none => rw [hloop] at h; exact absurd h (by simp)
        | some s1 =>
          rw [hloop] at h
          obtain ⟨g1, g2⟩ := dfsLoop_count hloop hnd hiff
          exact ih h g1 g2
    · rw [if_neg hlt] at h
      exact absurd h (by simp)

/-! Soundness: on a lower-triangular matrix, every index the traversal
visits is reachable from the roots through the sub-diagonal dependency
graph. -/

lemma dfsLoop_sound {mat : CsMatView} {roots : List Nat} (hlow : lowerTri mat) :
    ∀ {fuel : Nat} {s s' : DfsState}, dfsLoop mat fuel s = some s' →
      (∀ ind, StackVal.Enter ind ∈ s.left → Reach mat roots ind) →
      (∀ u, getVis s u = true → Reach mat roots u) →
      (∀ u, getVis s' u = true → Reach mat roots u) := by
  intro fuel
  induction fuel with
  | zero => intro s s' h _ _; simp [dfsLoop] at h
  | succ fuel ih =>
    rintro ⟨vis, left, right, mo⟩ s' h hL hV
    cases left with
    | nil =>
      simp only [dfsLoop] at h
      obtain rfl := Option.some.inj h
      exact hV
    | cons sv rest =>
      cases sv with
      | Enter ind =>
        simp only [dfsLoop] at h
        by_cases hlt : ind < vis.length
        · rw [if_pos hlt] at h
          by_cases hv : vis.getD ind false = true
          · rw [if_pos hv] at h
            exact ih h (fun e he => hL e (List.mem_cons_of_mem _ he)) hV
          · rw [if_neg hv] at h
            cases ho : mat.outer_view ind with
            | none => rw [ho] at h; exact absurd h (by simp)
            | some column =>
              rw [ho] at h
              have hRind : Reach mat roots ind := hL ind (List.mem_cons_self _ _)
              refine ih h ?_ ?_
              · intro e he
                rcases List.mem_append.mp he with hc | hc
                · rw [List.mem_reverse] at hc
                  obtain ⟨en, hen, heq⟩ := List.mem_map.mp hc
                  obtain rfl : e = en.1 := by injection heq.symm
                  have hgec : ind ≤ en.1 := by
                    have := hlow ind (outer_view_lt ho)
                    rw [outer_view_getD ho] at this
                    exact this en hen
                  rcases Nat.eq_or_lt_of_le hgec with heq2 | hlt2
                  · rw [← heq2]; exact hRind
                  · refine Reach.step ind en.1 hRind ⟨hlt2, en.2, ?_⟩
                    rw [outer_view_getD ho]
                    exact hen
                · rcases List.mem_cons.mp hc with hc1 | hc2
                  · exact absurd hc1 (by simp)
                  · exact hL _ (List.mem_cons_of_mem _ hc2)
              · intro u hu
                by_cases hui : ind = u
                · rw [← hui]; exact hRind
                · refine hV u ?_
                  have : (vis.set ind true).getD u false = true := hu
                  rwa [bGet_set_ne hui] at this
        · rw [if_neg hlt] at h
          exact absurd h (by simp)
      | Exit ind =>
        simp only [dfsLoop] at h
        exact ih h (fun e he => hL e (List.mem_cons_of_mem _ he)) hV

lemma dfsRoots_sound {mat : CsMatView} {roots : List Nat} (hlow : lowerTri mat) :
    ∀ {rs : List Nat} {s s' : DfsState}, dfsRoots mat rs s = some s' →
      (∀ r ∈ rs, r ∈ roots) →
      (∀ ind, StackVal.Enter ind ∈ s.left → Reach mat roots ind) →
      (∀ u, getVis s u = true → Reach mat roots u) →
      (∀ u, getVis s' u = true → Reach mat roots u) := by
  intro rs
  induction rs with
  | nil =>
    intro s s' h _ _ hV
    obtain rfl := Option.some.inj h
    exact hV
  | cons r rs ih =>
    intro s s' h hsub hL hV
    unfold dfsRoots at h
    by_cases hlt : r < s.visited.length
    · rw [if_pos hlt] at h
      by_cases hv : s.visited.getD r false = true
      · rw [if_pos hv] at h
        exact ih h (fun q hq => hsub q (List.mem_cons_of_mem _ hq)) hL hV
      · rw [if_neg hv] at h
        cases hloop : dfsLoop mat (dfsFuel mat) { s with left := StackVal.Enter r :: s.left } with
        | none => rw [hloop] at h; exact absurd h (by simp)
        | some s1 =>
          rw [hloop] at h
          have hV1 := dfsLoop_sound hlow hloop
            (by intro e he
                rcases List.mem_cons.mp he with hc | hc
                · obtain rfl : e = r := by injection hc
                  exact Reach.root e (hsub e (List.mem_cons_self _ _))
                · exact hL e hc)
            hV
          have hL1 : ∀ ind, StackVal.Enter ind ∈ s1.left → Reach mat roots ind := by
            intro e he
            rw [(dfsLoop_basic hloop).1] at he
            exact absurd he (by simp)
          exact ih h (fun q hq => hsub q (List.mem_cons_of_mem _ hq)) hL1 hV1
    · rw [if_neg hlt] at h
      exact absurd h (by simp)

/-- Completeness: when the final state is closed and contains all roots,
every reachable index is visited. -/
lemma reach_visited {mat : CsMatView} {roots : List Nat} {s : DfsState}
    (hroots : ∀ r ∈ roots, getVis s r = true)
    (hclosed : ∀ j, getVis s j = true → ∀ e ∈ mat.outer.getD j [],
      getVis s e.1 = true ∨ StackVal.Enter e.1 ∈ s.left)
    (hnil : s.left = []) :
    ∀ u, Reach mat roots u → getVis s u = true := by
  intro u hr
  induction hr with
  | root r hr => exact hroots r hr
  | step j i hreach hedge ih =>
    obtain ⟨hji, v, hv⟩ := hedge
    rcases hclosed j ih (i, v) hv with hc | hc
    · exact hc
    · rw [hnil] at hc
      exact absurd hc (by simp)

lemma getD_replicate_false : ∀ (n i : Nat), (List.replicate n false).getD i false = false := by
  intro n
  induction n with
  | zero => intro i; rfl
  | succ n ih =>
    intro i
    cases i with
    | zero => rfl
    | succ i => exact ih i

/-- Shape of a successful run of `lsolve_csc_sparse_rhs`: all precondition
checks passed, the traversal produced a final state within the stack's
capacity and the replay succeeded on the scattered right-hand side. -/
lemma sparse_ok_elim {mat : CsMatView} {rhs : List (Nat × ℚ)} {dstack : DStack}
    {ws : List ℚ} {visited : List Bool} {out : SparseOut}
    (hok : lsolve_csc_sparse_rhs mat rhs dstack ws visited = SpOutcome.ok out) :
    mat.is_csc = true ∧ ¬ dstack.cap < 2 * mat.rows ∧ dstack.left = [] ∧
    dstack.right = [] ∧ ws.length = mat.rows ∧
    ∃ s ws1,
      dfsRoots mat (rhs.map Prod.fst) ⟨visited, dstack.left, dstack.right, 0⟩ = some s ∧
      ¬ dstack.cap < s.maxOcc ∧
      replayLoop mat (s.right.map extract_stack_val) (scatter rhs ws) = ReplayRes.ok ws1 ∧
      out = ⟨⟨dstack.cap, s.left, s.right⟩, ws1, s.visited⟩ := by
  unfold lsolve_csc_sparse_rhs at hok
  by_cases h1 : mat.is_csc = false
  · rw [if_pos h1] at hok
    exact absurd hok (by simp)
  · rw [if_neg h1] at hok
    have h1' : mat.is_csc = true := by
      cases hcs : mat.is_csc
      · exact absurd hcs h1
      · rfl
    by_cases h2 : dstack.cap < 2 * mat.rows
    · rw [if_pos h2] at hok
      exact absurd hok (by simp)
    · rw [if_neg h2] at hok
      by_cases h3 : dstack.left ≠ []
      · rw [if_pos h3] at hok
        exact absurd hok (by simp)
      · rw [if_neg h3] at hok
        by_cases h4 : dstack.right ≠ []
        · rw [if_pos h4] at hok
          exact absurd hok (by simp)
        · rw [if_neg h4] at hok
          by_cases h5 : ws.length ≠ mat.rows
          · rw [if_pos h5] at hok
            exact absurd hok (by simp)
          · rw [if_neg h5] at hok
            cases hroots : dfsRoots mat (rhs.map Prod.fst)
                ⟨visited, dstack.left, dstack.right, 0⟩ with
            | none => rw [hroots] at hok; exact absurd hok (by simp)
            | some s =>
              rw [hroots] at hok
              simp only at hok
              by_cases h6 : dstack.cap < s.maxOcc
              · rw [if_pos h6] at hok
                exact absurd hok (by simp)
              · rw [if_neg h6] at hok
                cases hrep : replayLoop mat (s.right.map extract_stack_val)
                    (scatter rhs ws) with
                | fatal => rw [hrep] at hok; exact absurd hok (by simp)
                | err ws2 => rw [hrep] at hok; exact absurd hok (by simp)
                | ok ws1 =>
                  rw [hrep] at hok
                  refine ⟨h1', h2, not_not.mp h3, not_not.mp h4, not_not.mp h5,
                    s, ws1, rfl, h6, hrep, ?_⟩
                  have hinj : SpOutcome.ok ⟨⟨dstack.cap, s.left, s.right⟩, ws1, s.visited⟩ =
                      SpOutcome.ok out := hok
                  injection hinj with hinj2
                  exact hinj2.symm

/-- C2: on a successful sparse solve of a lower-triangular column-major
matrix (called with empty dependency stack of capacity at least `2n`,
all-false visited array and length-`n` workspace), the set of indices
accumulated on the finished side of the dependency stack is exactly the set
of indices reachable from the right-hand side's nonzero indices through the
sub-diagonal dependency graph. -/
theorem claim_C2 (mat : CsMatView) (rhs : List (Nat × ℚ)) (dstack : DStack)
    (ws : List ℚ) (visited : List Bool) (out : SparseOut)
    (hw : matWF mat) (hlow : lowerTri mat)
    (hvis : visited = List.replicate mat.rows false)
    (hok : lsolve_csc_sparse_rhs mat rhs dstack ws visited = SpOutcome.ok out) :
    ∀ i, i ∈ out.dstack.right.map extract_stack_val ↔
      Reach mat (rhs.map Prod.fst) i := by
  obtain ⟨hcs, hcap, hL, hR, hws, s, ws1, hroots, hmo, hrep, hout⟩ := sparse_ok_elim hok
  rw [hL, hR] at hroots
  have hvis0 : ∀ u, getVis (⟨visited, [], [], 0⟩ : DfsState) u = false := by
    intro u
    subst hvis
    exact getD_replicate_false _ _
  obtain ⟨hcnd, hciff⟩ := dfsRoots_count hroots (by simp [leftExits, rightInds])
    (by intro u
        rw [hvis0 u]
        simp [leftExits, rightInds])
  have hsound := @dfsRoots_sound mat (rhs.map Prod.fst) hlow _ _ _ hroots
    (fun r hr => hr)
    (by intro e he; exact absurd he (by simp))
    (by intro u hu; rw [hvis0 u] at hu; exact absurd hu (by simp))
  obtain ⟨hblen, hbmono, hbright, hbroots, hbnil⟩ := dfsRoots_basic hroots
  have hnil : s.left = [] := hbnil rfl
  have hclosed := dfsRoots_closed hroots
    (by intro j hj; rw [hvis0 j] at hj; exact absurd hj (by simp))
  intro i
  have hiff2 : getVis s i = true ↔ i ∈ rightInds s.right := by
    rw [hciff i, hnil]
    simp [leftExits]
  rw [hout]
  show i ∈ s.right.map extract_stack_val ↔ _
  constructor
  · intro hmem
    exact hsound i (hiff2.mpr hmem)
  · intro hreach
    exact hiff2.mp (reach_visited hbroots hclosed hnil i hreach)

unseal Rat.mul Rat.add Rat.sub Rat.inv in
/-- Witness for C2 at the repository's own 5-by-5 sparse-solve test: index 4
is on the finished side and reachable. -/
theorem claim_C2_witness :
    (matWF ⟨5, 5, StorageType.CSC,
        [[(0, 1), (1, 1)], [(1, 2), (2, 3), (4, 2)], [(2, 3)], [(3, 7), (4, 3)], [(4, 5)]]⟩ ∧
      lowerTri ⟨5, 5, StorageType.CSC,
        [[(0, 1), (1, 1)], [(1, 2), (2, 3), (4, 2)], [(2, 3)], [(3, 7), (4, 3)], [(4, 5)]]⟩ ∧
      ([false, false, false, false, false] : List Bool) = List.replicate 5 false ∧
      lsolve_csc_sparse_rhs ⟨5, 5, StorageType.CSC,
          [[(0, 1), (1, 1)], [(1, 2), (2, 3), (4, 2)], [(2, 3)], [(3, 7), (4, 3)], [(4, 5)]]⟩
        [(1, 4), (2, 9), (4, 9)] ⟨10, [], []⟩ [1, 1, 1, 1, 1]
        [false, false, false, false, false] =
        SpOutcome.ok ⟨⟨10, [], [StackVal.Enter 1, StackVal.Enter 2, StackVal.Enter 4]⟩,
          [1, 2, 1, 1, 1], [false, true, true, false, true]⟩) ∧
    ((4 : Nat) ∈ (⟨⟨10, [], [StackVal.Enter 1, StackVal.Enter 2, StackVal.Enter 4]⟩,
        [1, 2, 1, 1, 1], [false, true, true, false, true]⟩ : SparseOut).dstack.right.map
          extract_stack_val ↔
      Reach ⟨5, 5, StorageType.CSC,
          [[(0, 1), (1, 1)], [(1, 2), (2, 3), (4, 2)], [(2, 3)], [(3, 7), (4, 3)], [(4, 5)]]⟩
        ([(1, (4 : ℚ)), (2, 9), (4, 9)].map Prod.fst) 4) :=
  ⟨⟨by decide, by decide, rfl, by decide⟩,
    claim_C2 ⟨5, 5, StorageType.CSC,
        [[(0, 1), (1, 1)], [(1, 2), (2, 3), (4, 2)], [(2, 3)], [(3, 7), (4, 3)], [(4, 5)]]⟩
      [(1, 4), (2, 9), (4, 9)] ⟨10, [], []⟩ [1, 1, 1, 1, 1]
      [false, false, false, false, false]
      ⟨⟨10, [], [StackVal.Enter 1, StackVal.Enter 2, StackVal.Enter 4]⟩,
        [1, 2, 1, 1, 1], [false, true, true, false, true]⟩
      (by decide) (by decide) rfl (by decide) 4⟩

/-! Frame property of the numeric phase: scatter and replay write only at
indices that end up on the finished side. -/

lemma scatter_not_mem {rhs : List (Nat × ℚ)} {k : Nat} :
    ∀ {ws : List ℚ}, (∀ v, (k, v) ∉ rhs) → dGet (scatter rhs ws) k = dGet ws k := by
  induction rhs with
  | nil => intro ws _; rfl
  | cons e t ih =>
    intro ws h
    have hek : e.1 ≠ k := by
      intro hcontra
      exact h e.2 (by
        rw [← hcontra]
        exact List.mem_cons_self _ _)
    show dGet (scatter t (ws.set e.1 e.2)) k = dGet ws k
    rw [ih (fun v hv => h v (List.mem_cons_of_mem _ hv)), dGet_set_ne hek]

lemma process_col_ok_frame {col : List (Nat × ℚ)} {p : Nat} {ws res : List ℚ}
    (hok : lspsolve_csc_process_col col p ws = Except.ok res) :
    res.length = ws.length ∧
    ∀ k, k ≠ p → (∀ v, (k, v) ∈ col → k ≤ p) → dGet res k = dGet ws k := by
  cases hf : col.find? (fun e => e.1 == p) with
  | none => rw [process_col_find_none hf] at hok; exact absurd hok (by simp)
  | some d =>
    by_cases hz : d.2 = 0
    · rw [process_col_find_zero hf hz] at hok
      exact absurd hok (by simp)
    · rw [process_col_ok_eq hf hz] at hok
      obtain rfl := Except.ok.inj hok
      constructor
      · rw [updCol_length]; simp
      · intro k hk hcol
        rw [updCol_dGet_not_mem (fun e he h1 => h1 ▸ hcol e.2 (by rw [← h1]; exact he)),
          dGet_set_ne (Ne.symm hk)]

lemma replayLoop_frame {mat : CsMatView} (S : Nat → Prop) :
    ∀ {L : List Nat} {ws ws' : List ℚ}, replayLoop mat L ws = ReplayRes.ok ws' →
      (∀ ind ∈ L, S ind) →
      (∀ ind ∈ L, ∀ e ∈ mat.outer.getD ind [], ind < e.1 → S e.1) →
      (∀ k, ¬ S k → dGet ws' k = dGet ws k) ∧ ws'.length = ws.length := by
  intro L
  induction L with
  | nil =>
    intro ws ws' h _ _
    obtain rfl := (by simpa [replayLoop] using h : ws = ws')
    exact ⟨fun k _ => rfl, rfl⟩
  | cons ind rest ih =>
    intro ws ws' h hSL hcl
    unfold replayLoop at h
    cases ho : mat.outer_view ind with
    | none => rw [ho] at h; exact absurd h (by simp)
    | some col =>
      rw [ho] at h
      simp only at h
      cases hpc : lspsolve_csc_process_col col ind ws with
      | error e => rw [hpc] at h; exact absurd h (by simp)
      | ok ws1 =>
        rw [hpc] at h
        obtain ⟨hlen1, hframe1⟩ := process_col_ok_frame hpc
        obtain ⟨hframe2, hlen2⟩ := ih h (fun q hq => hSL q (List.mem_cons_of_mem _ hq))
          (fun q hq => hcl q (List.mem_cons_of_mem _ hq))
        refine ⟨?_, by rw [hlen2, hlen1]⟩
        intro k hk
        rw [hframe2 k hk, hframe1 k ?_ ?_]
        · intro hcontra
          exact hk (hcontra ▸ hSL ind (List.mem_cons_self _ _))
        · intro v hv
          by_contra hgt
          refine hk (hcl ind (List.mem_cons_self _ _) (k, v) ?_ (by omega))
          rw [← outer_view_getD ho] at hv
          exact hv

/-- C10: on a successful sparse solve, every workspace position whose index
is not among the finished indices holds exactly the value it held on entry;
the scatter of the right-hand side and every elimination step write only at
finished indices. -/
theorem claim_C10 (mat : CsMatView) (rhs : List (Nat × ℚ)) (dstack : DStack)
    (ws : List ℚ) (visited : List Bool) (out : SparseOut)
    (hw : matWF mat) (hlow : lowerTri mat)
    (hvis : visited = List.replicate mat.rows false)
    (hok : lsolve_csc_sparse_rhs mat rhs dstack ws visited = SpOutcome.ok out) :
    ∀ k, k ∉ out.dstack.right.map extract_stack_val →
      dGet out.x_workspace k = dGet ws k := by
  obtain ⟨hcs, hcap, hL, hR, hws, s, ws1, hroots, hmo, hrep, hout⟩ := sparse_ok_elim hok
  rw [hL, hR] at hroots
  have hvis0 : ∀ u, getVis (⟨visited, [], [], 0⟩ : DfsState) u = false := by
    intro u
    subst hvis
    exact getD_replicate_false _ _
  obtain ⟨hcnd, hciff⟩ := dfsRoots_count hroots (by simp [leftExits, rightInds])
    (by intro u
        rw [hvis0 u]
        simp [leftExits, rightInds])
  obtain ⟨hblen, hbmono, hbright, hbroots, hbnil⟩ := dfsRoots_basic hroots
  have hnil : s.left = [] := hbnil rfl
  have hclosed := dfsRoots_closed hroots
    (by intro j hj; rw [hvis0 j] at hj; exact absurd hj (by simp))
  have hiff2 : ∀ u, getVis s u = true ↔ u ∈ rightInds s.right := by
    intro u
    rw [hciff u, hnil]
    simp [leftExits]
  obtain ⟨hframe, _⟩ := replayLoop_frame (fun k => k ∈ rightInds s.right) hrep
    (fun q hq => hq)
    (by intro q hq e he hlt
        have hvq : getVis s q = true := (hiff2 q).mpr hq
        rcases hclosed q hvq e he with hc | hc
        · exact (hiff2 e.1).mp hc
        · rw [hnil] at hc
          exact absurd hc (by simp))
  intro k hk
  rw [hout] at hk
  have hkS : ¬ k ∈ rightInds s.right := hk
  rw [hout]
  show dGet ws1 k = dGet ws k
  rw [hframe k hkS, scatter_not_mem ?_]
  intro v hv
  refine hkS ((hiff2 k).mp ?_)
  exact hbroots k (List.mem_map.mpr ⟨(k, v), hv, rfl⟩)

unseal Rat.mul Rat.add Rat.sub Rat.inv in
/-- Witness for C10 on the repository's 5-by-5 sparse-solve matrix with a
junk-filled workspace: index 0 is not finished and keeps its entry value 7. -/
theorem claim_C10_witness :
    (matWF ⟨5, 5, StorageType.CSC,
        [[(0, 1), (1, 1)], [(1, 2), (2, 3), (4, 2)], [(2, 3)], [(3, 7), (4, 3)], [(4, 5)]]⟩ ∧
      lowerTri ⟨5, 5, StorageType.CSC,
        [[(0, 1), (1, 1)], [(1, 2), (2, 3), (4, 2)], [(2, 3)], [(3, 7), (4, 3)], [(4, 5)]]⟩ ∧
      ([false, false, false, false, false] : List Bool) = List.replicate 5 false ∧
      lsolve_csc_sparse_rhs ⟨5, 5, StorageType.CSC,
          [[(0, 1), (1, 1)], [(1, 2), (2, 3), (4, 2)], [(2, 3)], [(3, 7), (4, 3)], [(4, 5)]]⟩
        [(1, 4), (2, 9), (4, 9)] ⟨10, [], []⟩ [7, 8, 9, 10, 11]
        [false, false, false, false, false] =
        SpOutcome.ok ⟨⟨10, [], [StackVal.Enter 1, StackVal.Enter 2, StackVal.Enter 4]⟩,
          [7, 2, 1, 10, 1], [false, true, true, false, true]⟩ ∧
      (0 : Nat) ∉ (⟨⟨10, [], [StackVal.Enter 1, StackVal.Enter 2, StackVal.Enter 4]⟩,
          [7, 2, 1, 10, 1], [false, true, true, false, true]⟩ : SparseOut).dstack.right.map
        extract_stack_val) ∧
    dGet (⟨⟨10, [], [StackVal.Enter 1, StackVal.Enter 2, StackVal.Enter 4]⟩,
        [7, 2, 1, 10, 1], [false, true, true, false, true]⟩ : SparseOut).x_workspace 0 =
      dGet [7, 8, 9, 10, 11] 0 :=
  ⟨⟨by decide, by decide, rfl, by decide, by decide⟩,
    claim_C10 ⟨5, 5, StorageType.CSC,
        [[(0, 1), (1, 1)], [(1, 2), (2, 3), (4, 2)], [(2, 3)], [(3, 7), (4, 3)], [(4, 5)]]⟩
      [(1, 4), (2, 9), (4, 9)] ⟨10, [], []⟩ [7, 8, 9, 10, 11]
      [false, false, false, false, false]
      ⟨⟨10, [], [StackVal.Enter 1, StackVal.Enter 2, StackVal.Enter 4]⟩,
        [7, 2, 1, 10, 1], [false, true, true, false, true]⟩
      (by decide) (by decide) rfl (by decide) 0 (by decide)⟩

/-! Ordering of the finished side: on a lower-triangular matrix the traversal
finalizes every index only after all indices it reaches downstream, so the
finished side (most recently pushed first) lists each index before all
indices that depend on it. -/

lemma mem_leftExits {l : List StackVal} {u : Nat} :
    u ∈ leftExits l ↔ StackVal.Exit u ∈ l := by
  unfold leftExits
  rw [List.mem_filterMap]
  constructor
  · rintro ⟨sv, hsv, hf⟩
    cases sv with
    | Enter w => exact absurd hf (by simp)
    | Exit w =>
      obtain rfl : w = u := by injection hf
      exact hsv
  · intro h
    exact ⟨StackVal.Exit u, h, rfl⟩

lemma pairwise_stackR_of_no_exit :
    ∀ {l : List StackVal}, (∀ sv ∈ l, ∀ u, sv ≠ StackVal.Exit u) →
      List.Pairwise stackR l := by
  intro l
  induction l with
  | nil => intro _; exact List.Pairwise.nil
  | cons a t ih =>
    intro h
    refine List.Pairwise.cons ?_ (ih fun sv hsv => h sv (List.mem_cons_of_mem _ hsv))
    intro b hb u hbu
    exact absurd hbu (h b (List.mem_cons_of_mem _ hb) u)

lemma enters_no_exit (c : List (Nat × ℚ)) :
    ∀ sv ∈ (c.map (fun e => StackVal.Enter e.1)).reverse, ∀ u, sv ≠ StackVal.Exit u := by
  intro sv hsv u
  rw [List.mem_reverse] at hsv
  obtain ⟨e, _, rfl⟩ := List.mem_map.mp hsv
  simp

lemma split_no_exit :
    ∀ {C : List StackVal} {ind j : Nat} {tail A B : List StackVal},
      (∀ sv ∈ C, ∀ u, sv ≠ StackVal.Exit u) →
      C ++ StackVal.Exit ind :: tail = A ++ StackVal.Exit j :: B →
      (A = C ∧ j = ind ∧ B = tail) ∨
      ∃ A2, A = C ++ StackVal.Exit ind :: A2 ∧ tail = A2 ++ StackVal.Exit j :: B := by
  intro C
  induction C with
  | nil =>
    intro ind j tail A B _ h
    rw [List.nil_append] at h
    cases A with
    | nil =>
      rw [List.nil_append] at h
      injection h with h1 h2
      refine Or.inl ⟨rfl, ?_, h2.symm⟩
      injection h1 with h3
      exact h3.symm
    | cons a A2 =>
      rw [List.cons_append] at h
      injection h with h1 h2
      exact Or.inr ⟨A2, by rw [List.nil_append, ← h1], h2⟩
  | cons c C2 ih =>
    intro ind j tail A B hC h
    rw [List.cons_append] at h
    cases A with
    | nil =>
      rw [List.nil_append] at h
      injection h with h1 _
      exact absurd h1 (hC c (List.mem_cons_self _ _) j)
    | cons a A2 =>
      rw [List.cons_append] at h
      injection h with h1 h2
      rcases ih (fun sv hsv => hC sv (List.mem_cons_of_mem _ hsv)) h2 with
        ⟨hA2, hj, hB⟩ | ⟨A3, hA2, htail⟩
      · exact Or.inl ⟨by rw [hA2, h1], hj, hB⟩
      · exact Or.inr ⟨A3, by rw [hA2, h1, List.cons_append], htail⟩

lemma dfsLoop_order {mat : CsMatView} (hlow : lowerTri mat) :
    ∀ {fuel : Nat} {s s' : DfsState}, dfsLoop mat fuel s = some s' →
      (∀ u, getVis s u = true ↔ u ∈ leftExits s.left ++ rightInds s.right) →
      List.Pairwise stackR s.left →
      (∀ A j B, s.left = A ++ StackVal.Exit j :: B →
        ∀ e ∈ mat.outer.getD j [], e.1 ≠ j →
          getVis s e.1 = true ∨ StackVal.Enter e.1 ∈ A) →
      (∀ P j Q, rightInds s.right = P ++ j :: Q →
        ∀ e ∈ mat.outer.getD j [], e.1 ≠ j → e.1 ∈ Q) →
      (∀ u, getVis s' u = true ↔ u ∈ leftExits s'.left ++ rightInds s'.right) ∧
      List.Pairwise stackR s'.left ∧
      (∀ A j B, s'.left = A ++ StackVal.Exit j :: B →
        ∀ e ∈ mat.outer.getD j [], e.1 ≠ j →
          getVis s' e.1 = true ∨ StackVal.Enter e.1 ∈ A) ∧
      (∀ P j Q, rightInds s'.right = P ++ j :: Q →
        ∀ e ∈ mat.outer.getD j [], e.1 ≠ j → e.1 ∈ Q) := by
  intro fuel
  induction fuel with
  | zero => intro s s' h _ _ _ _; simp [dfsLoop] at h
  | succ fuel ih =>
    rintro ⟨vis, left, right, mo⟩ s' h hiff hpw hB hD
    cases left with
    | nil =>
      simp only [dfsLoop] at h
      obtain rfl := Option.some.inj h
      exact ⟨hiff, hpw, hB, hD⟩
    | cons sv rest =>
      cases sv with
      | Enter ind =>
        simp only [dfsLoop] at h
        by_cases hlt : ind < vis.length
        · rw [if_pos hlt] at h
          by_cases hv : vis.getD ind false = true
          · rw [if_pos hv] at h
            refine ih h hiff ((List.pairwise_cons.mp hpw).2) ?_ hD
            intro A j B hsplit e he hne
            rcases hB (StackVal.Enter ind :: A) j B
                (congrArg (List.cons (StackVal.Enter ind)) hsplit) e he hne with
              hc | hc
            · exact Or.inl hc
            · rcases List.mem_cons.mp hc with hc1 | hc2
              · obtain rfl : e.1 = ind := by injection hc1
                exact Or.inl hv
              · exact Or.inr hc2
          · rw [if_neg hv] at h
            cases ho : mat.outer_view ind with
            | none => rw [ho] at h; exact absurd h (by simp)
            | some column =>
              rw [ho] at h
              have hCne := enters_no_exit column
              have hstrict : ∀ u, StackVal.Exit u ∈ rest → u < ind := by
                intro u hu
                have hle : u ≤ ind := (List.pairwise_cons.mp hpw).1 _ hu u rfl
                have hvu : vis.getD u false = true :=
                  (hiff u).mpr (List.mem_append_left _ (mem_leftExits.mpr
                    (List.mem_cons_of_mem _ hu)))
                have hne : u ≠ ind := by
                  intro hcontra
                  exact hv (hcontra ▸ hvu)
                omega
              have hchild : ∀ e ∈ column, ind ≤ e.1 := by
                intro e he
                have := hlow ind (outer_view_lt ho)
                rw [outer_view_getD ho] at this
                exact this e he
              refine ih h ?_ ?_ ?_ hD
              · intro u
                show (vis.set ind true).getD u false = true ↔
                  u ∈ leftExits ((column.map (fun e => StackVal.Enter e.1)).reverse ++
                    (StackVal.Exit ind :: rest)) ++ rightInds right
                rw [leftExits_append, leftExits_enters_nil, leftExits_exit,
                  List.nil_append]
                by_cases hu : ind = u
                · subst hu
                  rw [bGet_set_self hlt]
                  simp
                · rw [bGet_set_ne hu]
                  rw [show ((ind :: leftExits rest) ++ rightInds right : List Nat) =
                    ind :: (leftExits rest ++ rightInds right) from rfl]
                  rw [List.mem_cons]
                  constructor
                  · intro hvu
                    exact Or.inr ((hiff u).mp hvu)
                  · rintro (hc | hc)
                    · exact absurd hc.symm hu
                    · exact (hiff u).mpr hc
              · show List.Pairwise stackR
                  ((column.map (fun e => StackVal.Enter e.1)).reverse ++
                    (StackVal.Exit ind :: rest))
                rw [List.pairwise_append]
                refine ⟨pairwise_stackR_of_no_exit hCne, ?_, ?_⟩
                · refine List.Pairwise.cons ?_ ((List.pairwise_cons.mp hpw).2)
                  intro b hb u hbu
                  subst hbu
                  exact hstrict u hb
                · intro a ha b hb u hbu
                  subst hbu
                  rw [List.mem_reverse] at ha
                  obtain ⟨e, he, rfl⟩ := List.mem_map.mp ha
                  show u ≤ e.1
                  have hge : ind ≤ e.1 := hchild e he
                  rcases List.mem_cons.mp hb with hb1 | hb2
                  · have h1 : u = ind := by injection hb1
                    omega
                  · have := hstrict u hb2
                    omega
              · intro A j B hsplit e he hne
                rcases split_no_exit hCne hsplit with ⟨hA, hj, _⟩ | ⟨A3, hA, htail⟩
                · subst hj
                  rw [outer_view_getD ho] at he
                  refine Or.inr ?_
                  rw [hA, List.mem_reverse]
                  exact List.mem_map.mpr ⟨e, he, rfl⟩
                · rcases hB (StackVal.Enter ind :: A3) j B
                      (congrArg (List.cons (StackVal.Enter ind)) htail) e he hne with
                    hc | hc
                  · refine Or.inl ?_
                    show (vis.set ind true).getD e.1 false = true
                    by_cases hei : ind = e.1
                    · subst hei; rw [bGet_set_self hlt]
                    · rw [bGet_set_ne hei]; exact hc
                  · rcases List.mem_cons.mp hc with hc1 | hc2
                    · obtain rfl : e.1 = ind := by injection hc1
                      refine Or.inl ?_
                      show (vis.set e.1 true).getD e.1 false = true
                      rw [bGet_set_self hlt]
                    · refine Or.inr ?_
                      rw [hA]
                      exact List.mem_append_right _ (List.mem_cons_of_mem _ hc2)
        · rw [if_neg hlt] at h
          exact absurd h (by simp)
      | Exit ind =>
        simp only [dfsLoop] at h
        have hjlen : ∀ e ∈ mat.outer.getD ind [], ind ≤ e.1 := by
          intro e he
          by_cases hl2 : ind < mat.outer.length
          · exact hlow ind hl2 e he
          · rw [List.getD_eq_default _ _ (by omega)] at he
            exact absurd he (by simp)
        have hperm : (leftExits rest ++ rightInds (StackVal.Enter ind :: right)).Perm
            (leftExits (StackVal.Exit ind :: rest) ++ rightInds right) :=
          List.perm_middle
        refine ih h ?_ ((List.pairwise_cons.mp hpw).2) ?_ ?_
        · intro u
          show vis.getD u false = true ↔
            u ∈ leftExits rest ++ rightInds (StackVal.Enter ind :: right)
          have hiffu : vis.getD u false = true ↔
              u ∈ leftExits (StackVal.Exit ind :: rest) ++ rightInds right := hiff u
          rw [hiffu]
          exact hperm.mem_iff.symm
        · intro A j B hsplit e he hne
          rcases hB (StackVal.Exit ind :: A) j B
              (congrArg (List.cons (StackVal.Exit ind)) hsplit) e he hne with
            hc | hc
          · exact Or.inl hc
          · rcases List.mem_cons.mp hc with hc1 | hc2
            · exact absurd hc1 (by simp)
            · exact Or.inr hc2
        · intro P j Q hsplit e he hne
          have hsplit2 : (ind :: rightInds right : List Nat) = P ++ j :: Q := hsplit
          cases P with
          | nil =>
            rw [List.nil_append] at hsplit2
            injection hsplit2 with h1 h2
            obtain rfl : j = ind := h1.symm
            rw [← h2]
            have hvise : vis.getD e.1 false = true := by
              rcases hB [] j rest rfl e he hne with hc | hc
              · exact hc
              · exact absurd hc (by simp)
            have hmem : e.1 ∈ j :: (leftExits rest ++ rightInds right) :=
              (hiff e.1).mp hvise
            rcases List.mem_cons.mp hmem with hm1 | hm2
            · exact absurd hm1 hne
            · rcases List.mem_append.mp hm2 with hm3 | hm4
              · exfalso
                have hx : StackVal.Exit e.1 ∈ rest := mem_leftExits.mp hm3
                have hlt2 : e.1 < j := (List.pairwise_cons.mp hpw).1 _ hx e.1 rfl
                have hge : j ≤ e.1 := hjlen e he
                omega
              · exact hm4
          | cons p P2 =>
            rw [List.cons_append] at hsplit2
            injection hsplit2 with _ h2
            exact hD P2 j Q h2 e he hne

lemma dfsRoots_order {mat : CsMatView} (hlow : lowerTri mat) :
    ∀ {roots : List Nat} {s s' : DfsState}, dfsRoots mat roots s = some s' →
      s.left = [] →
      (∀ u, getVis s u = true ↔ u ∈ leftExits s.left ++ rightInds s.right) →
      (∀ P j Q, rightInds s.right = P ++ j :: Q →
        ∀ e ∈ mat.outer.getD j [], e.1 ≠ j → e.1 ∈ Q) →
      (∀ P j Q, rightInds s'.right = P ++ j :: Q →
        ∀ e ∈ mat.outer.getD j [], e.1 ≠ j → e.1 ∈ Q) := by
  intro roots
  induction roots with
  | nil =>
    intro s s' h _ _ hD
    obtain rfl := Option.some.inj h
    exact hD
  | cons r rs ih =>
    intro s s' h hnil hiff hD
    unfold dfsRoots at h
    by_cases hlt : r < s.visited.length
    · rw [if_pos hlt] at h
      by_cases hv : s.visited.getD r false = true
      · rw [if_pos hv] at h
        exact ih h hnil hiff hD
      · rw [if_neg hv] at h
        cases hloop : dfsLoop mat (dfsFuel mat) { s with left := StackVal.Enter r :: s.left } with
        | none => rw [hloop] at h; exact absurd h (by simp)
        | some s1 =>
          rw [hloop] at h
          obtain ⟨g1, g2, g3, g4⟩ := dfsLoop_order hlow hloop
            (by intro u
                show getVis s u = true ↔
                  u ∈ leftExits (StackVal.Enter r :: s.left) ++ rightInds s.right
                rw [leftExits_enter]
                exact hiff u)
            (by rw [hnil]
                exact List.pairwise_cons.mpr ⟨fun b hb => absurd hb (by simp),
                  List.Pairwise.nil⟩)
            (by intro A j B hsplit
                exfalso
                have hmem : StackVal.Exit j ∈ StackVal.Enter r :: s.left := by
                  show StackVal.Exit j ∈
                    (⟨s.visited, StackVal.Enter r :: s.left, s.right, s.maxOcc⟩ :
                      DfsState).left
                  rw [hsplit]
                  exact List.mem_append_right _ (List.mem_cons_self _ _)
                rw [hnil] at hmem
                rcases List.mem_cons.mp hmem with hm | hm
                · exact absurd hm (by simp)
                · exact absurd hm (by simp))
            hD
          exact ih h ((dfsLoop_basic hloop).1) g1 g4
    · rw [if_neg hlt] at h
      exact absurd h (by simp)

lemma indexOf_append_lt {j i : Nat} :
    ∀ {P Q : List Nat}, (P ++ j :: Q).Nodup → i ∈ Q →
      (P ++ j :: Q).indexOf j < (P ++ j :: Q).indexOf i := by
  intro P
  induction P with
  | nil =>
    intro Q hnd hi
    rw [List.nil_append]
    have hij : i ≠ j := by
      intro hcontra
      subst hcontra
      exact (List.nodup_cons.mp hnd).1 hi
    rw [List.indexOf_cons_self, List.indexOf_cons_ne _ (Ne.symm hij)]
    omega
  | cons p P2 ihp =>
    intro Q hnd hi
    rw [List.cons_append] at hnd ⊢
    have hpmem := (List.nodup_cons.mp hnd).1
    have hjp : j ≠ p := by
      intro hcontra
      exact hpmem (hcontra ▸ List.mem_append_right _ (List.mem_cons_self _ _))
    have hip : i ≠ p := by
      intro hcontra
      exact hpmem (hcontra ▸
        List.mem_append_right _ (List.mem_cons_of_mem _ hi))
    rw [List.indexOf_cons_ne _ (Ne.symm hjp), List.indexOf_cons_ne _ (Ne.symm hip)]
    have := ihp (List.nodup_cons.mp hnd).2 hi
    omega

/-! Capacity: with every column stored in ascending inner order the pending
side keeps the shape `SegInv`, which bounds the traversal's occupancy by
`2n`. -/

lemma outer_view_mem {m : CsMatView} {ind : Nat} {c : List (Nat × ℚ)}
    (h : m.outer_view ind = some c) : c ∈ m.outer := by
  unfold CsMatView.outer_view at h
  exact List.get?_mem h

lemma segInv_weaken {l : List StackVal} {he hx he' hx' : Nat}
    (h : SegInv l he hx) (h1 : he ≤ he') (h2 : hx ≤ hx') : SegInv l he' hx' := by
  cases l with
  | nil => trivial
  | cons sv rest =>
    cases sv with
    | Enter w =>
      obtain ⟨hw, hr⟩ := h
      exact ⟨by omega, hr⟩
    | Exit u =>
      obtain ⟨hu, hr⟩ := h
      exact ⟨by omega, hr⟩

lemma segInv_tighten {l : List StackVal} {ind : Nat}
    (h : SegInv l ind (ind + 1)) (hnm : StackVal.Exit ind ∉ l) : SegInv l ind ind := by
  cases l with
  | nil => trivial
  | cons sv rest =>
    cases sv with
    | Enter w => exact h
    | Exit u =>
      obtain ⟨hu, hr⟩ := h
      have hne : u ≠ ind := by
        intro hc
        exact hnm (by rw [← hc]; exact List.mem_cons_self _ _)
      exact ⟨by omega, hr⟩

lemma segInv_length :
    ∀ {l : List StackVal} {he hx : Nat}, SegInv l he hx → hx ≤ he + 1 →
      l.length ≤ he + (leftExits l).length := by
  intro l
  induction l with
  | nil => intro he hx _ _; simp
  | cons sv rest ih =>
    intro he hx h hb
    cases sv with
    | Enter w =>
      obtain ⟨hw, hr⟩ := h
      have h2 := ih hr (by omega)
      rw [leftExits_enter, List.length_cons]
      omega
    | Exit u =>
      obtain ⟨hu, hr⟩ := h
      have h2 := ih hr (by omega)
      rw [leftExits_exit, List.length_cons, List.length_cons]
      omega

lemma nodup_lt_length {l : List Nat} {n : Nat}
    (hnd : l.Nodup) (hlt : ∀ u ∈ l, u < n) : l.length ≤ n := by
  have h1 : l.toFinset.card = l.length := List.toFinset_card_of_nodup hnd
  have h2 : l.toFinset ⊆ Finset.range n := by
    intro u hu
    rw [List.mem_toFinset] at hu
    rw [Finset.mem_range]
    exact hlt u hu
  have h3 := Finset.card_le_card h2
  rw [Finset.card_range] at h3
  omega

lemma segInv_rev_enters :
    ∀ {column : List (Nat × ℚ)} {tail : List StackVal} {he hx : Nat},
      (column.map Prod.fst).Chain' (fun a b => a < b) →
      (∀ e ∈ column, e.1 < he) →
      (match column with
       | [] => SegInv tail he hx
       | c :: _ => SegInv tail c.1 (c.1 + 1)) →
      SegInv ((column.map (fun e => StackVal.Enter e.1)).reverse ++ tail) he hx := by
  intro column
  induction column with
  | nil =>
    intro tail he hx _ _ h3
    simpa using h3
  | cons c t ih =>
    intro tail he hx h1 h2 h3
    rw [List.map_cons] at h1
    have hrw : (((c :: t).map (fun e => StackVal.Enter e.1)).reverse ++ tail :
        List StackVal) =
        (t.map (fun e => StackVal.Enter e.1)).reverse ++ (StackVal.Enter c.1 :: tail) := by
      simp
    rw [hrw]
    refine ih h1.tail (fun e he2 => h2 e (List.mem_cons_of_mem _ he2)) ?_
    cases t with
    | nil =>
      show SegInv (StackVal.Enter c.1 :: tail) he hx
      exact ⟨h2 c (List.mem_cons_self _ _), h3⟩
    | cons d t2 =>
      show SegInv (StackVal.Enter c.1 :: tail) d.1 (d.1 + 1)
      rw [List.map_cons] at h1
      exact ⟨(List.chain'_cons.mp h1).1, h3⟩

lemma dfsLoop_cap {mat : CsMatView} (hlow : lowerTri mat) (hsort : sortedOuter mat)
    (hwf : matWF mat) :
    ∀ {fuel : Nat} {s s' : DfsState}, dfsLoop mat fuel s = some s' →
      s.visited.length = mat.rows →
      (∀ u, getVis s u = true ↔ u ∈ leftExits s.left ++ rightInds s.right) →
      (leftExits s.left ++ rightInds s.right).Nodup →
      SegInv s.left mat.rows mat.rows →
      s'.maxOcc ≤ max s.maxOcc (2 * mat.rows) := by
  intro fuel
  induction fuel with
  | zero => intro s s' h _ _ _ _; simp [dfsLoop] at h
  | succ fuel ih =>
    rintro ⟨vis, left, right, mo⟩ s' h hlen hiff hnd hseg
    have hlen2 : vis.length = mat.rows := hlen
    have hocc : (⟨vis, left, right, mo⟩ : DfsState).occ ≤ 2 * mat.rows := by
      show left.length + right.length ≤ 2 * mat.rows
      have h1 : left.length ≤ mat.rows + (leftExits left).length :=
        segInv_length hseg (by omega)
      have h2 : (leftExits left ++ rightInds right).length ≤ mat.rows := by
        refine nodup_lt_length hnd ?_
        intro u hu
        have hv : getVis ⟨vis, left, right, mo⟩ u = true := (hiff u).mpr hu
        have h3 : u < vis.length := getVis_lt_length hv
        omega
      rw [List.length_append] at h2
      have h3 : right.length = (rightInds right).length := by
        unfold rightInds
        rw [List.length_map]
      omega
    have hstep : max (max mo (⟨vis, left, right, mo⟩ : DfsState).occ) (2 * mat.rows) ≤
        max mo (2 * mat.rows) :=
      max_le (max_le (le_max_left _ _) (le_trans hocc (le_max_right _ _)))
        (le_max_right _ _)
    cases left with
    | nil =>
      simp only [dfsLoop] at h
      obtain rfl := Option.some.inj h
      exact max_le_max (le_refl mo) hocc
    | cons sv rest =>
      cases sv with
      | Enter ind =>
        simp only [dfsLoop] at h
        by_cases hlt : ind < vis.length
        · rw [if_pos hlt] at h
          by_cases hv : vis.getD ind false = true
          · rw [if_pos hv] at h
            refine le_trans (ih h ?_ hiff hnd ?_) hstep
            · exact hlen2
            · obtain ⟨hw2, hr⟩ := hseg
              exact segInv_weaken hr (by omega) (by omega)
          · rw [if_neg hv] at h
            cases ho : mat.outer_view ind with
            | none => rw [ho] at h; exact absurd h (by simp)
            | some column =>
              rw [ho] at h
              refine le_trans (ih h ?_ ?_ ?_ ?_) hstep
              · show (vis.set ind true).length = mat.rows
                rw [List.length_set]
                exact hlen2
              · intro u
                show (vis.set ind true).getD u false = true ↔
                  u ∈ leftExits ((column.map (fun e => StackVal.Enter e.1)).reverse ++
                    (StackVal.Exit ind :: rest)) ++ rightInds right
                rw [leftExits_append, leftExits_enters_nil, leftExits_exit,
                  List.nil_append]
                by_cases hu : ind = u
                · subst hu
                  rw [bGet_set_self hlt]
                  simp
                · rw [bGet_set_ne hu]
                  rw [show ((ind :: leftExits rest) ++ rightInds right : List Nat) =
                    ind :: (leftExits rest ++ rightInds right) from rfl]
                  rw [List.mem_cons]
                  constructor
                  · intro hvu
                    exact Or.inr ((hiff u).mp hvu)
                  · rintro (hc | hc)
                    · exact absurd hc.symm hu
                    · exact (hiff u).mpr hc
              · show (leftExits ((column.map (fun e => StackVal.Enter e.1)).reverse ++
                  (StackVal.Exit ind :: rest)) ++ rightInds right).Nodup
                rw [leftExits_append, leftExits_enters_nil, leftExits_exit,
                  List.nil_append]
                refine List.nodup_cons.mpr ⟨?_, hnd⟩
                intro hmem
                exact hv ((hiff ind).mpr hmem)
              · show SegInv ((column.map (fun e => StackVal.Enter e.1)).reverse ++
                  (StackVal.Exit ind :: rest)) mat.rows mat.rows
                obtain ⟨hw2, hr⟩ := hseg
                have hnotmem : StackVal.Exit ind ∉ rest := by
                  intro hmem
                  exact hv ((hiff ind).mpr (List.mem_append_left _
                    (mem_leftExits.mpr (List.mem_cons_of_mem _ hmem))))
                have htight : SegInv rest ind ind := segInv_tighten hr hnotmem
                have hchain : (column.map Prod.fst).Chain' (fun a b => a < b) :=
                  hsort column (outer_view_mem ho)
                have hbound : ∀ e ∈ column, e.1 < mat.rows := by
                  intro e he
                  exact (hwf.2.2 column (outer_view_mem ho)).2 e he
                have hge : ∀ e ∈ column, ind ≤ e.1 := by
                  intro e he
                  have h4 := hlow ind (outer_view_lt ho)
                  rw [outer_view_getD ho] at h4
                  exact h4 e he
                refine segInv_rev_enters hchain hbound ?_
                cases column with
                | nil =>
                  show SegInv (StackVal.Exit ind :: rest) mat.rows mat.rows
                  exact ⟨by omega, htight⟩
                | cons c t =>
                  show SegInv (StackVal.Exit ind :: rest) c.1 (c.1 + 1)
                  have h5 : ind ≤ c.1 := hge c (List.mem_cons_self _ _)
                  exact ⟨by omega, htight⟩
        · rw [if_neg hlt] at h
          exact absurd h (by simp)
      | Exit ind =>
        simp only [dfsLoop] at h
        have hperm : (leftExits rest ++ rightInds (StackVal.Enter ind :: right)).Perm
            (leftExits (StackVal.Exit ind :: rest) ++ rightInds right) :=
          List.perm_middle
        refine le_trans (ih h ?_ ?_ ?_ ?_) hstep
        · exact hlen2
        · intro u
          show vis.getD u false = true ↔
            u ∈ leftExits rest ++ rightInds (StackVal.Enter ind :: right)
          have hiffu : vis.getD u false = true ↔
              u ∈ leftExits (StackVal.Exit ind :: rest) ++ rightInds right := hiff u
          rw [hiffu]
          exact hperm.mem_iff.symm
        · exact hperm.symm.nodup hnd
        · obtain ⟨hu, hr⟩ := hseg
          exact segInv_weaken hr (by omega) (by omega)

lemma dfsRoots_cap {mat : CsMatView} (hlow : lowerTri mat) (hsort : sortedOuter mat)
    (hwf : matWF mat) :
    ∀ {roots : List Nat} {s s' : DfsState}, dfsRoots mat roots s = some s' →
      s.left = [] →
      s.visited.length = mat.rows →
      (∀ u, getVis s u = true ↔ u ∈ leftExits s.left ++ rightInds s.right) →
      (leftExits s.left ++ rightInds s.right).Nodup →
      s'.maxOcc ≤ max s.maxOcc (2 * mat.rows) := by
  intro roots
  induction roots with
  | nil =>
    intro s s' h _ _ _ _
    obtain rfl := Option.some.inj h
    exact le_max_left _ _
  | cons r rs ih =>
    rintro ⟨vis, left, right, mo⟩ s' h hnil hlen hiff hnd
    have hnil2 : left = [] := hnil
    subst hnil2
    unfold dfsRoots at h
    by_cases hlt : r < vis.length
    · rw [if_pos hlt] at h
      by_cases hv : vis.getD r false = true
      · rw [if_pos hv] at h
        exact ih h rfl hlen hiff hnd
      · rw [if_neg hv] at h
        cases hloop : dfsLoop mat (dfsFuel mat)
            ⟨vis, [StackVal.Enter r], right, mo⟩ with
        | none => rw [hloop] at h; exact absurd h (by simp)
        | some s1 =>
          rw [hloop] at h
          have hlen2 : vis.length = mat.rows := hlen
          have hcap := dfsLoop_cap hlow hsort hwf hloop hlen2
            (by intro u
                show vis.getD u false = true ↔
                  u ∈ leftExits [StackVal.Enter r] ++ rightInds right
                exact hiff u)
            hnd
            (⟨by omega, trivial⟩ : SegInv [StackVal.Enter r] mat.rows mat.rows)
          obtain ⟨gcnd, gciff⟩ := dfsLoop_count hloop hnd
            (by intro u
                show vis.getD u false = true ↔
                  u ∈ leftExits [StackVal.Enter r] ++ rightInds right
                exact hiff u)
          obtain ⟨g1, g2, _, _, _⟩ := dfsLoop_basic hloop
          have hrec := ih h g1 (by rw [g2]; exact hlen2) gciff gcnd
          refine le_trans hrec (max_le (le_trans hcap ?_) (le_max_right _ _))
          exact max_le (le_max_left _ _) (le_max_right _ _)
    · rw [if_neg hlt] at h
      exact absurd h (by simp)

/-- C4 (amended): when every column additionally stores its entries in
ascending inner order, a dependency stack of capacity `2n` does suffice: the
traversal of `lsolve_csc_sparse_rhs`, started as that solver starts it,
never holds more than `2n` entries across the pending and finished sides.
Without the ascending-order condition the bound fails (see the
counterexample), so the claim is corrected by adding it. -/
theorem claim_C4 (mat : CsMatView) (roots : List Nat) (s' : DfsState)
    (hw : matWF mat) (hlow : lowerTri mat) (hsort : sortedOuter mat)
    (hroots : dfsRoots mat roots ⟨List.replicate mat.rows false, [], [], 0⟩ = some s') :
    s'.maxOcc ≤ 2 * mat.rows := by
  have h := dfsRoots_cap hlow hsort hw hroots rfl (by simp)
    (by intro u
        show (List.replicate mat.rows false).getD u false = true ↔
          u ∈ leftExits [] ++ rightInds []
        rw [getD_replicate_false]
        simp [leftExits, rightInds])
    (by simp [leftExits, rightInds])
  simpa using h

/-- Witness for C4 on a fully populated 4-by-4 lower-triangular matrix with
ascending columns: the traversal's peak occupancy is 8 = 2 * 4. -/
theorem claim_C4_witness :
    (matWF ⟨4, 4, StorageType.CSC,
        [[(0, 1), (1, 1), (2, 1), (3, 1)], [(1, 1), (2, 1), (3, 1)],
          [(2, 1), (3, 1)], [(3, 1)]]⟩ ∧
      lowerTri ⟨4, 4, StorageType.CSC,
        [[(0, 1), (1, 1), (2, 1), (3, 1)], [(1, 1), (2, 1), (3, 1)],
          [(2, 1), (3, 1)], [(3, 1)]]⟩ ∧
      sortedOuter ⟨4, 4, StorageType.CSC,
        [[(0, 1), (1, 1), (2, 1), (3, 1)], [(1, 1), (2, 1), (3, 1)],
          [(2, 1), (3, 1)], [(3, 1)]]⟩ ∧
      dfsRoots ⟨4, 4, StorageType.CSC,
          [[(0, 1), (1, 1), (2, 1), (3, 1)], [(1, 1), (2, 1), (3, 1)],
            [(2, 1), (3, 1)], [(3, 1)]]⟩ [0]
        ⟨List.replicate 4 false, [], [], 0⟩ =
        some ⟨[true, true, true, true], [],
          [StackVal.Enter 0, StackVal.Enter 1, StackVal.Enter 2, StackVal.Enter 3], 8⟩) ∧
    (⟨[true, true, true, true], [],
      [StackVal.Enter 0, StackVal.Enter 1, StackVal.Enter 2, StackVal.Enter 3], 8⟩ :
        DfsState).maxOcc ≤ 2 * (4 : Nat) :=
  ⟨⟨by decide, by decide, by simp [sortedOuter, List.chain'_cons], by decide⟩,
    claim_C4 ⟨4, 4, StorageType.CSC,
        [[(0, 1), (1, 1), (2, 1), (3, 1)], [(1, 1), (2, 1), (3, 1)],
          [(2, 1), (3, 1)], [(3, 1)]]⟩ [0]
      ⟨[true, true, true, true], [],
        [StackVal.Enter 0, StackVal.Enter 1, StackVal.Enter 2, StackVal.Enter 3], 8⟩
      (by decide) (by decide) (by simp [sortedOuter, List.chain'_cons]) (by decide)⟩

/-- C3: on a successful sparse solve of a lower-triangular column-major
matrix, the sequence of indices read end-to-end from the finished side and
replayed holds each discovered index exactly once, and every index appears
strictly after every discovered index it transitively depends on. -/
theorem claim_C3 (mat : CsMatView) (rhs : List (Nat × ℚ)) (dstack : DStack)
    (ws : List ℚ) (visited : List Bool) (out : SparseOut)
    (hw : matWF mat) (hlow : lowerTri mat)
    (hvis : visited = List.replicate mat.rows false)
    (hok : lsolve_csc_sparse_rhs mat rhs dstack ws visited = SpOutcome.ok out) :
    (out.dstack.right.map extract_stack_val).Nodup ∧
    (∀ i, i ∈ out.dstack.right.map extract_stack_val ↔
      out.visited.getD i false = true) ∧
    (∀ j i, Dep mat j i → j ∈ out.dstack.right.map extract_stack_val →
      i ∈ out.dstack.right.map extract_stack_val →
      (out.dstack.right.map extract_stack_val).indexOf j <
        (out.dstack.right.map extract_stack_val).indexOf i) := by
  obtain ⟨hcs, hcap, hL, hR, hws, s, ws1, hroots, hmo, hrep, hout⟩ := sparse_ok_elim hok
  rw [hL, hR] at hroots
  have hvis0 : ∀ u, getVis (⟨visited, [], [], 0⟩ : DfsState) u = false := by
    intro u
    subst hvis
    exact getD_replicate_false _ _
  obtain ⟨hcnd, hciff⟩ := dfsRoots_count hroots (by simp [leftExits, rightInds])
    (by intro u
        rw [hvis0 u]
        simp [leftExits, rightInds])
  obtain ⟨hblen, hbmono, hbright, hbroots, hbnil⟩ := dfsRoots_basic hroots
  have hnil : s.left = [] := hbnil rfl
  have hclosed := dfsRoots_closed hroots
    (by intro j hj; rw [hvis0 j] at hj; exact absurd hj (by simp))
  have hD := dfsRoots_order hlow hroots rfl
    (by intro u
        rw [hvis0 u]
        simp [leftExits, rightInds])
    (by intro P j Q hsplit
        exact absurd hsplit (by simp [rightInds]))
  have hiff2 : ∀ u, getVis s u = true ↔ u ∈ rightInds s.right := by
    intro u
    rw [hciff u, hnil]
    simp [leftExits]
  have hnd2 : (rightInds s.right).Nodup := by
    rw [hnil] at hcnd
    simpa [leftExits] using hcnd
  have hmemstep : ∀ a b, depEdge mat a b → a ∈ rightInds s.right →
      b ∈ rightInds s.right := by
    intro a b hedge ha
    obtain ⟨_, v, hv⟩ := hedge
    rcases hclosed a ((hiff2 a).mpr ha) (b, v) hv with hc | hc
    · exact (hiff2 b).mp hc
    · rw [hnil] at hc
      exact absurd hc (by simp)
  have hidxstep : ∀ a b, depEdge mat a b → a ∈ rightInds s.right →
      (rightInds s.right).indexOf a < (rightInds s.right).indexOf b := by
    intro a b hedge ha
    obtain ⟨P, Q, hPQ⟩ := List.append_of_mem ha
    obtain ⟨hab, v, hv⟩ := hedge
    have hbQ : b ∈ Q := hD P a Q hPQ (b, v) hv (by omega)
    rw [hPQ]
    exact indexOf_append_lt (hPQ ▸ hnd2) hbQ
  have hmemdep : ∀ a b, Dep mat a b → a ∈ rightInds s.right →
      b ∈ rightInds s.right := by
    intro a b hdep ha
    have hdep2 : Relation.TransGen (depEdge mat) a b := hdep
    clear hdep
    induction hdep2 with
    | single hedge => exact hmemstep _ _ hedge ha
    | tail _ hedge ihd => exact hmemstep _ _ hedge ihd
  refine ⟨?_, ?_, ?_⟩
  · rw [hout]
    exact hnd2
  · intro i
    rw [hout]
    exact (hiff2 i).symm
  · intro j i hdep hj hi
    rw [hout] at hj ⊢
    have hdep2 : Relation.TransGen (depEdge mat) j i := hdep
    clear hdep hi
    induction hdep2 with
    | single hedge => exact hidxstep _ _ hedge hj
    | tail hdep3 hedge ihd =>
      exact lt_trans ihd (hidxstep _ _ hedge (hmemdep _ _ hdep3 hj))

unseal Rat.mul Rat.add Rat.sub Rat.inv in
/-- Witness for C3 on the repository's 5-by-5 sparse-solve test: index 4
depends on index 1 and appears after it in the replay sequence. -/
theorem claim_C3_witness :
    (matWF ⟨5, 5, StorageType.CSC,
        [[(0, 1), (1, 1)], [(1, 2), (2, 3), (4, 2)], [(2, 3)], [(3, 7), (4, 3)], [(4, 5)]]⟩ ∧
      lowerTri ⟨5, 5, StorageType.CSC,
        [[(0, 1), (1, 1)], [(1, 2), (2, 3), (4, 2)], [(2, 3)], [(3, 7), (4, 3)], [(4, 5)]]⟩ ∧
      ([false, false, false, false, false] : List Bool) = List.replicate 5 false ∧
      lsolve_csc_sparse_rhs ⟨5, 5, StorageType.CSC,
          [[(0, 1), (1, 1)], [(1, 2), (2, 3), (4, 2)], [(2, 3)], [(3, 7), (4, 3)], [(4, 5)]]⟩
        [(1, 4), (2, 9), (4, 9)] ⟨10, [], []⟩ [2, 2, 2, 2, 2]
        [false, false, false, false, false] =
        SpOutcome.ok ⟨⟨10, [], [StackVal.Enter 1, StackVal.Enter 2, StackVal.Enter 4]⟩,
          [2, 2, 1, 2, 1], [false, true, true, false, true]⟩ ∧
      Dep ⟨5, 5, StorageType.CSC,
          [[(0, 1), (1, 1)], [(1, 2), (2, 3), (4, 2)], [(2, 3)], [(3, 7), (4, 3)], [(4, 5)]]⟩
        1 4 ∧
      (1 : Nat) ∈ (⟨⟨10, [], [StackVal.Enter 1, StackVal.Enter 2, StackVal.Enter 4]⟩,
        [2, 2, 1, 2, 1], [false, true, true, false, true]⟩ : SparseOut).dstack.right.map
          extract_stack_val ∧
      (4 : Nat) ∈ (⟨⟨10, [], [StackVal.Enter 1, StackVal.Enter 2, StackVal.Enter 4]⟩,
        [2, 2, 1, 2, 1], [false, true, true, false, true]⟩ : SparseOut).dstack.right.map
          extract_stack_val) ∧
    ((⟨⟨10, [], [StackVal.Enter 1, StackVal.Enter 2, StackVal.Enter 4]⟩,
        [2, 2, 1, 2, 1], [false, true, true, false, true]⟩ : SparseOut).dstack.right.map
          extract_stack_val).indexOf 1 <
      ((⟨⟨10, [], [StackVal.Enter 1, StackVal.Enter 2, StackVal.Enter 4]⟩,
        [2, 2, 1, 2, 1], [false, true, true, false, true]⟩ : SparseOut).dstack.right.map
          extract_stack_val).indexOf 4 :=
  ⟨⟨by decide, by decide, rfl, by decide,
      Relation.TransGen.single ⟨by decide, 2, by decide⟩, by decide, by decide⟩,
    (claim_C3 ⟨5, 5, StorageType.CSC,
        [[(0, 1), (1, 1)], [(1, 2), (2, 3), (4, 2)], [(2, 3)], [(3, 7), (4, 3)], [(4, 5)]]⟩
      [(1, 4), (2, 9), (4, 9)] ⟨10, [], []⟩ [2, 2, 2, 2, 2]
      [false, false, false, false, false]
      ⟨⟨10, [], [StackVal.Enter 1, StackVal.Enter 2, StackVal.Enter 4]⟩,
        [2, 2, 1, 2, 1], [false, true, true, false, true]⟩
      (by decide) (by decide) rfl (by decide)).2.2 1 4
      (Relation.TransGen.single ⟨by decide, 2, by decide⟩) (by decide) (by decide)⟩

/-! Singular pivots: each dense loop surfaces `SingularMatrix` as soon as a
diagonal entry is absent or zero, and the sparse replay does so for every
finished singular pivot. -/

lemma lsolve_csr_scan_fst_eq {i : Nat} {rhs : List ℚ} {row : List (Nat × ℚ)}
    (hnd : (row.map Prod.fst).Nodup) :
    (lsolve_csr_row_scan i rhs row).1 = keyVal row i := by
  by_cases hmem : ∃ v, ((i : Nat), v) ∈ row
  · obtain ⟨v, hv⟩ := hmem
    rw [lsolve_csr_row_scan_fst hnd hv, keyVal_of_mem hnd hv]
  · push_neg at hmem
    rw [keyVal_not_mem hmem]
    refine lsolve_csr_scan_fst_nokey i rhs row ?_ 0 (rhs.getD i 0)
    intro e he hc
    refine hmem e.2 ?_
    rw [← hc]
    simpa using he

lemma usolve_csr_scan_fst_eq {i : Nat} {rhs : List ℚ} {row : List (Nat × ℚ)}
    (hnd : (row.map Prod.fst).Nodup) :
    (usolve_csr_row_scan i rhs row).1 = keyVal row i := by
  by_cases hmem : ∃ v, ((i : Nat), v) ∈ row
  · obtain ⟨v, hv⟩ := hmem
    rw [usolve_csr_row_scan_fst hnd hv, keyVal_of_mem hnd hv]
  · push_neg at hmem
    rw [keyVal_not_mem hmem]
    refine usolve_csr_scan_fst_nokey i rhs row ?_ 0 (rhs.getD i 0)
    intro e he hc
    refine hmem e.2 ?_
    rw [← hc]
    simpa using he

lemma process_col_error {col : List (Nat × ℚ)} {p : Nat} {rhs : List ℚ} {er : SprsError}
    (h : lspsolve_csc_process_col col p rhs = Except.error er) :
    er = SprsError.SingularMatrix := by
  unfold lspsolve_csc_process_col at h
  cases hf : col.find? (fun e => e.1 == p) with
  | none =>
    rw [hf] at h
    simp only at h
    exact (Except.error.inj h).symm
  | some d =>
    rw [hf] at h
    simp only at h
    by_cases hz : d.2 = 0
    · rw [if_pos hz] at h
      exact (Except.error.inj h).symm
    · rw [if_neg hz] at h
      exact absurd h (by simp)

lemma process_col_bad {col : List (Nat × ℚ)} {p : Nat} {rhs : List ℚ}
    (hnd : (col.map Prod.fst).Nodup) (hbad : keyVal col p = 0) :
    lspsolve_csc_process_col col p rhs = Except.error SprsError.SingularMatrix := by
  cases hf : col.find? (fun e => e.1 == p) with
  | none => exact process_col_find_none hf
  | some d =>
    have hdm : d ∈ col := List.mem_of_find?_eq_some hf
    have hd1 : d.1 = p := by
      have := List.find?_some hf
      simpa using this
    have hkv : keyVal col p = d.2 :=
      keyVal_of_mem hnd (by rw [← hd1]; simpa using hdm)
    exact process_col_find_zero hf (by rw [← hkv]; exact hbad)

lemma usolve_process_col_error {col : List (Nat × ℚ)} {p : Nat} {rhs : List ℚ}
    {er : SprsError}
    (h : usolve_csc_process_col col p rhs = Except.error er) :
    er = SprsError.SingularMatrix := by
  unfold usolve_csc_process_col at h
  cases hf : col.find? (fun e => e.1 == p) with
  | none =>
    rw [hf] at h
    simp only at h
    exact (Except.error.inj h).symm
  | some d =>
    rw [hf] at h
    simp only at h
    by_cases hz : d.2 = 0
    · rw [if_pos hz] at h
      exact (Except.error.inj h).symm
    · rw [if_neg hz] at h
      exact absurd h (by simp)

lemma usolve_process_col_bad {col : List (Nat × ℚ)} {p : Nat} {rhs : List ℚ}
    (hnd : (col.map Prod.fst).Nodup) (hbad : keyVal col p = 0) :
    usolve_csc_process_col col p rhs = Except.error SprsError.SingularMatrix := by
  unfold usolve_csc_process_col
  cases hf : col.find? (fun e => e.1 == p) with
  | none => rfl
  | some d =>
    have hdm : d ∈ col := List.mem_of_find?_eq_some hf
    have hd1 : d.1 = p := by
      have := List.find?_some hf
      simpa using this
    have hkv : keyVal col p = d.2 :=
      keyVal_of_mem hnd (by rw [← hd1]; simpa using hdm)
    show (if d.2 = 0 then Except.error SprsError.SingularMatrix
      else Except.ok (updColU p (rhs.getD p 0 / d.2) col
        (rhs.set p (rhs.getD p 0 / d.2)))) = Except.error SprsError.SingularMatrix
    rw [if_pos (by rw [← hkv]; exact hbad)]

lemma lsolve_csr_loop_singular :
    ∀ (rows : List (List (Nat × ℚ))) (i : Nat) (rhs : List ℚ) (k : Nat),
      (∀ r ∈ rows, (r.map Prod.fst).Nodup) →
      k < rows.length →
      keyVal (rows.getD k []) (i + k) = 0 →
      lsolve_csr_loop i rows rhs = Outcome.err SprsError.SingularMatrix := by
  intro rows
  induction rows with
  | nil => intro i rhs k _ hk _; simp at hk
  | cons row rest ih =>
    intro i rhs k hnd hk hbad
    show (if (lsolve_csr_row_scan i rhs row).1 = 0 then Outcome.err SprsError.SingularMatrix
      else lsolve_csr_loop (i + 1) rest
        (rhs.set i ((lsolve_csr_row_scan i rhs row).2 / (lsolve_csr_row_scan i rhs row).1))) =
      Outcome.err SprsError.SingularMatrix
    by_cases hd : (lsolve_csr_row_scan i rhs row).1 = 0
    · rw [if_pos hd]
    · rw [if_neg hd]
      cases k with
      | zero =>
        exfalso
        refine hd ?_
        rw [lsolve_csr_scan_fst_eq (hnd row (List.mem_cons_self _ _))]
        simpa using hbad
      | succ k2 =>
        refine ih (i + 1) _ k2 (fun r hr => hnd r (List.mem_cons_of_mem _ hr))
          (by simpa using hk) ?_
        show keyVal (rest.getD k2 []) (i + 1 + k2) = 0
        rw [show i + 1 + k2 = i + (k2 + 1) by omega]
        exact hbad

lemma lsolve_csc_loop_singular :
    ∀ (cols : List (List (Nat × ℚ))) (i : Nat) (rhs : List ℚ) (k : Nat),
      (∀ c ∈ cols, (c.map Prod.fst).Nodup) →
      k < cols.length →
      keyVal (cols.getD k []) (i + k) = 0 →
      lsolve_csc_loop i cols rhs = Outcome.err SprsError.SingularMatrix := by
  intro cols
  induction cols with
  | nil => intro i rhs k _ hk _; simp at hk
  | cons col rest ih =>
    intro i rhs k hnd hk hbad
    show (match lspsolve_csc_process_col col i rhs with
      | Except.error e => Outcome.err e
      | Except.ok rhs1 => lsolve_csc_loop (i + 1) rest rhs1) =
      Outcome.err SprsError.SingularMatrix
    cases k with
    | zero =>
      rw [process_col_bad (hnd col (List.mem_cons_self _ _)) (by simpa using hbad)]
    | succ k2 =>
      cases hpc : lspsolve_csc_process_col col i rhs with
      | error er =>
        show Outcome.err er = Outcome.err SprsError.SingularMatrix
        rw [process_col_error hpc]
      | ok rhs1 =>
        show lsolve_csc_loop (i + 1) rest rhs1 = Outcome.err SprsError.SingularMatrix
        refine ih (i + 1) rhs1 k2 (fun c hc => hnd c (List.mem_cons_of_mem _ hc))
          (by simpa using hk) ?_
        show keyVal (rest.getD k2 []) (i + 1 + k2) = 0
        rw [show i + 1 + k2 = i + (k2 + 1) by omega]
        exact hbad

lemma usolve_csr_loop_singular :
    ∀ (ps : List (Nat × List (Nat × ℚ))) (rhs : List ℚ) (p : Nat) (row : List (Nat × ℚ)),
      (∀ q ∈ ps, (q.2.map Prod.fst).Nodup) →
      (p, row) ∈ ps →
      keyVal row p = 0 →
      usolve_csr_loop ps rhs = Outcome.err SprsError.SingularMatrix := by
  intro ps
  induction ps with
  | nil => intro rhs p row _ hm _; simp at hm
  | cons q rest ih =>
    intro rhs p row hnd hm hbad
    obtain ⟨i0, row0⟩ := q
    show (if (usolve_csr_row_scan i0 rhs row0).1 = 0 then Outcome.err SprsError.SingularMatrix
      else usolve_csr_loop rest
        (rhs.set i0 ((usolve_csr_row_scan i0 rhs row0).2 /
          (usolve_csr_row_scan i0 rhs row0).1))) = Outcome.err SprsError.SingularMatrix
    by_cases hd : (usolve_csr_row_scan i0 rhs row0).1 = 0
    · rw [if_pos hd]
    · rw [if_neg hd]
      rcases List.mem_cons.mp hm with hm1 | hm2
      · exfalso
        obtain ⟨hp, hr⟩ : p = i0 ∧ row = row0 := by
          injection hm1 with h1 h2
          exact ⟨h1, h2⟩
        refine hd ?_
        rw [usolve_csr_scan_fst_eq (hnd (i0, row0) (List.mem_cons_self _ _))]
        rw [← hp, ← hr]
        exact hbad
      · exact ih _ p row (fun q2 hq2 => hnd q2 (List.mem_cons_of_mem _ hq2)) hm2 hbad

lemma usolve_csc_loop_singular :
    ∀ (ps : List (Nat × List (Nat × ℚ))) (rhs : List ℚ) (p : Nat) (col : List (Nat × ℚ)),
      (∀ q ∈ ps, (q.2.map Prod.fst).Nodup) →
      (p, col) ∈ ps →
      keyVal col p = 0 →
      usolve_csc_loop ps rhs = Outcome.err SprsError.SingularMatrix := by
  intro ps
  induction ps with
  | nil => intro rhs p col _ hm _; simp at hm
  | cons q rest ih =>
    intro rhs p col hnd hm hbad
    obtain ⟨i0, col0⟩ := q
    show (match usolve_csc_process_col col0 i0 rhs with
      | Except.error e => Outcome.err e
      | Except.ok rhs1 => usolve_csc_loop rest rhs1) = Outcome.err SprsError.SingularMatrix
    rcases List.mem_cons.mp hm with hm1 | hm2
    · obtain ⟨hp, hr⟩ : p = i0 ∧ col = col0 := by
        injection hm1 with h1 h2
        exact ⟨h1, h2⟩
      rw [usolve_process_col_bad (hnd (i0, col0) (List.mem_cons_self _ _))
        (by rw [← hp, ← hr]; exact hbad)]
    · cases hpc : usolve_csc_process_col col0 i0 rhs with
      | error er =>
        show Outcome.err er = Outcome.err SprsError.SingularMatrix
        rw [usolve_process_col_error hpc]
      | ok rhs1 =>
        show usolve_csc_loop rest rhs1 = Outcome.err SprsError.SingularMatrix
        exact ih rhs1 p col (fun q2 hq2 => hnd q2 (List.mem_cons_of_mem _ hq2)) hm2 hbad

/-! Fuel sufficiency: on a well-formed matrix with in-range pending markers
the traversal loop terminates within the fuel `dfsFuel`, so the solver's
traversal never aborts. -/

lemma count_false_set :
    ∀ {v : List Bool} {ind : Nat}, ind < v.length → v.getD ind false = false →
      (v.set ind true).count false + 1 = v.count false := by
  intro v
  induction v with
  | nil => intro ind h _; simp at h
  | cons b t ih =>
    intro ind hlt hv
    cases ind with
    | zero =>
      have hb : b = false := hv
      subst hb
      show ((true :: t).count false) + 1 = (false :: t).count false
      rw [List.count_cons, List.count_cons]
      simp
    | succ ind2 =>
      have h2 := ih (by simpa using hlt) hv
      show ((b :: t.set ind2 true).count false) + 1 = (b :: t).count false
      rw [List.count_cons, List.count_cons]
      omega

lemma count_false_pos {v : List Bool} {ind : Nat} (hlt : ind < v.length)
    (hv : v.getD ind false = false) : 1 ≤ v.count false := by
  have h1 : v.getD ind false = v[ind] := List.getD_eq_getElem _ _ hlt
  rw [h1] at hv
  exact List.count_pos_iff.mpr (hv ▸ List.getElem_mem hlt)

lemma length_le_sum_of_mem :
    ∀ {L : List (List (Nat × ℚ))} {l : List (Nat × ℚ)}, l ∈ L →
      l.length ≤ (L.map List.length).sum := by
  intro L
  induction L with
  | nil => intro l h; simp at h
  | cons a t ih =>
    intro l h
    rw [List.map_cons, List.sum_cons]
    rcases List.mem_cons.mp h with h1 | h2
    · subst h1
      exact Nat.le_add_right _ _
    · exact le_trans (ih h2) (Nat.le_add_left _ _)

lemma mu_step_pop {A rl fuel : Nat} (h : A + (rl + 1) < fuel + 1) : A + rl < fuel := by
  omega

lemma mu_step_visit {c1 S clen rl fuel : Nat}
    (h : (c1 + 1) * (S + 2) + (rl + 1) < fuel + 1) (hc : clen ≤ S) :
    c1 * (S + 2) + (clen + 1 + rl) < fuel := by
  rw [Nat.succ_mul] at h
  generalize c1 * (S + 2) = X at h ⊢
  omega

lemma dfsLoop_run {mat : CsMatView} (hwf : matWF mat) :
    ∀ (fuel : Nat) (s : DfsState),
      s.visited.length = mat.rows →
      (∀ ind, StackVal.Enter ind ∈ s.left → ind < mat.rows) →
      s.visited.count false * ((mat.outer.map List.length).sum + 2) + s.left.length <
        fuel →
      ∃ s1, dfsLoop mat fuel s = some s1 := by
  intro fuel
  induction fuel with
  | zero =>
    intro s hlen hrange hmu
    omega
  | succ fuel ih =>
    rintro ⟨vis, left, right, mo⟩ hlen hrange hmu
    have hlen2 : vis.length = mat.rows := hlen
    cases left with
    | nil => exact ⟨_, rfl⟩
    | cons sv rest =>
      cases sv with
      | Enter ind =>
        have hmu2 : vis.count false * ((mat.outer.map List.length).sum + 2) +
            (rest.length + 1) < fuel + 1 := by
          have h0 : vis.count false * ((mat.outer.map List.length).sum + 2) +
              (StackVal.Enter ind :: rest).length < fuel + 1 := hmu
          simpa using h0
        have hlt : ind < vis.length := by
          rw [hlen2]
          exact hrange ind (List.mem_cons_self _ _)
        show ∃ s1, dfsLoop mat (fuel + 1) ⟨vis, StackVal.Enter ind :: rest, right, mo⟩ =
          some s1
        simp only [dfsLoop]
        rw [if_pos hlt]
        by_cases hv : vis.getD ind false = true
        · rw [if_pos hv]
          refine ih _ hlen2 (fun i2 hi2 => hrange i2 (List.mem_cons_of_mem _ hi2)) ?_
          exact mu_step_pop hmu2
        · rw [if_neg hv]
          have hio : ind < mat.outer.length := by
            rw [hwf.2.1]
            exact hrange ind (List.mem_cons_self _ _)
          obtain ⟨column, ho⟩ : ∃ c, mat.outer_view ind = some c := by
            unfold CsMatView.outer_view
            exact ⟨_, List.get?_eq_get hio⟩
          rw [ho]
          have hfalse : vis.getD ind false = false := by
            cases hgd : vis.getD ind false with
            | false => rfl
            | true => exact absurd hgd hv
          refine ih _ ?_ ?_ ?_
          · show (vis.set ind true).length = mat.rows
            rw [List.length_set]
            exact hlen2
          · intro i2 hi2
            rcases List.mem_append.mp hi2 with hc | hc
            · rw [List.mem_reverse] at hc
              obtain ⟨e, he, heq⟩ := List.mem_map.mp hc
              obtain rfl : i2 = e.1 := by injection heq.symm
              exact (hwf.2.2 column (outer_view_mem ho)).2 e he
            · rcases List.mem_cons.mp hc with hc1 | hc2
              · exact absurd hc1 (by simp)
              · exact hrange i2 (List.mem_cons_of_mem _ hc2)
          · show (vis.set ind true).count false * ((mat.outer.map List.length).sum + 2) +
              ((column.map (fun e => StackVal.Enter e.1)).reverse ++
                (StackVal.Exit ind :: rest)).length < fuel
            have hcnt := count_false_set hlt hfalse
            have hClen : column.length ≤ (mat.outer.map List.length).sum :=
              length_le_sum_of_mem (outer_view_mem ho)
            have hA : ((vis.set ind true).count false + 1) *
                ((mat.outer.map List.length).sum + 2) + (rest.length + 1) < fuel + 1 := by
              rw [hcnt]
              exact hmu2
            have h6 := mu_step_visit hA hClen
            have h7 : ((column.map (fun e => StackVal.Enter e.1)).reverse ++
                (StackVal.Exit ind :: rest)).length = column.length + 1 + rest.length := by
              rw [List.length_append, List.length_reverse, List.length_map,
                List.length_cons]
              omega
            rw [h7]
            exact h6
      | Exit ind =>
        show ∃ s1, dfsLoop mat (fuel + 1) ⟨vis, StackVal.Exit ind :: rest, right, mo⟩ =
          some s1
        simp only [dfsLoop]
        refine ih _ hlen2 (fun i2 hi2 => hrange i2 (List.mem_cons_of_mem _ hi2)) ?_
        refine mu_step_pop ?_
        have h0 : vis.count false * ((mat.outer.map List.length).sum + 2) +
            (StackVal.Exit ind :: rest).length < fuel + 1 := hmu
        simpa using h0

lemma dfsRoots_run {mat : CsMatView} (hwf : matWF mat) :
    ∀ (roots : List Nat) (s : DfsState),
      s.left = [] →
      s.visited.length = mat.rows →
      (∀ r ∈ roots, r < mat.rows) →
      ∃ s1, dfsRoots mat roots s = some s1 := by
  intro roots
  induction roots with
  | nil => intro s _ _ _; exact ⟨s, rfl⟩
  | cons r rs ih =>
    intro s hnil hlen hrange
    show ∃ s1, dfsRoots mat (r :: rs) s = some s1
    unfold dfsRoots
    rw [if_pos (by rw [hlen]; exact hrange r (List.mem_cons_self _ _))]
    by_cases hv : s.visited.getD r false = true
    · rw [if_pos hv]
      exact ih s hnil hlen (fun q hq => hrange q (List.mem_cons_of_mem _ hq))
    · rw [if_neg hv]
      obtain ⟨s1, hloop⟩ := dfsLoop_run hwf (dfsFuel mat)
        { s with left := StackVal.Enter r :: s.left }
        hlen
        (by intro ind hmem
            rw [hnil] at hmem
            rcases List.mem_cons.mp hmem with h1 | h1
            · obtain rfl : ind = r := by injection h1
              exact hrange ind (List.mem_cons_self _ _)
            · exact absurd h1 (by simp))
        (by show s.visited.count false * ((mat.outer.map List.length).sum + 2) +
              (StackVal.Enter r :: s.left).length < dfsFuel mat
            rw [hnil]
            have h1 : s.visited.count false ≤ mat.rows := by
              rw [← hlen]
              exact List.count_le_length _ _
            have h2 : s.visited.count false * ((mat.outer.map List.length).sum + 2) ≤
                mat.rows * ((mat.outer.map List.length).sum + 2) :=
              Nat.mul_le_mul_right _ h1
            show s.visited.count false * ((mat.outer.map List.length).sum + 2) + 1 <
              2 + mat.rows * (2 + (mat.outer.map List.length).sum)
            rw [Nat.add_comm 2 ((mat.outer.map List.length).sum)]
            omega)
      rw [hloop]
      refine ih s1 ((dfsLoop_basic hloop).1) ?_
        (fun q hq => hrange q (List.mem_cons_of_mem _ hq))
      rw [(dfsLoop_basic hloop).2.1]
      exact hlen

lemma replayLoop_singular {mat : CsMatView} (hwf : matWF mat) :
    ∀ (L : List Nat) (ws : List ℚ),
      (∀ ind ∈ L, ind < mat.outer.length) →
      (∃ ind ∈ L, keyVal (mat.outer.getD ind []) ind = 0) →
      ∃ ws1, replayLoop mat L ws = ReplayRes.err ws1 := by
  intro L
  induction L with
  | nil => intro ws _ hex; simp at hex
  | cons ind rest ih =>
    intro ws hrange hex
    have hio : ind < mat.outer.length := hrange ind (List.mem_cons_self _ _)
    obtain ⟨c, ho⟩ : ∃ c, mat.outer_view ind = some c := by
      unfold CsMatView.outer_view
      exact ⟨_, List.get?_eq_get hio⟩
    have hnd : (c.map Prod.fst).Nodup := by
      have h1 := matWF_getD_nodup hwf hio
      rwa [outer_view_getD ho] at h1
    show ∃ ws1, replayLoop mat (ind :: rest) ws = ReplayRes.err ws1
    unfold replayLoop
    rw [ho]
    show ∃ ws1, (match lspsolve_csc_process_col c ind ws with
      | Except.error _ => ReplayRes.err ws
      | Except.ok ws2 => replayLoop mat rest ws2) = ReplayRes.err ws1
    rcases hex with ⟨ind2, hm2, hbad2⟩
    rcases List.mem_cons.mp hm2 with h1 | h2
    · obtain rfl : ind2 = ind := h1
      rw [outer_view_getD ho] at hbad2
      rw [process_col_bad hnd hbad2]
      exact ⟨ws, rfl⟩
    · cases hpc : lspsolve_csc_process_col c ind ws with
      | error er => exact ⟨ws, rfl⟩
      | ok ws2 =>
        obtain ⟨ws1, hrec⟩ := ih ws2
          (fun q hq => hrange q (List.mem_cons_of_mem _ hq)) ⟨ind2, h2, hbad2⟩
        exact ⟨ws1, hrec⟩

/-- C6 (amended): under the shape and orientation preconditions, each of the
four dense solvers returns `SingularMatrix` (not `Ok`, not a panic) whenever
some diagonal entry is absent or zero. The sparse solver, on a
lower-triangular column-major matrix whose columns are stored in ascending
inner order (so that the traversal's occupancy stays within the stack's
capacity and the capacity-overflow panic cannot fire), returns
`SingularMatrix` whenever such a pivot is reachable from the right-hand
side's nonzero indices; a singular pivot outside the reachable set is never
visited, and the counterexample shows such a call returning `Ok`. -/
theorem claim_C6 :
    (∀ (mat : CsMatView) (rhs : List ℚ) (p : Nat),
      matWF mat → mat.is_csr = true →
      check_solver_dimensions mat rhs.length = true →
      p < mat.rows → csrEntry mat p p = 0 →
      lsolve_csr_dense_rhs mat rhs = Outcome.err SprsError.SingularMatrix) ∧
    (∀ (mat : CsMatView) (rhs : List ℚ) (p : Nat),
      matWF mat → mat.is_csc = true →
      check_solver_dimensions mat rhs.length = true →
      p < mat.rows → cscEntry mat p p = 0 →
      lsolve_csc_dense_rhs mat rhs = Outcome.err SprsError.SingularMatrix) ∧
    (∀ (mat : CsMatView) (rhs : List ℚ) (p : Nat),
      matWF mat → mat.is_csc = true →
      check_solver_dimensions mat rhs.length = true →
      p < mat.rows → cscEntry mat p p = 0 →
      usolve_csc_dense_rhs mat rhs = Outcome.err SprsError.SingularMatrix) ∧
    (∀ (mat : CsMatView) (rhs : List ℚ) (p : Nat),
      matWF mat → mat.is_csr = true →
      check_solver_dimensions mat rhs.length = true →
      p < mat.rows → csrEntry mat p p = 0 →
      usolve_csr_dense_rhs mat rhs = Outcome.err SprsError.SingularMatrix) ∧
    (∀ (mat : CsMatView) (rhs : List (Nat × ℚ)) (dstack : DStack) (ws : List ℚ)
        (visited : List Bool) (p : Nat),
      matWF mat → lowerTri mat → sortedOuter mat → mat.is_csc = true →
      visited = List.replicate mat.rows false →
      ¬ dstack.cap < 2 * mat.rows → dstack.left = [] → dstack.right = [] →
      ws.length = mat.rows →
      (∀ e ∈ rhs, e.1 < mat.rows) →
      cscEntry mat p p = 0 →
      Reach mat (rhs.map Prod.fst) p →
      ∃ out, lsolve_csc_sparse_rhs mat rhs dstack ws visited =
        SpOutcome.err SprsError.SingularMatrix out) := by
  refine ⟨?_, ?_, ?_, ?_, ?_⟩
  · intro mat rhs p hw hcsr hchk hp hbad
    unfold lsolve_csr_dense_rhs
    rw [if_neg (by simp [hchk]), if_neg (by simp [hcsr])]
    refine lsolve_csr_loop_singular mat.outer 0 rhs p
      (fun r hr => (hw.2.2 r hr).1) (by rw [hw.2.1]; exact hp) ?_
    show keyVal (mat.outer.getD p []) (0 + p) = 0
    rw [Nat.zero_add]
    exact hbad
  · intro mat rhs p hw hcsc hchk hp hbad
    unfold lsolve_csc_dense_rhs
    rw [if_neg (by simp [hchk]), if_neg (by simp [hcsc])]
    refine lsolve_csc_loop_singular mat.outer 0 rhs p
      (fun c hc => (hw.2.2 c hc).1) (by rw [hw.2.1]; exact hp) ?_
    show keyVal (mat.outer.getD p []) (0 + p) = 0
    rw [Nat.zero_add]
    exact hbad
  · intro mat rhs p hw hcsc hchk hp hbad
    unfold usolve_csc_dense_rhs
    rw [if_neg (by simp [hchk]), if_neg (by simp [hcsc])]
    refine usolve_csc_loop_singular mat.outer.enum.reverse rhs p
      (mat.outer.getD p []) ?_ ?_ hbad
    · intro q hq
      obtain ⟨h1, h2⟩ := mem_enum_getD [] (List.mem_reverse.mp hq)
      rw [h2]
      exact matWF_getD_nodup hw h1
    · exact List.mem_reverse.mpr (enum_mem_of_lt (by rw [hw.2.1]; exact hp) [])
  · intro mat rhs p hw hcsr hchk hp hbad
    unfold usolve_csr_dense_rhs
    rw [if_neg (by simp [hchk]), if_neg (by simp [hcsr])]
    refine usolve_csr_loop_singular mat.outer.enum.reverse rhs p
      (mat.outer.getD p []) ?_ ?_ hbad
    · intro q hq
      obtain ⟨h1, h2⟩ := mem_enum_getD [] (List.mem_reverse.mp hq)
      rw [h2]
      exact matWF_getD_nodup hw h1
    · exact List.mem_reverse.mpr (enum_mem_of_lt (by rw [hw.2.1]; exact hp) [])
  · intro mat rhs dstack ws visited p hw hlow hsort hcsc hvis hcap hL hR hws hrng
      hbad hreach
    have hvlen : visited.length = mat.rows := by
      rw [hvis]
      exact List.length_replicate _ _
    obtain ⟨s, hroots⟩ := dfsRoots_run hw (rhs.map Prod.fst)
      ⟨visited, [], [], 0⟩ rfl hvlen
      (by intro r hr
          obtain ⟨e, he, rfl⟩ := List.mem_map.mp hr
          exact hrng e he)
    have hvis0 : ∀ u, getVis (⟨visited, [], [], 0⟩ : DfsState) u = false := by
      intro u
      show visited.getD u false = false
      rw [hvis]
      exact getD_replicate_false _ _
    obtain ⟨hcnd, hciff⟩ := dfsRoots_count hroots (by simp [leftExits, rightInds])
      (by intro u
          rw [hvis0 u]
          simp [leftExits, rightInds])
    obtain ⟨hblen, hbmono, hbright, hbroots, hbnil⟩ := dfsRoots_basic hroots
    have hnil : s.left = [] := hbnil rfl
    have hclosed := dfsRoots_closed hroots
      (by intro j hj; rw [hvis0 j] at hj; exact absurd hj (by simp))
    have hpvis : getVis s p = true := reach_visited hbroots hclosed hnil p hreach
    have hpmem : p ∈ rightInds s.right := by
      have h1 := (hciff p).mp hpvis
      rw [hnil] at h1
      simpa [leftExits] using h1
    obtain ⟨ws1, hrep⟩ := replayLoop_singular hw (s.right.map extract_stack_val)
      (scatter rhs ws)
      (by intro ind hmem
          have h1 : getVis s ind = true := by
            rw [hciff ind, hnil]
            exact List.mem_append_right _ hmem
          have h2 := getVis_lt_length h1
          rw [hblen] at h2
          have h3 : ind < visited.length := h2
          rw [hw.2.1, ← hvlen]
          exact h3)
      ⟨p, hpmem, hbad⟩
    have hmocc : s.maxOcc ≤ 2 * mat.rows := by
      have h := dfsRoots_cap hlow hsort hw hroots rfl hvlen
        (by intro u
            rw [hvis0 u]
            simp [leftExits, rightInds])
        (by simp [leftExits, rightInds])
      simpa using h
    have hmax : ¬ dstack.cap < s.maxOcc := by omega
    unfold lsolve_csc_sparse_rhs
    rw [hL, hR]
    rw [if_neg (by simp [hcsc])]
    rw [if_neg hcap, if_neg (by simp), if_neg (by simp), if_neg (by simp [hws])]
    rw [hroots]
    show ∃ out, (if dstack.cap < s.maxOcc then SpOutcome.fatal
      else match replayLoop mat (s.right.map extract_stack_val) (scatter rhs ws) with
        | ReplayRes.fatal => SpOutcome.fatal
        | ReplayRes.err ws2 =>
          SpOutcome.err SprsError.SingularMatrix
            ⟨⟨dstack.cap, s.left, s.right⟩, ws2, s.visited⟩
        | ReplayRes.ok ws2 =>
          SpOutcome.ok ⟨⟨dstack.cap, s.left, s.right⟩, ws2, s.visited⟩) =
      SpOutcome.err SprsError.SingularMatrix out
    rw [if_neg hmax, hrep]
    exact ⟨_, rfl⟩

unseal Rat.mul Rat.add Rat.sub Rat.inv in
/-- Counterexample to C6: a square 2-by-2 lower-triangular column-major
matrix whose diagonal entry at pivot 0 is absent, solved against a sparse
right-hand side that does not reach pivot 0, makes `lsolve_csc_sparse_rhs`
return `Ok` — the claim promises `SingularMatrix` for every applicable
solver whenever some diagonal entry is missing or zero. -/
theorem claim_C6_counterexample :
    matWF ⟨2, 2, StorageType.CSC, [[], [(1, 1)]]⟩ ∧
    lowerTri ⟨2, 2, StorageType.CSC, [[], [(1, 1)]]⟩ ∧
    CsMatView.is_csc ⟨2, 2, StorageType.CSC, [[], [(1, 1)]]⟩ = true ∧
    cscEntry ⟨2, 2, StorageType.CSC, [[], [(1, 1)]]⟩ 0 0 = 0 ∧
    0 < (⟨2, 2, StorageType.CSC, [[], [(1, 1)]]⟩ : CsMatView).rows ∧
    lsolve_csc_sparse_rhs ⟨2, 2, StorageType.CSC, [[], [(1, 1)]]⟩
        [(1, 3)] ⟨4, [], []⟩ [0, 0] [false, false] =
      SpOutcome.ok ⟨⟨4, [], [StackVal.Enter 1]⟩, [0, 3], [false, true]⟩ := by
  refine ⟨by decide, by decide, rfl, by decide, by decide, by decide⟩

/-- Witness for C6: five singular instances, one per applicable solver; each
returns the `SingularMatrix` error. -/
theorem claim_C6_witness :
    ((matWF ⟨2, 2, StorageType.CSR, [[(0, 1)], [(0, 1), (1, 0)]]⟩ ∧
        CsMatView.is_csr ⟨2, 2, StorageType.CSR, [[(0, 1)], [(0, 1), (1, 0)]]⟩ = true ∧
        check_solver_dimensions ⟨2, 2, StorageType.CSR, [[(0, 1)], [(0, 1), (1, 0)]]⟩
          ([1, 1] : List ℚ).length = true ∧
        1 < (⟨2, 2, StorageType.CSR, [[(0, 1)], [(0, 1), (1, 0)]]⟩ : CsMatView).rows ∧
        csrEntry ⟨2, 2, StorageType.CSR, [[(0, 1)], [(0, 1), (1, 0)]]⟩ 1 1 = 0) ∧
      (matWF ⟨2, 2, StorageType.CSC, [[(0, 1), (1, 1)], []]⟩ ∧
        cscEntry ⟨2, 2, StorageType.CSC, [[(0, 1), (1, 1)], []]⟩ 1 1 = 0) ∧
      (matWF ⟨2, 2, StorageType.CSC, [[], [(0, 1), (1, 1)]]⟩ ∧
        cscEntry ⟨2, 2, StorageType.CSC, [[], [(0, 1), (1, 1)]]⟩ 0 0 = 0) ∧
      (matWF ⟨2, 2, StorageType.CSR, [[(0, 0), (1, 2)], [(1, 1)]]⟩ ∧
        csrEntry ⟨2, 2, StorageType.CSR, [[(0, 0), (1, 2)], [(1, 1)]]⟩ 0 0 = 0) ∧
      (matWF ⟨2, 2, StorageType.CSC, [[(0, 0), (1, 1)], [(1, 1)]]⟩ ∧
        lowerTri ⟨2, 2, StorageType.CSC, [[(0, 0), (1, 1)], [(1, 1)]]⟩ ∧
        sortedOuter ⟨2, 2, StorageType.CSC, [[(0, 0), (1, 1)], [(1, 1)]]⟩ ∧
        cscEntry ⟨2, 2, StorageType.CSC, [[(0, 0), (1, 1)], [(1, 1)]]⟩ 0 0 = 0 ∧
        Reach ⟨2, 2, StorageType.CSC, [[(0, 0), (1, 1)], [(1, 1)]]⟩
          ([((0 : Nat), (5 : ℚ))].map Prod.fst) 0)) ∧
    (lsolve_csr_dense_rhs ⟨2, 2, StorageType.CSR, [[(0, 1)], [(0, 1), (1, 0)]]⟩ [1, 1] =
        Outcome.err SprsError.SingularMatrix ∧
      lsolve_csc_dense_rhs ⟨2, 2, StorageType.CSC, [[(0, 1), (1, 1)], []]⟩ [1, 1] =
        Outcome.err SprsError.SingularMatrix ∧
      usolve_csc_dense_rhs ⟨2, 2, StorageType.CSC, [[], [(0, 1), (1, 1)]]⟩ [1, 1] =
        Outcome.err SprsError.SingularMatrix ∧
      usolve_csr_dense_rhs ⟨2, 2, StorageType.CSR, [[(0, 0), (1, 2)], [(1, 1)]]⟩ [1, 1] =
        Outcome.err SprsError.SingularMatrix ∧
      ∃ out, lsolve_csc_sparse_rhs ⟨2, 2, StorageType.CSC, [[(0, 0), (1, 1)], [(1, 1)]]⟩
          [(0, 5)] ⟨4, [], []⟩ [0, 0] [false, false] =
        SpOutcome.err SprsError.SingularMatrix out) :=
  ⟨⟨⟨by decide, rfl, by decide, by decide, by decide⟩,
      ⟨by decide, by decide⟩,
      ⟨by decide, by decide⟩,
      ⟨by decide, by decide⟩,
      ⟨by decide, by decide, by simp [sortedOuter, List.chain'_cons], by decide,
        Reach.root 0 (by decide)⟩⟩,
    claim_C6.1 ⟨2, 2, StorageType.CSR, [[(0, 1)], [(0, 1), (1, 0)]]⟩ [1, 1] 1
      (by decide) rfl (by decide) (by decide) (by decide),
    claim_C6.2.1 ⟨2, 2, StorageType.CSC, [[(0, 1), (1, 1)], []]⟩ [1, 1] 1
      (by decide) rfl (by decide) (by decide) (by decide),
    claim_C6.2.2.1 ⟨2, 2, StorageType.CSC, [[], [(0, 1), (1, 1)]]⟩ [1, 1] 0
      (by decide) rfl (by decide) (by decide) (by decide),
    claim_C6.2.2.2.1 ⟨2, 2, StorageType.CSR, [[(0, 0), (1, 2)], [(1, 1)]]⟩ [1, 1] 0
      (by decide) rfl (by decide) (by decide) (by decide),
    claim_C6.2.2.2.2 ⟨2, 2, StorageType.CSC, [[(0, 0), (1, 1)], [(1, 1)]]⟩
      [(0, 5)] ⟨4, [], []⟩ [0, 0] [false, false] 0
      (by decide) (by decide) (by simp [sortedOuter, List.chain'_cons]) rfl rfl
      (by decide) rfl rfl rfl (by decide) (by decide)
      (Reach.root 0 (by decide))⟩

end Sprs
